import Mathlib

/-!
# GREASY scheduler core: a shallow embedding of `AbstractSchedulerEngine`

The definitions below transcribe `src/abstractschedulerengine.cpp`.  Task
pointers are task ids resolved through `taskMap`; a lookup of an absent id is
the C++ null dereference and makes the operation fail (`none`).  Recursion and
loops carry a fuel argument; `none` is also the answer when fuel runs out.
-/

namespace Greasy

/-- The states of a task (`GreasyTask::TaskStates`). -/
inductive TaskState
  | blocked
  | waiting
  | running
  | completed
  | failed
  | cancelled
  deriving DecidableEq

/-- Modelled from the spec: the record `GreasyTask` (class `GreasyTask` is not among
the sources).  The task id is the key under which the record sits in `taskMap`. -/
structure GreasyTask where
  dependencies : List Nat
  taskState : TaskState
  retries : Nat
  returnCode : Int
  deriving DecidableEq

namespace GreasyTask

/-- Modelled from the spec: `GreasyTask::isWaiting`, state `waiting` of §3. -/
def isWaiting (t : GreasyTask) : Bool := t.taskState == TaskState.waiting

/-- Modelled from the spec: `GreasyTask::isBlocked`, state `blocked` of §3. -/
def isBlocked (t : GreasyTask) : Bool := t.taskState == TaskState.blocked

/-- Modelled from the spec: `GreasyTask::hasDependencies`, `dependencies ≠ ∅`. -/
def hasDependencies (t : GreasyTask) : Bool := !t.dependencies.isEmpty

/-- Modelled from the spec: `GreasyTask::removeDependency`.  §4.5 "Remove `parent.id`
from `c.dependencies`"; §8 allows `blocked → waiting` on the final parent completion
and no transition out of a terminal state. -/
def removeDependency (t : GreasyTask) (parent : Nat) : GreasyTask :=
  let deps := t.dependencies.filter (fun d => d != parent)
  { t with
    dependencies := deps
    taskState :=
      if deps.isEmpty && t.taskState == TaskState.blocked then TaskState.waiting
      else t.taskState }

/-- Modelled from the spec: `GreasyTask::setTaskState`. -/
def setTaskState (t : GreasyTask) (s : TaskState) : GreasyTask := { t with taskState := s }

/-- Modelled from the spec: `GreasyTask::addRetryAttempt`, "increment `retries`". -/
def addRetryAttempt (t : GreasyTask) : GreasyTask := { t with retries := t.retries + 1 }

/-- Modelled from the spec: `GreasyTask::setReturnCode`, "populate the task's `return_code`". -/
def setReturnCode (t : GreasyTask) (rc : Int) : GreasyTask := { t with returnCode := rc }

end GreasyTask

/-- The members of `AbstractSchedulerEngine` the scheduler reads and writes.
The last four fields are observation fields: `dispatched` lists the tasks handed to
`allocate`, in order; `nwaits` counts the calls of `waitForAnyWorker`; `pushed`
lists the tasks pushed onto `taskQueue` and `popped` the tasks the main loop took
from its front (line 106), both in order. -/
structure Engine where
  /-- The map `taskMap` from task id to task. -/
  taskMap : Nat → Option GreasyTask
  /-- The ordered set `validTasks`, in iteration order. -/
  validTasks : List Nat
  /-- The map `revDepMap` from task id to the list of dependent ids. -/
  revDepMap : List (Nat × List Nat)
  /-- The FIFO `taskQueue`, front first. -/
  taskQueue : List Nat
  /-- The set `blockedTasks`. -/
  blockedTasks : Finset Nat
  /-- The FIFO `freeWorkers`, front first. -/
  freeWorkers : List Int
  /-- The worker-to-task bindings (`busy_bindings` of the spec), a map keyed by worker id. -/
  taskAssignation : List (Int × Nat)
  nworkers : Int
  /-- The value of configuration key `MaxRetries`, when the key exists. -/
  maxRetriesCfg : Option Int
  n_slurm_reservation_cpus : Int
  usecpubinding : Bool
  n_node_cpus : Int
  dispatched : List Nat
  nwaits : Nat
  pushed : List Nat
  popped : List Nat

namespace Engine

/-- Write a task record back under its id (mutation through a `GreasyTask*`). -/
def setTask (st : Engine) (id : Nat) (t : GreasyTask) : Engine :=
  { st with taskMap := fun x => if x = id then some t else st.taskMap x }

/-- The list `revDepMap[id]`, empty when the key is absent. -/
def children (st : Engine) (id : Nat) : List Nat :=
  (st.revDepMap.lookup id).getD []

end Engine

/-- The body of the `for` loop of `updateDependencies` for one child `c`, with the
recursive call abstracted as `recurse`.  The child pointer `taskMap[*it]` is only
dereferenced inside the two branches. -/
def updateChild (recurse : Engine → Nat → Option Engine) (taskId : Nat) (state : TaskState)
    (st : Engine) (c : Nat) : Option Engine :=
  if state = TaskState.completed then
    match st.taskMap c with
    | none => none
    | some child =>
      let child1 := child.removeDependency taskId
      let st1 := st.setTask c child1
      if !child1.hasDependencies then
        some { st1 with
          blockedTasks := st1.blockedTasks.erase c
          taskQueue := st1.taskQueue ++ [c]
          pushed := st1.pushed ++ [c] }
      else some st1
  else if state = TaskState.failed ∨ state = TaskState.cancelled then
    match st.taskMap c with
    | none => none
    | some child =>
      let st1 := st.setTask c (child.setTaskState TaskState.cancelled)
      let st2 := { st1 with blockedTasks := st1.blockedTasks.erase c }
      recurse st2 c
  else some st

/-- `AbstractSchedulerEngine::updateDependencies(parent)`. -/
def updateDependencies : Nat → Engine → Nat → Option Engine
  | 0, _, _ => none
  | fuel + 1, st, parent =>
    match st.taskMap parent with
    | none => none
    | some p =>
      let taskId := parent
      let state := p.taskState
      match st.revDepMap.lookup taskId with
      | none => some st
      | some cs => cs.foldlM (updateChild (updateDependencies fuel) taskId state) st

/-- Modelled from the spec: `allocate` (§4.2; the launcher back ends are not among the
sources).  The task is bound to the head of `freeWorkers`, its state becomes
`running`, the binding is recorded, and the task is handed to the back end.
Popping an empty `freeWorkers` fails. -/
def allocate (st : Engine) (task : Nat) : Option Engine :=
  match st.freeWorkers, st.taskMap task with
  | w :: rest, some t =>
    some { st.setTask task (t.setTaskState TaskState.running) with
      freeWorkers := rest
      taskAssignation := st.taskAssignation.filter (fun b => b.1 != w) ++ [(w, task)]
      dispatched := st.dispatched ++ [task] }
  | _, _ => none

/-- `AbstractSchedulerEngine::taskEpilogue(task)`. -/
def taskEpilogue (fuel : Nat) (st : Engine) (task : Nat) : Option Engine :=
  match st.taskMap task with
  | none => none
  | some t =>
    let maxRetries : Int :=
      match st.maxRetriesCfg with
      | some v => v
      | none => 0
    if t.returnCode ≠ 0 then
      if maxRetries > 0 ∧ (t.retries : Int) < maxRetries then
        allocate (st.setTask task t.addRetryAttempt) task
      else
        updateDependencies fuel (st.setTask task (t.setTaskState TaskState.failed)) task
    else
      updateDependencies fuel (st.setTask task (t.setTaskState TaskState.completed)) task

/-- Modelled from the spec: the handling of one completion inside `waitForAnyWorker`
(§4.3; the launcher back ends are not among the sources).  Worker `w` has finished
`task` with return code `rc`: the worker goes back to `freeWorkers`, its binding is
removed, the return code is stored, and the epilogue runs. -/
def workerCompleted (fuel : Nat) (st : Engine) (w : Int) (task : Nat) (rc : Int) :
    Option Engine :=
  match st.taskMap task with
  | none => none
  | some t =>
    taskEpilogue fuel
      { st.setTask task (t.setReturnCode rc) with
        freeWorkers := st.freeWorkers ++ [w]
        taskAssignation := st.taskAssignation.filter (fun b => b.1 != w) }
      task

/-- Modelled from the spec: `waitForAnyWorker` (§4.3; the launcher back ends are not
among the sources).  The back end reports one completion per call: event number
`nwaits` of `backend` selects one of the current bindings and gives its return
code.  With no binding (no task running) the call fails. -/
def waitForAnyWorker (backend : Nat → Nat × Int) (fuel : Nat) (st : Engine) : Option Engine :=
  match st.taskAssignation[(backend st.nwaits).1 % st.taskAssignation.length]? with
  | none => none
  | some (w, task) =>
    workerCompleted fuel { st with nwaits := st.nwaits + 1 } w task (backend st.nwaits).2

/-- One iteration of the classification loop of `runScheduler` (lines 94-98). -/
def classifyStep (st : Engine) (id : Nat) : Option Engine :=
  match st.taskMap id with
  | none => none
  | some task =>
    if task.isWaiting then
      some { st with taskQueue := st.taskQueue ++ [id], pushed := st.pushed ++ [id] }
    else if task.isBlocked then some { st with blockedTasks := insert id st.blockedTasks }
    else some st

/-- The inner loop `while (!taskQueue.empty())` of `runScheduler`. -/
def innerLoop (backend : Nat → Nat × Int) : Nat → Engine → Option Engine
  | 0, _ => none
  | fuel + 1, st =>
    match st.taskQueue with
    | [] => some st
    | task :: rest =>
      if st.freeWorkers ≠ [] then
        (allocate { st with taskQueue := rest, popped := st.popped ++ [task] } task).bind
          (innerLoop backend fuel)
      else
        (waitForAnyWorker backend fuel st).bind (innerLoop backend fuel)

/-- The main scheduling loop of `runScheduler` (lines 101-120). -/
def mainLoop (backend : Nat → Nat × Int) : Nat → Engine → Option Engine
  | 0, _ => none
  | fuel + 1, st =>
    if st.taskQueue ≠ [] ∨ st.blockedTasks ≠ ∅ then
      (innerLoop backend fuel st).bind fun st1 =>
        if st1.blockedTasks ≠ ∅ then
          (waitForAnyWorker backend fuel st1).bind (mainLoop backend fuel)
        else mainLoop backend fuel st1
    else some st

/-- The final loop `while (freeWorkers.size()!=nworkers)` of `runScheduler`. -/
def drainLoop (backend : Nat → Nat × Int) : Nat → Engine → Option Engine
  | 0, _ => none
  | fuel + 1, st =>
    if (st.freeWorkers.length : Int) ≠ st.nworkers then
      (waitForAnyWorker backend fuel st).bind (drainLoop backend fuel)
    else some st

/-- `AbstractSchedulerEngine::runScheduler()`. -/
def runScheduler (backend : Nat → Nat × Int) (fuel : Nat) (st : Engine) : Option Engine :=
  if st.nworkers = 0 then some st
  else
    (st.validTasks.foldlM classifyStep st).bind fun st1 =>
      (mainLoop backend fuel st1).bind (drainLoop backend fuel)

/-- The states at the head of the inner loop of `runScheduler`, in order, up to the
exit of the loop (or up to the point where the run fails or the fuel ends). -/
def innerTrace (backend : Nat → Nat × Int) : Nat → Engine → List Engine
  | 0, st => [st]
  | fuel + 1, st =>
    match st.taskQueue with
    | [] => [st]
    | task :: rest =>
      if st.freeWorkers ≠ [] then
        match allocate { st with taskQueue := rest, popped := st.popped ++ [task] } task with
        | none => [st]
        | some st1 => st :: innerTrace backend fuel st1
      else
        match waitForAnyWorker backend fuel st with
        | none => [st]
        | some st1 => st :: innerTrace backend fuel st1

/-- The states at the loop heads of the main scheduling loop of `runScheduler`. -/
def mainTrace (backend : Nat → Nat × Int) : Nat → Engine → List Engine
  | 0, st => [st]
  | fuel + 1, st =>
    if st.taskQueue ≠ [] ∨ st.blockedTasks ≠ ∅ then
      innerTrace backend fuel st ++
        match innerLoop backend fuel st with
        | none => []
        | some st1 =>
          if st1.blockedTasks ≠ ∅ then
            match waitForAnyWorker backend fuel st1 with
            | none => []
            | some st2 => mainTrace backend fuel st2
          else mainTrace backend fuel st1
    else [st]

/-- The states at the head of the final loop of `runScheduler`. -/
def drainTrace (backend : Nat → Nat × Int) : Nat → Engine → List Engine
  | 0, st => [st]
  | fuel + 1, st =>
    if (st.freeWorkers.length : Int) ≠ st.nworkers then
      match waitForAnyWorker backend fuel st with
      | none => [st]
      | some st1 => st :: drainTrace backend fuel st1
    else [st]

/-- The states `runScheduler` goes through between its calls of `allocate` and
`waitForAnyWorker`, from the end of the classification pass on, in order. -/
def runTrace (backend : Nat → Nat × Int) (fuel : Nat) (st : Engine) : List Engine :=
  if st.nworkers = 0 then [st]
  else
    match st.validTasks.foldlM classifyStep st with
    | none => []
    | some st1 =>
      mainTrace backend fuel st1 ++
        match mainLoop backend fuel st1 with
        | none => []
        | some st2 => drainTrace backend fuel st2

/-- `AbstractSchedulerEngine::getDefaultNWorkers()`; `/` on `int` truncates. -/
def getDefaultNWorkers (st : Engine) : Engine :=
  let nworkers := st.n_slurm_reservation_cpus
  { st with nworkers := if nworkers > 4 then Int.tdiv nworkers 2 else nworkers }

/-- The value that 32-bit two's-complement `int` arithmetic yields for an expression
whose exact value is `x`: `x` reduced modulo `2^32` into `[-2^31, 2^31)`. -/
def wrapInt (x : Int) : Int := (x + 2147483648) % 4294967296 - 2147483648

/-- The loop of `AbstractSchedulerEngine::init()` that fills `freeWorkers`. The loop
counter is an `int` and worker ids are `int`s (`basicengine.h`), so the product
`i*n_node_cpus` is computed in `int` arithmetic and wraps; `/` truncates. -/
def init (st : Engine) : Engine :=
  (List.range st.nworkers.toNat).foldl
    (fun (s : Engine) (i : Nat) =>
      let worker_id : Int :=
        if s.usecpubinding then Int.tdiv (wrapInt ((i : Int) * s.n_node_cpus)) s.nworkers
        else (i : Int)
      { s with freeWorkers := s.freeWorkers ++ [worker_id] })
    st

/-- The back end reports that `task` has finished with return code `rc`: the
completion is handled as in `waitForAnyWorker`, for the worker bound to `task`. -/
def completeTask (fuel : Nat) (st : Engine) (task : Nat) (rc : Int) : Option Engine :=
  match st.taskAssignation.find? (fun b => b.2 == task) with
  | none => none
  | some (w, _) => workerCompleted fuel st w task rc

/-- The successive attempts of `task` finish with the given return codes, in order. -/
def runAttempts (fuel : Nat) (task : Nat) : List Int → Engine → Option Engine
  | [], st => some st
  | rc :: rcs, st => (completeTask fuel st task rc).bind (runAttempts fuel task rcs)

/-! ## Vocabulary of the statements -/

/-- Task `c` is listed in `revDepMap[p]`. -/
def Edge (R : List (Nat × List Nat)) (p c : Nat) : Prop := c ∈ (R.lookup p).getD []

/-- Task `x` is reachable from `p` through one or more reverse-dependency edges. -/
def Reach (R : List (Nat × List Nat)) : Nat → Nat → Prop := Relation.TransGen (Edge R)

/-- The reverse-dependency index has no cycle. -/
def Acyclic (R : List (Nat × List Nat)) : Prop := ∀ a, ¬ Reach R a a

/-- The dependencies of task `x`, empty when `x` is not in the task map. -/
def Engine.depsOf (st : Engine) (x : Nat) : List Nat :=
  match st.taskMap x with
  | some t => t.dependencies
  | none => []

/-- The state of task `x`, when `x` is in the task map. -/
def Engine.stateOf (st : Engine) (x : Nat) : Option TaskState :=
  (st.taskMap x).map GreasyTask.taskState

/-- The retry counter of task `x`, when `x` is in the task map. -/
def Engine.retriesOf (st : Engine) (x : Nat) : Option Nat :=
  (st.taskMap x).map GreasyTask.retries

/-- Child `c` has no dependency other than `parent`. -/
def Engine.onlyDep (st : Engine) (parent c : Nat) : Bool :=
  (st.depsOf c).all fun d => d == parent

/-- State `s2` is `s1` with every task satisfying `P` set to `cancelled` and removed
from the blocked set, and nothing else changed. -/
structure CascadeOf (P : Nat → Prop) (s1 s2 : Engine) : Prop where
  task_in : ∀ x, P x →
    s2.taskMap x = (s1.taskMap x).map fun t => t.setTaskState TaskState.cancelled
  task_out : ∀ x, ¬ P x → s2.taskMap x = s1.taskMap x
  blocked : ∀ x, x ∈ s2.blockedTasks ↔ x ∈ s1.blockedTasks ∧ ¬ P x
  frame : { s2 with taskMap := s1.taskMap, blockedTasks := s1.blockedTasks } = s1

/-- What the cancellation cascade from `p` does, for every state over the index `R`
whose descendants of `p` are all in the task map, given enough fuel. -/
def CascadeSpec (R : List (Nat × List Nat)) (p : Nat) : Prop :=
  ∃ N, ∀ n, N ≤ n → ∀ s : Engine, s.revDepMap = R →
    (∃ t, s.taskMap p = some t ∧
      (t.taskState = TaskState.failed ∨ t.taskState = TaskState.cancelled)) →
    (∀ x, Reach R p x → (s.taskMap x).isSome = true) →
    ∃ s2, updateDependencies n s p = some s2 ∧ CascadeOf (Reach R p) s s2

/-- State `s2` is `s1` after the completion of `parent` was propagated to the
children `cs`: `parent` is removed from their dependencies, and those left without
dependencies are erased from the blocked set and queued in list order. -/
structure ReleaseOf (parent : Nat) (cs : List Nat) (s1 s2 : Engine) : Prop where
  task_in : ∀ x, x ∈ cs →
    s2.taskMap x = (s1.taskMap x).map fun t => t.removeDependency parent
  task_out : ∀ x, x ∉ cs → s2.taskMap x = s1.taskMap x
  queue : s2.taskQueue = s1.taskQueue ++ cs.filter fun c => s1.onlyDep parent c
  pushed : s2.pushed = s1.pushed ++ cs.filter fun c => s1.onlyDep parent c
  blocked : ∀ x, x ∈ s2.blockedTasks ↔
    x ∈ s1.blockedTasks ∧ ¬ (x ∈ cs ∧ s1.onlyDep parent x = true)
  frame : { s2 with taskMap := s1.taskMap, taskQueue := s1.taskQueue,
                    blockedTasks := s1.blockedTasks, pushed := s1.pushed } = s1

/-- State `s` of a run started from `st0`: `task` is running its attempt number
`i + 1`, having been dispatched `i + 1` times since `st0`. -/
structure Attempting (st0 : Engine) (task k i : Nat) (s : Engine) : Prop where
  task_rec : ∃ t, s.taskMap task = some t ∧ t.retries = i
  bound : ∃ w, (w, task) ∈ s.taskAssignation
  revDep : s.revDepMap = st0.revDepMap
  cfg : s.maxRetriesCfg = some (k : Int)
  present : ∀ x, Reach st0.revDepMap task x → (s.taskMap x).isSome = true
  count : s.dispatched.count task = st0.dispatched.count task + 1 + i

/-- Task `i` is bound to a worker (it is running). -/
def Engine.bound (s : Engine) (i : Nat) : Prop := ∃ w, (w, i) ∈ s.taskAssignation

/-- The states `completed`, `failed` and `cancelled`. -/
def TaskState.terminal : TaskState → Bool
  | TaskState.completed => true
  | TaskState.failed => true
  | TaskState.cancelled => true
  | _ => false

/-- A load as the task loader hands it over and `init` leaves it: the valid ids are
distinct and name tasks of the map whose dependencies are valid tasks; a task
without dependencies is `waiting`, one with dependencies is `blocked`; the
reverse-dependency index lists, once each, exactly the dependents of every task;
nothing is queued, blocked, bound or logged yet; `freeWorkers` holds `nworkers ≥ 1`
distinct worker ids. -/
structure LoadOK (st : Engine) : Prop where
  valid_nodup : st.validTasks.Nodup
  present : ∀ i ∈ st.validTasks, (st.taskMap i).isSome = true
  state_waiting : ∀ i ∈ st.validTasks, st.depsOf i = [] → st.stateOf i = some TaskState.waiting
  state_blocked : ∀ i ∈ st.validTasks, st.depsOf i ≠ [] → st.stateOf i = some TaskState.blocked
  deps_valid : ∀ i ∈ st.validTasks, ∀ d ∈ st.depsOf i, d ∈ st.validTasks
  index_sound : ∀ e ∈ st.revDepMap, e.1 ∈ st.validTasks ∧ e.2.Nodup ∧
    ∀ c ∈ e.2, c ∈ st.validTasks ∧ e.1 ∈ st.depsOf c
  index_complete : ∀ c ∈ st.validTasks, ∀ p ∈ st.depsOf c, c ∈ st.children p
  queue_empty : st.taskQueue = []
  blocked_empty : st.blockedTasks = ∅
  unbound : st.taskAssignation = []
  workers_nodup : st.freeWorkers.Nodup
  workers_count : (st.freeWorkers.length : Int) = st.nworkers
  workers_pos : 0 < st.nworkers
  fresh : st.dispatched = [] ∧ st.pushed = [] ∧ st.popped = []

/-- The place of valid task `i` in state `s`: it is in the ready queue exactly when
`waiting`, in the blocked set exactly when `blocked`, bound to a worker exactly when
`running`; it has dependencies left exactly when `blocked` or `cancelled`; it was
taken from the queue exactly when `running`, `completed` or `failed`; and when
`cancelled`, one of its remaining dependencies is `failed` or `cancelled`. -/
structure Phase (s : Engine) (i : Nat) : Prop where
  queued : i ∈ s.taskQueue ↔ s.stateOf i = some TaskState.waiting
  blocked : i ∈ s.blockedTasks ↔ s.stateOf i = some TaskState.blocked
  running : s.bound i ↔ s.stateOf i = some TaskState.running
  deps : s.depsOf i ≠ [] ↔
    (s.stateOf i = some TaskState.blocked ∨ s.stateOf i = some TaskState.cancelled)
  popped : i ∈ s.popped ↔
    (s.stateOf i = some TaskState.running ∨ s.stateOf i = some TaskState.completed ∨
      s.stateOf i = some TaskState.failed)
  cause : s.stateOf i = some TaskState.cancelled →
    ∃ q ∈ s.depsOf i, s.stateOf q = some TaskState.failed ∨
      s.stateOf q = some TaskState.cancelled

/-- The invariant of the scheduler loop. -/
structure Inv (s : Engine) : Prop where
  acyclic : Acyclic s.revDepMap
  present : ∀ i ∈ s.validTasks, (s.taskMap i).isSome = true
  edge_valid : ∀ p c, Edge s.revDepMap p c → p ∈ s.validTasks ∧ c ∈ s.validTasks
  child_nodup : ∀ p, (s.children p).Nodup
  deps_iff : ∀ c ∈ s.validTasks, ∀ p,
    p ∈ s.depsOf c ↔ (Edge s.revDepMap p c ∧ s.stateOf p ≠ some TaskState.completed)
  phase : ∀ i ∈ s.validTasks, Phase s i
  queue_nodup : s.taskQueue.Nodup
  queue_valid : ∀ i ∈ s.taskQueue, i ∈ s.validTasks
  blocked_valid : ∀ i ∈ s.blockedTasks, i ∈ s.validTasks
  bound_valid : ∀ b ∈ s.taskAssignation, b.2 ∈ s.validTasks
  bound_nodup : (s.taskAssignation.map Prod.snd).Nodup
  cancel_down : ∀ c ∈ s.validTasks, ∀ p ∈ s.depsOf c,
    (s.stateOf p = some TaskState.failed ∨ s.stateOf p = some TaskState.cancelled) →
    s.stateOf c = some TaskState.cancelled
  workers_nodup : (s.freeWorkers ++ s.taskAssignation.map Prod.fst).Nodup
  workers_count : ((s.freeWorkers.length + s.taskAssignation.length : Nat) : Int) = s.nworkers
  workers_pos : 0 < s.nworkers
  fifo : s.pushed = s.popped ++ s.taskQueue
  dispatched_popped : ∀ c ∈ s.dispatched, c ∈ s.popped
  popped_valid : ∀ c ∈ s.popped, c ∈ s.validTasks

/-- What one step of the scheduler loop (an `allocate` from the loop or a
`waitForAnyWorker`) may change between state `s` and the next state `s2`; a step
that changes nothing is allowed. -/
structure Trans (s s2 : Engine) : Prop where
  config : s2.validTasks = s.validTasks ∧ s2.revDepMap = s.revDepMap ∧
    s2.nworkers = s.nworkers ∧ s2.maxRetriesCfg = s.maxRetriesCfg
  terminal_kept : ∀ x st, s.stateOf x = some st → st.terminal = true → s2.stateOf x = some st
  blocked_sub : ∀ x, x ∈ s2.blockedTasks → x ∈ s.blockedTasks
  queue_sub : ∀ x, x ∈ s2.taskQueue → x ∈ s.taskQueue ∨ x ∈ s.blockedTasks
  pushed_ext : ∃ new, s2.pushed = s.pushed ++ new ∧ ∀ x ∈ new, x ∈ s.blockedTasks
  dispatched_ext : ∃ new, s2.dispatched = s.dispatched ++ new ∧
    ∀ x ∈ new, s.depsOf x = [] ∧ x ∈ s.validTasks
  outside : ∀ x, x ∉ s.validTasks → s2.stateOf x = s.stateOf x
  waits : s2.nwaits = s.nwaits ∨ s.taskAssignation ≠ []

/-- What `updateDependencies` leaves alone, in any state: the worker pool and the
bindings, the logs of `allocate` and of the main loop; the ready queue and the
record of the pushes grow by the same tasks. -/
structure Frame (s s2 : Engine) : Prop where
  workers : s2.freeWorkers = s.freeWorkers ∧ s2.taskAssignation = s.taskAssignation ∧
    s2.nworkers = s.nworkers
  logs : s2.popped = s.popped ∧ s2.dispatched = s.dispatched ∧ s2.nwaits = s.nwaits
  queue : ∃ new, s2.taskQueue = s.taskQueue ++ new ∧ s2.pushed = s.pushed ++ new

/-- The worker pool is sound: the free workers and the bound workers are pairwise
distinct, and together they are `n`. -/
def WorkersOK (n : Int) (s : Engine) : Prop :=
  (s.freeWorkers ++ s.taskAssignation.map Prod.fst).Nodup ∧
    ((s.freeWorkers.length + s.taskAssignation.length : Nat) : Int) = n

/-- The list `tr` starts with `s`, all its states satisfy the invariant, and each
state is followed by one that a step of the loop can produce. -/
structure TraceOK (tr : List Engine) (s : Engine) : Prop where
  head : tr.head? = some s
  inv : ∀ x ∈ tr, Inv x
  chain : List.Chain' Trans tr

/-- The weight of task `i` in the termination measure of the scheduler loop. -/
def weight (s : Engine) (i : Nat) : Nat :=
  match s.taskMap i with
  | none => 0
  | some t =>
    match t.taskState with
    | TaskState.waiting => 2 + ((s.maxRetriesCfg.getD 0).toNat - t.retries)
    | TaskState.blocked => 2 + ((s.maxRetriesCfg.getD 0).toNat - t.retries)
    | TaskState.running => 1 + ((s.maxRetriesCfg.getD 0).toNat - t.retries)
    | _ => 0

/-- The termination measure of the scheduler loop. -/
def loopMeasure (s : Engine) : Nat := (s.validTasks.map (weight s)).sum

/-! ## Concrete engines used to instantiate the theorems -/

/-- An engine over the given task records, index and workers, not yet scheduled. -/
def mkEngine (tasks : List (Nat × GreasyTask)) (valid : List Nat)
    (revDeps : List (Nat × List Nat)) (blocked : Finset Nat) (workers : List Int)
    (maxRetries : Option Int) : Engine :=
  { taskMap := fun i => tasks.lookup i
    validTasks := valid
    revDepMap := revDeps
    taskQueue := []
    blockedTasks := blocked
    freeWorkers := workers
    taskAssignation := []
    nworkers := workers.length
    maxRetriesCfg := maxRetries
    n_slurm_reservation_cpus := workers.length
    usecpubinding := false
    n_node_cpus := workers.length
    dispatched := []
    nwaits := 0
    pushed := []
    popped := [] }

/-- A task record with the given dependencies and state. -/
def mkTask (deps : List Nat) (state : TaskState) : GreasyTask :=
  { dependencies := deps, taskState := state, retries := 0, returnCode := 0 }

/-- The chain 1 ← 2 ← 3 in which task 1 has failed and 2, 3 are blocked. -/
def exFailedChain : Engine :=
  mkEngine
    [(1, { mkTask [] TaskState.failed with returnCode := 1 }),
     (2, mkTask [1] TaskState.blocked), (3, mkTask [2] TaskState.blocked)]
    [1, 2, 3] [(1, [2]), (2, [3])] {2, 3} [0, 1] none

/-- Task 1 has completed; 2 depends on 1 only, 3 depends on 1 and 4. -/
def exCompletedFork : Engine :=
  mkEngine
    [(1, mkTask [] TaskState.completed), (2, mkTask [1] TaskState.blocked),
     (3, mkTask [1, 4] TaskState.blocked), (4, mkTask [] TaskState.running)]
    [1, 2, 3, 4] [(1, [2, 3]), (4, [3])] {2, 3} [1] none

/-- The chain 1 ← 2 ← 3 as loaded, two workers, no retry. -/
def exLoadChain : Engine :=
  mkEngine
    [(1, mkTask [] TaskState.waiting), (2, mkTask [1] TaskState.blocked),
     (3, mkTask [2] TaskState.blocked)]
    [1, 2, 3] [(1, [2]), (2, [3])] ∅ [0, 1] none

/-- Task 1 has just returned code 1 and its worker 0 is back in `freeWorkers`; task 2
waits for it; `MaxRetries = 2`. -/
def exRetry : Engine :=
  mkEngine
    [(1, { mkTask [] TaskState.running with returnCode := 1 }),
     (2, mkTask [1] TaskState.blocked)]
    [1, 2] [(1, [2])] {2} [0] (some 2)

/-- Task 1 is ready, task 2 waits for it; one worker; `MaxRetries = 2`. -/
def exRetryStart : Engine :=
  mkEngine
    [(1, mkTask [] TaskState.waiting), (2, mkTask [1] TaskState.blocked)]
    [1, 2] [(1, [2])] {2} [0] (some 2)

/-- The diamond 1 ← {2, 3} ← 4 in which task 1 has failed: task 4 is reachable from 1
through 2 and through 3. -/
def exFailedDiamond : Engine :=
  mkEngine
    [(1, { mkTask [] TaskState.failed with returnCode := 1 }),
     (2, mkTask [1] TaskState.blocked), (3, mkTask [1] TaskState.blocked),
     (4, mkTask [2, 3] TaskState.blocked)]
    [1, 2, 3, 4] [(1, [2, 3]), (2, [4]), (3, [4])] {2, 3, 4} [0, 1] none

/-- An engine before `init`: three workers to be bound with strides over eight CPUs,
two independent tasks. -/
def exBinding : Engine :=
  { mkEngine [(1, mkTask [] TaskState.waiting), (2, mkTask [] TaskState.waiting)]
      [1, 2] [] ∅ [] none with
    nworkers := 3
    usecpubinding := true
    n_node_cpus := 8 }

/-- An engine before `init`: two workers to be bound with strides over a single CPU,
two independent tasks. -/
def exOversubscribed : Engine :=
  { mkEngine [(1, mkTask [] TaskState.waiting), (2, mkTask [] TaskState.waiting)]
      [1, 2] [] ∅ [] none with
    nworkers := 2
    usecpubinding := true
    n_node_cpus := 1 }

/-- The diamond 1 ← {2, 3} ← 4 as loaded, two workers, no retry. -/
def exLoadDiamond : Engine :=
  mkEngine
    [(1, mkTask [] TaskState.waiting), (2, mkTask [1] TaskState.blocked),
     (3, mkTask [1] TaskState.blocked), (4, mkTask [2, 3] TaskState.blocked)]
    [1, 2, 3, 4] [(1, [2, 3]), (2, [4]), (3, [4])] ∅ [0, 1] none

/-- An engine before `init`: three workers without CPU binding. -/
def exNoBinding : Engine :=
  { mkEngine [(1, mkTask [] TaskState.waiting), (2, mkTask [] TaskState.waiting)]
      [1, 2] [] ∅ [] none with
    nworkers := 3
    n_node_cpus := 8 }

/-- An engine before `init`: three workers to be bound with strides over `2^30`
CPUs. -/
def exHugeNode : Engine :=
  { mkEngine [(1, mkTask [] TaskState.waiting), (2, mkTask [] TaskState.waiting)]
      [1, 2] [] ∅ [] none with
    nworkers := 3
    usecpubinding := true
    n_node_cpus := 1073741824 }

/-! ## Theorems -/


theorem lookup_mem {R : List (Nat × List Nat)} {p : Nat} {cs : List Nat}
    (h : R.lookup p = some cs) : (p, cs) ∈ R := by
  induction R with
  | nil => simp at h
  | cons e R ih =>
    obtain ⟨k, v⟩ := e
    rw [List.lookup_cons] at h
    by_cases hk : p = k
    · subst hk; simp at h; simp [h]
    · have : (p == k) = false := by simpa using hk
      rw [this] at h
      exact List.mem_cons_of_mem _ (ih h)

theorem edge_iff {R : List (Nat × List Nat)} {p c : Nat} :
    Edge R p c ↔ ∃ cs, R.lookup p = some cs ∧ c ∈ cs := by
  unfold Edge
  cases h : R.lookup p with
  | none => simp
  | some cs => simp

theorem edge_key {R : List (Nat × List Nat)} {p c : Nat} (h : Edge R p c) :
    p ∈ R.map Prod.fst := by
  obtain ⟨cs, hcs, -⟩ := edge_iff.1 h
  exact List.mem_map.2 ⟨(p, cs), lookup_mem hcs, rfl⟩

theorem acyclic_of_rank {R : List (Nat × List Nat)} (rank : Nat → Nat)
    (h : ∀ e ∈ R, ∀ c ∈ e.2, rank c < rank e.1) : Acyclic R := by
  have hedge : ∀ p c, Edge R p c → rank c < rank p := by
    intro p c hpc
    obtain ⟨cs, hcs, hc⟩ := edge_iff.1 hpc
    exact h (p, cs) (lookup_mem hcs) c hc
  have hreach : ∀ p c, Reach R p c → rank c < rank p := by
    intro p c hpc
    induction hpc with
    | single e => exact hedge _ _ e
    | tail _ e ih => exact lt_trans (hedge _ _ e) ih
  intro a ha
  exact lt_irrefl _ (hreach a a ha)

theorem acc_of_acyclic {R : List (Nat × List Nat)} (hR : Acyclic R) (p : Nat) :
    Acc (fun c q => Edge R q c) p := by
  let K := {q : Nat // q ∈ R.map Prod.fst}
  let r : K → K → Prop := fun a b => Reach R b.1 a.1
  haveI : IsTrans K r := ⟨fun a b c hab hbc => Relation.TransGen.trans hbc hab⟩
  haveI : IsIrrefl K r := ⟨fun a h => hR a.1 h⟩
  have wf : WellFounded r := Finite.wellFounded_of_trans_of_irrefl r
  have key : ∀ k : K, Acc (fun c q => Edge R q c) k.1 := by
    intro k
    induction k using wf.induction with
    | _ k ih =>
      refine Acc.intro _ fun c hc => ?_
      by_cases hck : c ∈ R.map Prod.fst
      · exact ih ⟨c, hck⟩ (Relation.TransGen.single hc)
      · exact Acc.intro _ fun d hd => absurd (edge_key hd) hck
  by_cases hp : p ∈ R.map Prod.fst
  · exact key ⟨p, hp⟩
  · exact Acc.intro _ fun d hd => absurd (edge_key hd) hp


theorem CascadeOf.congr {P Q : Nat → Prop} {s1 s2 : Engine} (h : CascadeOf P s1 s2)
    (hPQ : ∀ x, P x ↔ Q x) : CascadeOf Q s1 s2 := by
  have : P = Q := funext fun x => propext (hPQ x)
  exact this ▸ h

theorem CascadeOf.revDep {P : Nat → Prop} {s1 s2 : Engine} (h : CascadeOf P s1 s2) :
    s2.revDepMap = s1.revDepMap := by simpa using congrArg Engine.revDepMap h.frame

theorem CascadeOf.none {s : Engine} : CascadeOf (fun _ => False) s s :=
  ⟨fun _ h => h.elim, fun _ _ => rfl, fun _ => by simp, rfl⟩

theorem CascadeOf.isSome {P : Nat → Prop} {s1 s2 : Engine} (h : CascadeOf P s1 s2) (x : Nat) :
    (s2.taskMap x).isSome = (s1.taskMap x).isSome := by
  by_cases hx : P x
  · rw [h.task_in x hx]; simp
  · rw [h.task_out x hx]

theorem CascadeOf.trans {P Q : Nat → Prop} {s1 s2 s3 : Engine} (h12 : CascadeOf P s1 s2)
    (h23 : CascadeOf Q s2 s3) : CascadeOf (fun x => P x ∨ Q x) s1 s3 := by
  refine ⟨?_, ?_, ?_, ?_⟩
  · intro x hx
    by_cases hq : Q x
    · rw [h23.task_in x hq]
      by_cases hp : P x
      · rw [h12.task_in x hp]
        cases s1.taskMap x <;> simp [GreasyTask.setTaskState]
      · rw [h12.task_out x hp]
    · rw [h23.task_out x hq]
      exact h12.task_in x (hx.resolve_right hq)
  · intro x hx
    rw [h23.task_out x fun hq => hx (Or.inr hq), h12.task_out x fun hp => hx (Or.inl hp)]
  · intro x
    rw [h23.blocked, h12.blocked]
    tauto
  · have h1 := h12.frame
    have h2 := h23.frame
    cases s1; cases s2; cases s3
    simp only [Engine.mk.injEq] at h1 h2 ⊢
    simp_all

/-- The first step of the cancel branch: child `c` is set to `cancelled` and erased
from the blocked set. -/
theorem cascadeOf_single (s : Engine) (c : Nat) (child : GreasyTask)
    (hc : s.taskMap c = some child) :
    CascadeOf (fun x => x = c)
      s { s.setTask c (child.setTaskState TaskState.cancelled) with
          blockedTasks := (s.setTask c (child.setTaskState TaskState.cancelled)).blockedTasks.erase c } := by
  refine ⟨?_, ?_, ?_, rfl⟩
  · intro x hx
    subst hx
    simp [Engine.setTask, hc]
  · intro x hx
    simp [Engine.setTask, hx]
  · intro x
    simp [Engine.setTask, Finset.mem_erase, and_comm]


theorem cascade_fold (R : List (Nat × List Nat)) (p : Nat) (cs : List Nat)
    (ih : ∀ c ∈ cs, CascadeSpec R c) :
    ∃ N, ∀ n, N ≤ n → ∀ state : TaskState,
      state = TaskState.failed ∨ state = TaskState.cancelled →
      ∀ s : Engine, s.revDepMap = R →
      (∀ c ∈ cs, ∀ x, (x = c ∨ Reach R c x) → (s.taskMap x).isSome = true) →
      ∃ s2, cs.foldlM (updateChild (updateDependencies n) p state) s = some s2 ∧
        CascadeOf (fun x => ∃ c ∈ cs, x = c ∨ Reach R c x) s s2 := by
  induction cs with
  | nil =>
    refine ⟨0, fun n _ _ _ s _ _ => ⟨s, rfl, CascadeOf.none.congr ?_⟩⟩
    simp
  | cons c cs IH =>
    obtain ⟨Nc, hNc⟩ := ih c (List.mem_cons_self _ _)
    obtain ⟨Ncs, hNcs⟩ := IH fun c' hc' => ih c' (List.mem_cons_of_mem _ hc')
    refine ⟨max Nc Ncs, fun n hn state hstate s hs hex => ?_⟩
    have hcsome := hex c (List.mem_cons_self _ _) c (Or.inl rfl)
    obtain ⟨child, hchild⟩ := Option.isSome_iff_exists.1 hcsome
    have hne : state ≠ TaskState.completed := by
      rcases hstate with h | h <;> simp [h]
    have h1 := cascadeOf_single s c child hchild
    obtain ⟨s3, hs3, h23⟩ := hNc n (le_trans (le_max_left _ _) hn) _
      (h1.revDep.trans hs) ⟨child.setTaskState TaskState.cancelled,
        by simp [Engine.setTask], Or.inr rfl⟩
      (fun x hx => by
        rw [h1.isSome]; exact hex c (List.mem_cons_self _ _) x (Or.inr hx))
    have h13 := h1.trans h23
    obtain ⟨s4, hs4, h34⟩ := hNcs n (le_trans (le_max_right _ _) hn) state hstate s3
      (h13.revDep.trans hs)
      (fun c' hc' x hx => by
        rw [h13.isSome]; exact hex c' (List.mem_cons_of_mem _ hc') x hx)
    refine ⟨s4, ?_, (h13.trans h34).congr ?_⟩
    · rw [List.foldlM_cons]
      have : updateChild (updateDependencies n) p state s c = some s3 := by
        unfold updateChild
        simp only [hchild, hne, if_false, hstate, if_true]
        exact hs3
      rw [this]
      exact hs4
    · intro x
      simp only [List.mem_cons, exists_eq_or_imp]

theorem reach_iff_children {R : List (Nat × List Nat)} {p x : Nat} :
    Reach R p x ↔ ∃ c, Edge R p c ∧ (x = c ∨ Reach R c x) := by
  unfold Reach
  rw [Relation.TransGen.head'_iff]
  refine exists_congr fun c => and_congr Iff.rfl ?_
  rw [Relation.reflTransGen_iff_eq_or_transGen]

theorem cascade_spec {R : List (Nat × List Nat)} (hR : Acyclic R) (p : Nat) :
    CascadeSpec R p := by
  induction acc_of_acyclic hR p with
  | intro p _ ih =>
    cases hl : R.lookup p with
    | none =>
      refine ⟨1, fun n hn s hs hp _ => ?_⟩
      obtain ⟨t, ht, -⟩ := hp
      obtain ⟨m, rfl⟩ : ∃ m, n = m + 1 := ⟨n - 1, by omega⟩
      refine ⟨s, by simp [updateDependencies, ht, hs, hl], CascadeOf.none.congr fun x => ?_⟩
      rw [reach_iff_children]
      simp [edge_iff, hl]
    | some cs =>
      have hedge : ∀ c ∈ cs, Edge R p c := fun c hc => edge_iff.2 ⟨cs, hl, hc⟩
      obtain ⟨N, hN⟩ := cascade_fold R p cs fun c hc => ih c (hedge c hc)
      refine ⟨N + 1, fun n hn s hs hp hex => ?_⟩
      obtain ⟨t, ht, hstate⟩ := hp
      obtain ⟨m, rfl⟩ : ∃ m, n = m + 1 := ⟨n - 1, by omega⟩
      obtain ⟨s2, hs2, h2⟩ := hN m (by omega) t.taskState hstate s hs
        (fun c hc x hx => hex x (reach_iff_children.2 ⟨c, hedge c hc, hx⟩))
      refine ⟨s2, by simpa [updateDependencies, ht, hs, hl] using hs2, h2.congr fun x => ?_⟩
      rw [reach_iff_children]
      simp [edge_iff, hl]


theorem removeDependency_idem (t : GreasyTask) (p : Nat) :
    (t.removeDependency p).removeDependency p = t.removeDependency p := by
  cases t with
  | mk deps state r rc =>
    simp only [GreasyTask.removeDependency, List.filter_filter, Bool.and_self]
    by_cases h : (List.filter (fun d => d != p) deps).isEmpty = true <;>
      by_cases h2 : state = TaskState.blocked <;> simp [h, h2]

theorem removeDependency_deps (t : GreasyTask) (p : Nat) :
    (t.removeDependency p).dependencies = t.dependencies.filter fun d => d != p := rfl

theorem hasDependencies_removeDependency (t : GreasyTask) (p : Nat) :
    (t.removeDependency p).hasDependencies = !(t.dependencies.all fun d => d == p) := by
  simp only [GreasyTask.hasDependencies, removeDependency_deps]
  congr 1
  rw [Bool.eq_iff_iff]
  simp [List.isEmpty_iff, List.filter_eq_nil_iff]

theorem onlyDep_map_removeDependency (s1 s2 : Engine) (p x : Nat)
    (h : s2.taskMap x = (s1.taskMap x).map fun t => t.removeDependency p) :
    s2.onlyDep p x = s1.onlyDep p x := by
  unfold Engine.onlyDep Engine.depsOf
  rw [h]
  cases s1.taskMap x with
  | none => rfl
  | some t =>
    simp only [Option.map_some', removeDependency_deps]
    rw [Bool.eq_iff_iff]
    simp [List.mem_filter]

theorem onlyDep_same (s1 s2 : Engine) (p x : Nat) (h : s2.taskMap x = s1.taskMap x) :
    s2.onlyDep p x = s1.onlyDep p x := by
  unfold Engine.onlyDep Engine.depsOf
  rw [h]

theorem ReleaseOf.onlyDep {p : Nat} {cs : List Nat} {s1 s2 : Engine}
    (h : ReleaseOf p cs s1 s2) (x : Nat) : s2.onlyDep p x = s1.onlyDep p x := by
  by_cases hx : x ∈ cs
  · exact onlyDep_map_removeDependency _ _ _ _ (h.task_in x hx)
  · exact onlyDep_same _ _ _ _ (h.task_out x hx)

theorem ReleaseOf.nil (p : Nat) (s : Engine) : ReleaseOf p [] s s :=
  ⟨fun _ h => by simp at h, fun _ _ => rfl, by simp, by simp, fun _ => by simp, rfl⟩

theorem ReleaseOf.cons {p c : Nat} {cs : List Nat} {s1 s2 s3 : Engine}
    (h12 : ReleaseOf p [c] s1 s2) (h23 : ReleaseOf p cs s2 s3) :
    ReleaseOf p (c :: cs) s1 s3 := by
  have hod : ∀ x, s2.onlyDep p x = s1.onlyDep p x := h12.onlyDep
  refine ⟨?_, ?_, ?_, ?_, ?_, ?_⟩
  · intro x hx
    by_cases hxcs : x ∈ cs
    · rw [h23.task_in x hxcs]
      by_cases hxc : x = c
      · rw [h12.task_in x (by simp [hxc])]
        cases s1.taskMap x <;> simp [removeDependency_idem]
      · rw [h12.task_out x (by simpa using hxc)]
    · rw [h23.task_out x hxcs]
      have hxc : x = c := by
        rcases List.mem_cons.1 hx with h | h
        · exact h
        · exact absurd h hxcs
      exact h12.task_in x (by simp [hxc])
  · intro x hx
    rw [List.mem_cons, not_or] at hx
    rw [h23.task_out x hx.2, h12.task_out x (by simpa using hx.1)]
  · rw [h23.queue, h12.queue, List.append_assoc]
    congr 1
    simp only [hod, List.filter_cons, List.filter_nil]
    split <;> simp
  · rw [h23.pushed, h12.pushed, List.append_assoc]
    congr 1
    simp only [hod, List.filter_cons, List.filter_nil]
    split <;> simp
  · intro x
    rw [h23.blocked, h12.blocked, hod]
    simp only [List.mem_singleton, List.mem_cons]
    tauto
  · have h1 := h12.frame
    have h2 := h23.frame
    cases s1; cases s2; cases s3
    simp only [Engine.mk.injEq] at h1 h2 ⊢
    simp_all

theorem release_step (recurse : Engine → Nat → Option Engine) (p c : Nat) (s : Engine)
    (child : GreasyTask) (hc : s.taskMap c = some child) :
    ∃ s2, updateChild recurse p TaskState.completed s c = some s2 ∧ ReleaseOf p [c] s s2 := by
  have hod : s.onlyDep p c = child.dependencies.all fun d => d == p := by
    simp [Engine.onlyDep, Engine.depsOf, hc]
  unfold updateChild
  simp only [hc, if_true, hasDependencies_removeDependency, Bool.not_not]
  by_cases hrel : (child.dependencies.all fun d => d == p) = true
  · rw [if_pos hrel]
    refine ⟨_, rfl, ?_, ?_, ?_, ?_, ?_, rfl⟩
    · intro x hx
      simp only [List.mem_singleton] at hx
      subst hx
      simp [Engine.setTask, hc]
    · intro x hx
      simp only [List.mem_singleton] at hx
      simp [Engine.setTask, hx]
    · simp [Engine.setTask, hod, hrel]
    · simp [Engine.setTask, hod, hrel]
    · intro x
      simp only [Engine.setTask, Finset.mem_erase, List.mem_singleton]
      constructor
      · rintro ⟨h1, h2⟩
        exact ⟨h2, fun h => h1 h.1⟩
      · rintro ⟨h1, h2⟩
        refine ⟨fun h => h2 ⟨h, ?_⟩, h1⟩
        subst h
        rw [hod]; exact hrel
  · rw [if_neg hrel]
    refine ⟨_, rfl, ?_, ?_, ?_, ?_, ?_, rfl⟩
    · intro x hx
      simp only [List.mem_singleton] at hx
      subst hx
      simp [Engine.setTask, hc]
    · intro x hx
      simp only [List.mem_singleton] at hx
      simp [Engine.setTask, hx]
    · simp [Engine.setTask, hod, hrel]
    · simp [Engine.setTask, hod, hrel]
    · intro x
      simp only [Engine.setTask, List.mem_singleton]
      constructor
      · intro h1
        refine ⟨h1, fun h => hrel ?_⟩
        rw [← hod, ← h.1]; exact h.2
      · exact fun h => h.1

theorem release_fold (recurse : Engine → Nat → Option Engine) (p : Nat) (cs : List Nat) :
    ∀ s : Engine, (∀ c ∈ cs, (s.taskMap c).isSome = true) →
      ∃ s2, cs.foldlM (updateChild recurse p TaskState.completed) s = some s2 ∧
        ReleaseOf p cs s s2 := by
  induction cs with
  | nil => exact fun s _ => ⟨s, rfl, ReleaseOf.nil p s⟩
  | cons c cs IH =>
    intro s hex
    obtain ⟨child, hchild⟩ := Option.isSome_iff_exists.1 (hex c (List.mem_cons_self _ _))
    obtain ⟨s2, hs2, h12⟩ := release_step recurse p c s child hchild
    obtain ⟨s3, hs3, h23⟩ := IH s2 fun c' hc' => by
      by_cases hcc : c' ∈ [c]
      · rw [h12.task_in c' hcc]
        simpa using hex c' (List.mem_cons_of_mem _ hc')
      · rw [h12.task_out c' hcc]
        exact hex c' (List.mem_cons_of_mem _ hc')
    refine ⟨s3, ?_, h12.cons h23⟩
    rw [List.foldlM_cons, hs2]
    exact hs3


theorem reach_target {R : List (Nat × List Nat)} {p x : Nat} (h : Reach R p x) :
    ∃ e ∈ R, x ∈ e.2 := by
  have hedge : ∀ a b, Edge R a b → ∃ e ∈ R, b ∈ e.2 := by
    intro a b hab
    obtain ⟨cs, hcs, hb⟩ := edge_iff.1 hab
    exact ⟨(a, cs), lookup_mem hcs, hb⟩
  cases h with
  | single e => exact hedge _ _ e
  | tail _ e => exact hedge _ _ e

/-- C1 (transitive cancellation): over an acyclic reverse-dependency index, when the
parent is `failed` or `cancelled` and its descendants are in the task map,
`updateDependencies` returns (for every sufficient fuel) a state in which every task
reachable from the parent through one or more reverse-dependency edges is
`cancelled` and out of the blocked set, while every other task keeps its record and
its membership of the blocked set. -/
theorem updateDependencies_cancels_descendants (st : Engine) (parent : Nat) (p : GreasyTask)
    (hacyc : Acyclic st.revDepMap) (hp : st.taskMap parent = some p)
    (hstate : p.taskState = TaskState.failed ∨ p.taskState = TaskState.cancelled)
    (hmap : ∀ x, Reach st.revDepMap parent x → (st.taskMap x).isSome = true) :
    ∃ N, ∀ n, N ≤ n → ∃ st2, updateDependencies n st parent = some st2 ∧
      (∀ x, Reach st.revDepMap parent x →
        st2.stateOf x = some TaskState.cancelled ∧ x ∉ st2.blockedTasks) ∧
      (∀ x, ¬ Reach st.revDepMap parent x →
        st2.taskMap x = st.taskMap x ∧ (x ∈ st2.blockedTasks ↔ x ∈ st.blockedTasks)) := by
  obtain ⟨N, hN⟩ := cascade_spec hacyc parent
  refine ⟨N, fun n hn => ?_⟩
  obtain ⟨st2, h2, hc⟩ := hN n hn st rfl ⟨p, hp, hstate⟩ hmap
  refine ⟨st2, h2, fun x hx => ⟨?_, ?_⟩, fun x hx => ⟨hc.task_out x hx, ?_⟩⟩
  · obtain ⟨t, ht⟩ := Option.isSome_iff_exists.1 (hmap x hx)
    simp [Engine.stateOf, hc.task_in x hx, ht, GreasyTask.setTaskState]
  · rw [hc.blocked]; exact fun h => h.2 hx
  · rw [hc.blocked]; exact ⟨fun h => h.1, fun h => ⟨h, hx⟩⟩

theorem updateDependencies_cancels_descendants_witness :
    ∃ N, ∀ n, N ≤ n → ∃ st2, updateDependencies n exFailedChain 1 = some st2 ∧
      (∀ x, Reach exFailedChain.revDepMap 1 x →
        st2.stateOf x = some TaskState.cancelled ∧ x ∉ st2.blockedTasks) ∧
      (∀ x, ¬ Reach exFailedChain.revDepMap 1 x →
        st2.taskMap x = exFailedChain.taskMap x ∧
          (x ∈ st2.blockedTasks ↔ x ∈ exFailedChain.blockedTasks)) :=
  updateDependencies_cancels_descendants exFailedChain 1
    { mkTask [] TaskState.failed with returnCode := 1 }
    (acyclic_of_rank (fun x => 10 - x) (by decide)) rfl (Or.inl rfl)
    (fun x hx => by
      obtain ⟨e, he, hxe⟩ := reach_target hx
      have hall : ∀ e ∈ exFailedChain.revDepMap, ∀ c ∈ e.2,
          (exFailedChain.taskMap c).isSome = true := by decide
      exact hall e he x hxe)

/-- C2 (release on success): when the parent is `completed` and its children are in
the task map, `updateDependencies` returns a state in which the parent's id is gone
from the dependencies of every child in `revDepMap[parent]`; the ready queue is its
previous contents followed by the children left without dependencies, in list
order; those children are out of the blocked set; and every child that still has
dependencies keeps its membership of the blocked set and is not queued. -/
theorem updateDependencies_releases_children (st : Engine) (parent : Nat) (p : GreasyTask)
    (hp : st.taskMap parent = some p) (hstate : p.taskState = TaskState.completed)
    (hmap : ∀ c ∈ st.children parent, (st.taskMap c).isSome = true) :
    ∃ st2, (∀ n, updateDependencies (n + 1) st parent = some st2) ∧
      (∀ c ∈ st.children parent,
        st2.depsOf c = (st.depsOf c).filter fun d => d != parent) ∧
      st2.taskQueue =
        st.taskQueue ++ (st.children parent).filter (fun c => (st2.depsOf c).isEmpty) ∧
      (∀ c ∈ st.children parent, st2.depsOf c = [] → c ∉ st2.blockedTasks) ∧
      (∀ c ∈ st.children parent, st2.depsOf c ≠ [] →
        (c ∈ st2.blockedTasks ↔ c ∈ st.blockedTasks) ∧
        (c ∈ st2.taskQueue ↔ c ∈ st.taskQueue)) := by
  have hkey : ∀ cs, (∀ c ∈ cs, (st.taskMap c).isSome = true) → st.children parent = cs →
      ∀ st2, ReleaseOf parent cs st st2 →
      (∀ c ∈ st.children parent,
        st2.depsOf c = (st.depsOf c).filter fun d => d != parent) ∧
      st2.taskQueue =
        st.taskQueue ++ (st.children parent).filter (fun c => (st2.depsOf c).isEmpty) ∧
      (∀ c ∈ st.children parent, st2.depsOf c = [] → c ∉ st2.blockedTasks) ∧
      (∀ c ∈ st.children parent, st2.depsOf c ≠ [] →
        (c ∈ st2.blockedTasks ↔ c ∈ st.blockedTasks) ∧
        (c ∈ st2.taskQueue ↔ c ∈ st.taskQueue)) := by
    intro cs _ hch st2 hrel
    rw [hch]
    have hdeps : ∀ c ∈ cs, st2.depsOf c = (st.depsOf c).filter fun d => d != parent := by
      intro c hc
      unfold Engine.depsOf
      rw [hrel.task_in c hc]
      cases st.taskMap c <;> simp [removeDependency_deps]
    have hemp : ∀ c ∈ cs, (st2.depsOf c).isEmpty = st.onlyDep parent c := by
      intro c hc
      rw [hdeps c hc, Engine.onlyDep, Bool.eq_iff_iff]
      simp [List.isEmpty_iff, List.filter_eq_nil_iff]
    have hq : st2.taskQueue = st.taskQueue ++ cs.filter (fun c => (st2.depsOf c).isEmpty) := by
      rw [hrel.queue]
      congr 1
      exact List.filter_congr fun c hc => (hemp c hc).symm
    refine ⟨hdeps, hq, ?_, ?_⟩
    · intro c hc hnil
      rw [hrel.blocked]
      have : st.onlyDep parent c = true := by rw [← hemp c hc, hnil]; rfl
      exact fun h => h.2 ⟨hc, this⟩
    · intro c hc hne
      have hfalse : ¬ st.onlyDep parent c = true := by
        rw [← hemp c hc, List.isEmpty_iff]; exact hne
      refine ⟨?_, ?_⟩
      · rw [hrel.blocked]
        exact ⟨fun h => h.1, fun h => ⟨h, fun h2 => hfalse h2.2⟩⟩
      · rw [hq, List.mem_append, List.mem_filter]
        constructor
        · rintro (h | h)
          · exact h
          · exact absurd (List.isEmpty_iff.1 h.2) hne
        · exact Or.inl
  cases hl : st.revDepMap.lookup parent with
  | none =>
    have hch : st.children parent = [] := by simp [Engine.children, hl]
    refine ⟨st, fun n => by simp [updateDependencies, hp, hl], ?_⟩
    exact hkey [] (by simp) hch st (ReleaseOf.nil parent st)
  | some cs =>
    have hch : st.children parent = cs := by simp [Engine.children, hl]
    rw [hch] at hmap
    obtain ⟨st2, hfold, hrel⟩ := release_fold (fun _ _ => none) parent cs st hmap
    have hfold2 : ∀ rec1, cs.foldlM (updateChild rec1 parent TaskState.completed) st = some st2 := by
      intro rec1
      rw [← hfold]
      congr 1
    refine ⟨st2, fun n => ?_, hkey cs hmap hch st2 hrel⟩
    simp only [updateDependencies, hp, hl, hstate]
    exact hfold2 _

theorem updateDependencies_releases_children_witness :
    ∃ st2, (∀ n, updateDependencies (n + 1) exCompletedFork 1 = some st2) ∧
      (∀ c ∈ exCompletedFork.children 1,
        st2.depsOf c = (exCompletedFork.depsOf c).filter fun d => d != 1) ∧
      st2.taskQueue =
        exCompletedFork.taskQueue ++
          (exCompletedFork.children 1).filter (fun c => (st2.depsOf c).isEmpty) ∧
      (∀ c ∈ exCompletedFork.children 1, st2.depsOf c = [] → c ∉ st2.blockedTasks) ∧
      (∀ c ∈ exCompletedFork.children 1, st2.depsOf c ≠ [] →
        (c ∈ st2.blockedTasks ↔ c ∈ exCompletedFork.blockedTasks) ∧
        (c ∈ st2.taskQueue ↔ c ∈ exCompletedFork.taskQueue)) :=
  updateDependencies_releases_children exCompletedFork 1 (mkTask [] TaskState.completed)
    rfl rfl (by decide)

/-- C7 (default worker count): `getDefaultNWorkers` sets `nworkers` to the reserved
CPU count `R` when `R ≤ 4` and to `R / 2`, rounded down, when `R > 4`. -/
theorem getDefaultNWorkers_value (st : Engine) :
    (getDefaultNWorkers st).nworkers =
      if st.n_slurm_reservation_cpus ≤ 4 then st.n_slurm_reservation_cpus
      else st.n_slurm_reservation_cpus / 2 := by
  unfold getDefaultNWorkers
  by_cases h : st.n_slurm_reservation_cpus ≤ 4
  · have h2 : ¬ st.n_slurm_reservation_cpus > 4 := by omega
    simp [h, h2]
  · have h2 : st.n_slurm_reservation_cpus > 4 := by omega
    simp only [h, h2, if_true, if_false]
    exact Int.tdiv_eq_ediv (by omega) (by omega)

/-- C6 (no workers): with `nworkers = 0`, `runScheduler` returns the engine exactly as
it received it, for every back end and fuel: nothing is dispatched, no wait is
made, and queue, blocked set and task records are untouched. -/
theorem runScheduler_no_workers (backend : Nat → Nat × Int) (fuel : Nat) (st : Engine)
    (h : st.nworkers = 0) : runScheduler backend fuel st = some st := by
  simp [runScheduler, h]

theorem runScheduler_no_workers_witness :
    runScheduler (fun _ => (0, 0)) 0
        (mkEngine [(1, mkTask [] TaskState.waiting), (2, mkTask [1] TaskState.blocked)]
          [1, 2] [(1, [2])] ∅ [] none) =
      some (mkEngine [(1, mkTask [] TaskState.waiting), (2, mkTask [1] TaskState.blocked)]
          [1, 2] [(1, [2])] ∅ [] none) :=
  runScheduler_no_workers _ 0 _ rfl

theorem classify_fold (l : List Nat) :
    ∀ st : Engine, (∀ i ∈ l, (st.taskMap i).isSome = true) →
      ∃ st1, l.foldlM classifyStep st = some st1 ∧
        st1.taskQueue = st.taskQueue ++ l.filter (fun i => st.stateOf i == some TaskState.waiting) ∧
        (∀ x, x ∈ st1.blockedTasks ↔
          x ∈ st.blockedTasks ∨ (x ∈ l ∧ st.stateOf x = some TaskState.blocked)) ∧
        st1.pushed = st.pushed ++ l.filter (fun i => st.stateOf i == some TaskState.waiting) ∧
        { st1 with taskQueue := st.taskQueue, blockedTasks := st.blockedTasks,
                   pushed := st.pushed } = st := by
  induction l with
  | nil => exact fun st _ => ⟨st, rfl, by simp, by simp, by simp, rfl⟩
  | cons i l IH =>
    intro st hex
    obtain ⟨t, ht⟩ := Option.isSome_iff_exists.1 (hex i (List.mem_cons_self _ _))
    have hrest : ∀ j ∈ l, (st.taskMap j).isSome = true :=
      fun j hj => hex j (List.mem_cons_of_mem _ hj)
    rw [List.foldlM_cons]
    by_cases hw : t.taskState = TaskState.waiting
    · obtain ⟨st1, h1, hq, hb, hp, hf⟩ :=
        IH { st with taskQueue := st.taskQueue ++ [i], pushed := st.pushed ++ [i] } hrest
      refine ⟨st1, ?_, ?_, ?_, ?_, ?_⟩
      · simpa [classifyStep, ht, GreasyTask.isWaiting, hw] using h1
      · rw [hq]
        simp [Engine.stateOf, ht, hw, List.filter_cons]
      · intro x
        rw [hb]
        simp only [Engine.stateOf, List.mem_cons]
        constructor
        · rintro (h | h)
          · exact Or.inl h
          · exact Or.inr ⟨Or.inr h.1, h.2⟩
        · rintro (h | ⟨h | h, h2⟩)
          · exact Or.inl h
          · subst h; simp [ht, hw] at h2
          · exact Or.inr ⟨h, h2⟩
      · rw [hp]
        simp [Engine.stateOf, ht, hw, List.filter_cons]
      · cases st; cases st1; simp_all
    · by_cases hbl : t.taskState = TaskState.blocked
      · obtain ⟨st1, h1, hq, hb, hp, hf⟩ :=
          IH { st with blockedTasks := insert i st.blockedTasks } hrest
        refine ⟨st1, ?_, ?_, ?_, ?_, ?_⟩
        · simpa [classifyStep, ht, GreasyTask.isWaiting, GreasyTask.isBlocked, hw, hbl] using h1
        · rw [hq]
          simp [Engine.stateOf, ht, hw, List.filter_cons]
        · intro x
          rw [hb]
          simp only [Engine.stateOf, List.mem_cons, Finset.mem_insert]
          constructor
          · rintro ((h | h) | h)
            · subst h; exact Or.inr ⟨Or.inl rfl, by simp [ht, hbl]⟩
            · exact Or.inl h
            · exact Or.inr ⟨Or.inr h.1, h.2⟩
          · rintro (h | ⟨h | h, h2⟩)
            · exact Or.inl (Or.inr h)
            · exact Or.inl (Or.inl h)
            · exact Or.inr ⟨h, h2⟩
        · rw [hp]
          simp [Engine.stateOf, ht, hw, List.filter_cons]
        · cases st; cases st1; simp_all
      · obtain ⟨st1, h1, hq, hb, hp, hf⟩ := IH st hrest
        refine ⟨st1, ?_, ?_, ?_, ?_, hf⟩
        · simpa [classifyStep, ht, GreasyTask.isWaiting, GreasyTask.isBlocked, hw, hbl] using h1
        · rw [hq]
          simp [Engine.stateOf, ht, hw, List.filter_cons]
        · intro x
          rw [hb]
          simp only [Engine.stateOf, List.mem_cons]
          constructor
          · rintro (h | h)
            · exact Or.inl h
            · exact Or.inr ⟨Or.inr h.1, h.2⟩
          · rintro (h | ⟨h | h, h2⟩)
            · exact Or.inl h
            · subst h; simp [ht, hbl] at h2
            · exact Or.inr ⟨h, h2⟩
        · rw [hp]
          simp [Engine.stateOf, ht, hw, List.filter_cons]

/-- C8 (initial classification): with `nworkers > 0`, an empty ready queue and blocked
set on entry, and every valid task loaded in the state its dependencies call for
(`waiting` when it has none, `blocked` otherwise), the classification pass of
`runScheduler` succeeds and leaves in the ready queue exactly the valid tasks with
empty dependencies, in the order of `validTasks`, and in the blocked set exactly the
valid tasks with non-empty dependencies; apart from the record of the pushes nothing
else is changed, and `runScheduler` continues from that state. -/
theorem runScheduler_classification (st : Engine) (hnw : 0 < st.nworkers)
    (hq : st.taskQueue = []) (hb : st.blockedTasks = ∅)
    (hload : ∀ i ∈ st.validTasks, (st.taskMap i).isSome = true ∧
      (st.depsOf i = [] → st.stateOf i = some TaskState.waiting) ∧
      (st.depsOf i ≠ [] → st.stateOf i = some TaskState.blocked)) :
    ∃ st1, st.validTasks.foldlM classifyStep st = some st1 ∧
      (∀ backend fuel, runScheduler backend fuel st =
        (mainLoop backend fuel st1).bind (drainLoop backend fuel)) ∧
      st1.taskQueue = st.validTasks.filter (fun i => (st.depsOf i).isEmpty) ∧
      (∀ x, x ∈ st1.blockedTasks ↔ x ∈ st.validTasks ∧ st.depsOf x ≠ []) ∧
      { st1 with taskQueue := st.taskQueue, blockedTasks := st.blockedTasks,
                 pushed := st.pushed } = st := by
  obtain ⟨st1, h1, hq1, hb1, -, hf⟩ :=
    classify_fold st.validTasks st fun i hi => (hload i hi).1
  refine ⟨st1, h1, ?_, ?_, ?_, hf⟩
  · intro backend fuel
    have : st.nworkers ≠ 0 := by omega
    simp [runScheduler, this, h1]
  · rw [hq1, hq, List.nil_append]
    refine List.filter_congr fun i hi => ?_
    obtain ⟨-, h1, h2⟩ := hload i hi
    rw [Bool.eq_iff_iff]
    simp only [beq_iff_eq, List.isEmpty_iff]
    constructor
    · intro hw
      by_contra hne
      rw [h2 hne] at hw
      exact absurd hw (by decide)
    · exact h1
  · intro x
    rw [hb1, hb]
    simp only [Finset.not_mem_empty, false_or]
    refine and_congr_right fun hx => ?_
    obtain ⟨-, h1, h2⟩ := hload x hx
    constructor
    · intro hbk hnil
      rw [h1 hnil] at hbk
      exact absurd hbk (by decide)
    · exact h2

theorem runScheduler_classification_witness :
    ∃ st1, exLoadChain.validTasks.foldlM classifyStep exLoadChain = some st1 ∧
      (∀ backend fuel, runScheduler backend fuel exLoadChain =
        (mainLoop backend fuel st1).bind (drainLoop backend fuel)) ∧
      st1.taskQueue = exLoadChain.validTasks.filter (fun i => (exLoadChain.depsOf i).isEmpty) ∧
      (∀ x, x ∈ st1.blockedTasks ↔ x ∈ exLoadChain.validTasks ∧ exLoadChain.depsOf x ≠ []) ∧
      { st1 with taskQueue := exLoadChain.taskQueue,
                 blockedTasks := exLoadChain.blockedTasks,
                 pushed := exLoadChain.pushed } = exLoadChain :=
  runScheduler_classification exLoadChain (by decide) rfl rfl (by decide)

theorem taskEpilogue_retry_eq (fuel : Nat) (st : Engine) (task : Nat) (t : GreasyTask)
    (w : Int) (rest : List Int)
    (ht : st.taskMap task = some t) (hrc : t.returnCode ≠ 0)
    (hretry : (t.retries : Int) < st.maxRetriesCfg.getD 0)
    (hfree : st.freeWorkers = w :: rest) :
    taskEpilogue fuel st task =
      some { st with
        taskMap := fun x =>
          if x = task then
            some { t with retries := t.retries + 1, taskState := TaskState.running }
          else st.taskMap x
        freeWorkers := rest
        taskAssignation := st.taskAssignation.filter (fun b => b.1 != w) ++ [(w, task)]
        dispatched := st.dispatched ++ [task] } := by
  have hmax : (match st.maxRetriesCfg with | some v => v | none => (0 : Int)) =
      st.maxRetriesCfg.getD 0 := by
    cases st.maxRetriesCfg <;> rfl
  have hpos : st.maxRetriesCfg.getD 0 > 0 := by omega
  unfold taskEpilogue
  simp only [ht, hmax, hrc, hpos, hretry, ne_eq, not_false_eq_true, and_self, if_true]
  unfold allocate
  simp only [Engine.setTask, hfree, if_true, GreasyTask.addRetryAttempt,
    GreasyTask.setTaskState]
  congr 2
  funext x
  by_cases hx : x = task <;> simp [hx]

/-- C5 (retry performs no dependency update): for a task with non-zero return code and
`retries < MaxRetries`, with a free worker at hand, `taskEpilogue` leaves the ready
queue, the blocked set, the reverse-dependency index and the record of every other
task unchanged; the task itself keeps its dependencies, has its retry counter
incremented by one and is re-allocated (state `running`, bound to the head of
`freeWorkers`, dispatched once more). -/
theorem taskEpilogue_retry_frame (fuel : Nat) (st : Engine) (task : Nat) (t : GreasyTask)
    (w : Int) (rest : List Int)
    (ht : st.taskMap task = some t) (hrc : t.returnCode ≠ 0)
    (hretry : (t.retries : Int) < st.maxRetriesCfg.getD 0)
    (hfree : st.freeWorkers = w :: rest) :
    ∃ st2, taskEpilogue fuel st task = some st2 ∧
      st2.taskQueue = st.taskQueue ∧ st2.blockedTasks = st.blockedTasks ∧
      st2.revDepMap = st.revDepMap ∧ st2.validTasks = st.validTasks ∧
      (∀ x, x ≠ task → st2.taskMap x = st.taskMap x) ∧
      st2.taskMap task =
        some { t with retries := t.retries + 1, taskState := TaskState.running } ∧
      st2.freeWorkers = rest ∧
      st2.taskAssignation =
        st.taskAssignation.filter (fun b => b.1 != w) ++ [(w, task)] ∧
      st2.dispatched = st.dispatched ++ [task] ∧ st2.nwaits = st.nwaits := by
  refine ⟨_, taskEpilogue_retry_eq fuel st task t w rest ht hrc hretry hfree, rfl, rfl, rfl,
    rfl, ?_, ?_, rfl, rfl, rfl, rfl⟩
  · intro x hx
    simp [hx]
  · simp

theorem taskEpilogue_retry_frame_witness :
    ∃ st2, taskEpilogue 0 exRetry 1 = some st2 ∧
      st2.taskQueue = exRetry.taskQueue ∧ st2.blockedTasks = exRetry.blockedTasks ∧
      st2.revDepMap = exRetry.revDepMap ∧ st2.validTasks = exRetry.validTasks ∧
      (∀ x, x ≠ 1 → st2.taskMap x = exRetry.taskMap x) ∧
      st2.taskMap 1 =
        some { ({ mkTask [] TaskState.running with returnCode := 1 } : GreasyTask) with
          retries := 0 + 1, taskState := TaskState.running } ∧
      st2.freeWorkers = [] ∧
      st2.taskAssignation =
        exRetry.taskAssignation.filter (fun b => b.1 != 0) ++ [(0, 1)] ∧
      st2.dispatched = exRetry.dispatched ++ [1] ∧ st2.nwaits = exRetry.nwaits :=
  taskEpilogue_retry_frame 0 exRetry 1 { mkTask [] TaskState.running with returnCode := 1 }
    0 [] rfl (by decide) (by decide) rfl

theorem updateDependencies_completed (st : Engine) (parent : Nat) (p : GreasyTask)
    (hp : st.taskMap parent = some p) (hstate : p.taskState = TaskState.completed)
    (hmap : ∀ c ∈ st.children parent, (st.taskMap c).isSome = true) :
    ∃ st2, (∀ n, updateDependencies (n + 1) st parent = some st2) ∧
      ReleaseOf parent (st.children parent) st st2 := by
  cases hl : st.revDepMap.lookup parent with
  | none =>
    have hch : st.children parent = [] := by simp [Engine.children, hl]
    rw [hch]
    exact ⟨st, fun n => by simp [updateDependencies, hp, hl], ReleaseOf.nil parent st⟩
  | some cs =>
    have hch : st.children parent = cs := by simp [Engine.children, hl]
    rw [hch] at hmap ⊢
    refine ⟨(cs.foldlM (updateChild (fun _ _ => none) parent TaskState.completed) st).getD st,
      fun n => ?_, ?_⟩
    · obtain ⟨st2, hfold, -⟩ := release_fold (updateDependencies n) parent cs st hmap
      obtain ⟨st3, hfold3, -⟩ := release_fold (fun _ _ => none) parent cs st hmap
      simp only [updateDependencies, hp, hl, hstate]
      rw [hfold3]
      exact hfold3 ▸ rfl
    · obtain ⟨st3, hfold3, h3⟩ := release_fold (fun _ _ => none) parent cs st hmap
      rw [hfold3]
      exact h3

theorem taskEpilogue_completed_eq (fuel : Nat) (st : Engine) (task : Nat) (t : GreasyTask)
    (ht : st.taskMap task = some t) (hrc : t.returnCode = 0) :
    taskEpilogue fuel st task =
      updateDependencies fuel (st.setTask task (t.setTaskState TaskState.completed)) task := by
  simp [taskEpilogue, ht, hrc]

theorem taskEpilogue_failed_eq (fuel : Nat) (st : Engine) (task : Nat) (t : GreasyTask)
    (ht : st.taskMap task = some t) (hrc : t.returnCode ≠ 0)
    (hretry : ¬ (t.retries : Int) < st.maxRetriesCfg.getD 0) :
    taskEpilogue fuel st task =
      updateDependencies fuel (st.setTask task (t.setTaskState TaskState.failed)) task := by
  have hmax : (match st.maxRetriesCfg with | some v => v | none => (0 : Int)) =
      st.maxRetriesCfg.getD 0 := by
    cases st.maxRetriesCfg <;> rfl
  unfold taskEpilogue
  simp only [ht, hmax, hrc, ne_eq, not_false_eq_true, if_true]
  rw [if_neg]
  exact fun h => hretry h.2

theorem not_edge_self {R : List (Nat × List Nat)} (hR : Acyclic R) (a : Nat) :
    ¬ Edge R a a := fun h => hR a (Relation.TransGen.single h)

theorem mem_children_iff (st : Engine) (p c : Nat) :
    c ∈ st.children p ↔ Edge st.revDepMap p c := Iff.rfl

theorem ReleaseOf.dispatched {p : Nat} {cs : List Nat} {s1 s2 : Engine}
    (h : ReleaseOf p cs s1 s2) : s2.dispatched = s1.dispatched := by
  simpa using congrArg Engine.dispatched h.frame

theorem CascadeOf.dispatched_same {P : Nat → Prop} {s1 s2 : Engine} (h : CascadeOf P s1 s2) :
    s2.dispatched = s1.dispatched := by
  simpa using congrArg Engine.dispatched h.frame

/-- The terminal verdict `completed`: the state after the epilogue of a task that
returned 0. -/
theorem taskEpilogue_completed (st : Engine) (task : Nat) (t : GreasyTask)
    (ht : st.taskMap task = some t) (hrc : t.returnCode = 0)
    (hmap : ∀ c ∈ st.children task, (st.taskMap c).isSome = true) :
    ∃ st2, (∀ n, taskEpilogue (n + 1) st task = some st2) ∧
      ReleaseOf task (st.children task)
        (st.setTask task (t.setTaskState TaskState.completed)) st2 := by
  obtain ⟨st2, h2, hrel⟩ := updateDependencies_completed
    (st.setTask task (t.setTaskState TaskState.completed)) task
    (t.setTaskState TaskState.completed) (by simp [Engine.setTask]) rfl
    (fun c hc => by
      by_cases hct : c = task
      · simp [Engine.setTask, hct]
      · simpa [Engine.setTask, hct] using hmap c hc)
  exact ⟨st2, fun n => by rw [taskEpilogue_completed_eq _ st task t ht hrc]; exact h2 n, hrel⟩

/-- The terminal verdict `failed`: the state after the epilogue of a task that
returned a non-zero code with its retry budget used up. -/
theorem taskEpilogue_failed (st : Engine) (task : Nat) (t : GreasyTask)
    (ht : st.taskMap task = some t) (hrc : t.returnCode ≠ 0)
    (hretry : ¬ (t.retries : Int) < st.maxRetriesCfg.getD 0)
    (hacyc : Acyclic st.revDepMap)
    (hmap : ∀ x, Reach st.revDepMap task x → (st.taskMap x).isSome = true) :
    ∃ N, ∀ n, N ≤ n → ∃ st2, taskEpilogue n st task = some st2 ∧
      CascadeOf (Reach st.revDepMap task)
        (st.setTask task (t.setTaskState TaskState.failed)) st2 := by
  obtain ⟨N, hN⟩ := cascade_spec hacyc task
  refine ⟨N, fun n hn => ?_⟩
  obtain ⟨st2, h2, hc⟩ := hN n hn (st.setTask task (t.setTaskState TaskState.failed)) rfl
    ⟨t.setTaskState TaskState.failed, by simp [Engine.setTask], Or.inl rfl⟩
    (fun x hx => by
      by_cases hxt : x = task
      · simp [Engine.setTask, hxt]
      · simpa [Engine.setTask, hxt] using hmap x hx)
  exact ⟨st2, by rw [taskEpilogue_failed_eq _ st task t ht hrc hretry]; exact h2, hc⟩

/-- C3 (epilogue decision): for a task of an acyclic index whose descendants are in
the task map, with a free worker at hand, `taskEpilogue` returns (for every
sufficient fuel) a state in which the task is `completed` when its return code is
0; has `retries` incremented by one, is `running` again and was handed to
`allocate` when the code is non-zero and `retries < MaxRetries`; and is `failed`
otherwise.  Outside the retry case nothing is dispatched; with `MaxRetries` absent
or 0 a non-zero code always gives `failed` without a dispatch. -/
theorem taskEpilogue_decision (st : Engine) (task : Nat) (t : GreasyTask)
    (ht : st.taskMap task = some t) (hacyc : Acyclic st.revDepMap)
    (hmap : ∀ x, Reach st.revDepMap task x → (st.taskMap x).isSome = true)
    (hfree : st.freeWorkers ≠ []) :
    ∃ N, ∀ n, N ≤ n → ∃ st2, taskEpilogue n st task = some st2 ∧
      (t.returnCode = 0 →
        st2.taskMap task = some { t with taskState := TaskState.completed } ∧
        st2.dispatched = st.dispatched) ∧
      (t.returnCode ≠ 0 → (t.retries : Int) < st.maxRetriesCfg.getD 0 →
        st2.taskMap task =
          some { t with retries := t.retries + 1, taskState := TaskState.running } ∧
        st2.dispatched = st.dispatched ++ [task]) ∧
      (t.returnCode ≠ 0 → ¬ (t.retries : Int) < st.maxRetriesCfg.getD 0 →
        st2.taskMap task = some { t with taskState := TaskState.failed } ∧
        st2.dispatched = st.dispatched) ∧
      (t.returnCode ≠ 0 → st.maxRetriesCfg.getD 0 = 0 →
        st2.taskMap task = some { t with taskState := TaskState.failed } ∧
        st2.dispatched = st.dispatched) := by
  by_cases hrc : t.returnCode = 0
  · obtain ⟨st2, h2, hrel⟩ := taskEpilogue_completed st task t ht hrc
      fun c hc => hmap c (Relation.TransGen.single hc)
    refine ⟨1, fun n hn => ⟨st2, ?_, fun _ => ⟨?_, ?_⟩, fun h => absurd hrc h,
      fun h => absurd hrc h, fun h => absurd hrc h⟩⟩
    · obtain ⟨m, rfl⟩ : ∃ m, n = m + 1 := ⟨n - 1, by omega⟩
      exact h2 m
    · rw [hrel.task_out task (not_edge_self hacyc task)]
      simp [Engine.setTask, GreasyTask.setTaskState]
    · rw [hrel.dispatched]; rfl
  · by_cases hretry : (t.retries : Int) < st.maxRetriesCfg.getD 0
    · obtain ⟨w, rest, hw⟩ := List.exists_cons_of_ne_nil hfree
      refine ⟨0, fun n _ => ⟨_, taskEpilogue_retry_eq n st task t w rest ht hrc hretry hw,
        fun h => absurd h hrc, fun _ _ => ⟨by simp, rfl⟩, fun _ h => absurd hretry h,
        fun _ h => ?_⟩⟩
      omega
    · obtain ⟨N, hN⟩ := taskEpilogue_failed st task t ht hrc hretry hacyc hmap
      refine ⟨N, fun n hn => ?_⟩
      obtain ⟨st2, h2, hc⟩ := hN n hn
      have hres : st2.taskMap task = some { t with taskState := TaskState.failed } ∧
          st2.dispatched = st.dispatched := by
        refine ⟨?_, ?_⟩
        · rw [hc.task_out task (hacyc task)]
          simp [Engine.setTask, GreasyTask.setTaskState]
        · rw [hc.dispatched_same]; rfl
      exact ⟨st2, h2, fun h => absurd h hrc, fun _ h => absurd h hretry, fun _ _ => hres,
        fun _ _ => hres⟩

theorem taskEpilogue_decision_witness :
    ∃ N, ∀ n, N ≤ n → ∃ st2, taskEpilogue n exRetry 1 = some st2 ∧
      (({ mkTask [] TaskState.running with returnCode := 1 } : GreasyTask).returnCode = 0 →
        st2.taskMap 1 = some { ({ mkTask [] TaskState.running with returnCode := 1 } : GreasyTask)
          with taskState := TaskState.completed } ∧
        st2.dispatched = exRetry.dispatched) ∧
      (({ mkTask [] TaskState.running with returnCode := 1 } : GreasyTask).returnCode ≠ 0 →
        ((({ mkTask [] TaskState.running with returnCode := 1 } : GreasyTask).retries : Nat) : Int)
          < exRetry.maxRetriesCfg.getD 0 →
        st2.taskMap 1 =
          some { ({ mkTask [] TaskState.running with returnCode := 1 } : GreasyTask) with
            retries := ({ mkTask [] TaskState.running with returnCode := 1 } : GreasyTask).retries + 1,
            taskState := TaskState.running } ∧
        st2.dispatched = exRetry.dispatched ++ [1]) ∧
      (({ mkTask [] TaskState.running with returnCode := 1 } : GreasyTask).returnCode ≠ 0 →
        ¬ ((({ mkTask [] TaskState.running with returnCode := 1 } : GreasyTask).retries : Nat) : Int)
          < exRetry.maxRetriesCfg.getD 0 →
        st2.taskMap 1 = some { ({ mkTask [] TaskState.running with returnCode := 1 } : GreasyTask)
          with taskState := TaskState.failed } ∧
        st2.dispatched = exRetry.dispatched) ∧
      (({ mkTask [] TaskState.running with returnCode := 1 } : GreasyTask).returnCode ≠ 0 →
        exRetry.maxRetriesCfg.getD 0 = 0 →
        st2.taskMap 1 = some { ({ mkTask [] TaskState.running with returnCode := 1 } : GreasyTask)
          with taskState := TaskState.failed } ∧
        st2.dispatched = exRetry.dispatched) :=
  taskEpilogue_decision exRetry 1 { mkTask [] TaskState.running with returnCode := 1 } rfl
    (acyclic_of_rank (fun x => 10 - x) (by decide))
    (fun x hx => by
      obtain ⟨e, he, hxe⟩ := reach_target hx
      have hall : ∀ e ∈ exRetry.revDepMap, ∀ c ∈ e.2, (exRetry.taskMap c).isSome = true := by
        decide
      exact hall e he x hxe)
    (by decide)

theorem find_bound {l : List (Int × Nat)} {task : Nat} (h : ∃ w, (w, task) ∈ l) :
    ∃ w, l.find? (fun b => b.2 == task) = some (w, task) := by
  obtain ⟨w, hw⟩ := h
  cases hf : l.find? (fun b => b.2 == task) with
  | none =>
    rw [List.find?_eq_none] at hf
    exact absurd (by simp) (hf (w, task) hw)
  | some b =>
    have := List.find?_some hf
    obtain ⟨w2, t2⟩ := b
    simp only [beq_iff_eq] at this
    subst this
    exact ⟨w2, rfl⟩

theorem completeTask_eq {s : Engine} {task : Nat} {t : GreasyTask} (rc : Int)
    (ht : s.taskMap task = some t) (hb : ∃ w, (w, task) ∈ s.taskAssignation) :
    ∃ w, ∀ fuel, completeTask fuel s task rc =
      taskEpilogue fuel
        { s.setTask task (t.setReturnCode rc) with
          freeWorkers := s.freeWorkers ++ [w]
          taskAssignation := s.taskAssignation.filter (fun b => b.1 != w) }
        task := by
  obtain ⟨w, hw⟩ := find_bound hb
  exact ⟨w, fun fuel => by simp [completeTask, hw, workerCompleted, ht]⟩

theorem allocate_eq (st : Engine) (task : Nat) (t : GreasyTask) (w : Int) (rest : List Int)
    (hw : st.freeWorkers = w :: rest) (ht : st.taskMap task = some t) :
    allocate st task =
      some { st.setTask task (t.setTaskState TaskState.running) with
        freeWorkers := rest
        taskAssignation := st.taskAssignation.filter (fun b => b.1 != w) ++ [(w, task)]
        dispatched := st.dispatched ++ [task] } := by
  simp [allocate, hw, ht]

theorem attempting_retry {st0 : Engine} {task k i : Nat} {s : Engine}
    (h : Attempting st0 task k i s) (hi : i < k) (rc : Int) (hrc : rc ≠ 0) :
    ∃ s2, (∀ n, completeTask n s task rc = some s2) ∧ Attempting st0 task k (i + 1) s2 := by
  obtain ⟨t, ht, hr⟩ := h.task_rec
  obtain ⟨w, hw⟩ := completeTask_eq rc ht h.bound
  obtain ⟨w0, rest, hfree⟩ : ∃ w0 rest, s.freeWorkers ++ [w] = w0 :: rest :=
    List.exists_cons_of_ne_nil (by simp)
  have hretry := fun n => taskEpilogue_retry_eq n
    { s.setTask task (t.setReturnCode rc) with
      freeWorkers := s.freeWorkers ++ [w]
      taskAssignation := s.taskAssignation.filter (fun b => b.1 != w) }
    task (t.setReturnCode rc) w0 rest
    (by simp [Engine.setTask]) (by simpa [GreasyTask.setReturnCode] using hrc)
    (by simp [Engine.setTask, h.cfg, GreasyTask.setReturnCode, hr]; omega) hfree
  refine ⟨_, fun n => (hw n).trans (hretry n), ⟨?_, ?_, h.revDep, h.cfg, ?_, ?_⟩⟩
  · exact ⟨_, if_pos rfl, by simp [GreasyTask.setReturnCode, hr]⟩
  · exact ⟨w0, by simp⟩
  · intro x hx
    by_cases hxt : x = task
    · simp [hxt]
    · simpa [Engine.setTask, hxt] using h.present x hx
  · simp only [Engine.setTask, List.count_append, h.count]
    simp
    omega

theorem attempting_fail {st0 : Engine} {task k i : Nat} {s : Engine}
    (h : Attempting st0 task k i s) (hacyc : Acyclic st0.revDepMap) (hi : ¬ i < k)
    (rc : Int) (hrc : rc ≠ 0) :
    ∃ N, ∀ n, N ≤ n → ∃ s2, completeTask n s task rc = some s2 ∧
      s2.stateOf task = some TaskState.failed ∧ s2.retriesOf task = some i ∧
      s2.dispatched.count task = st0.dispatched.count task + (i + 1) := by
  obtain ⟨t, ht, hr⟩ := h.task_rec
  obtain ⟨w, hw⟩ : ∃ w, ∀ n, completeTask n s task rc =
      taskEpilogue n
        { s.setTask task (t.setReturnCode rc) with
          freeWorkers := s.freeWorkers ++ [w]
          taskAssignation := s.taskAssignation.filter (fun b => b.1 != w) }
        task := by
    obtain ⟨w, hw⟩ := find_bound h.bound
    exact ⟨w, fun n => by simp [completeTask, hw, workerCompleted, ht]⟩
  obtain ⟨N, hN⟩ := taskEpilogue_failed
    { s.setTask task (t.setReturnCode rc) with
      freeWorkers := s.freeWorkers ++ [w]
      taskAssignation := s.taskAssignation.filter (fun b => b.1 != w) }
    task (t.setReturnCode rc) (by simp [Engine.setTask])
    (by simpa [GreasyTask.setReturnCode] using hrc)
    (by simp [Engine.setTask, h.cfg, GreasyTask.setReturnCode, hr]; omega)
    (by simpa [Engine.setTask, h.revDep] using hacyc)
    (fun x hx => by
      have hx2 : Reach st0.revDepMap task x := by simpa [Engine.setTask, h.revDep] using hx
      by_cases hxt : x = task
      · simp [Engine.setTask, hxt]
      · simpa [Engine.setTask, hxt] using h.present x hx2)
  refine ⟨N, fun n hn => ?_⟩
  obtain ⟨s2, h2, hc⟩ := hN n hn
  have hself : ¬ Reach s.revDepMap task task := by rw [h.revDep]; exact hacyc task
  have htask : s2.taskMap task =
      some ((t.setReturnCode rc).setTaskState TaskState.failed) := by
    rw [hc.task_out task (by simpa [Engine.setTask] using hself)]
    simp [Engine.setTask]
  refine ⟨s2, by rw [hw n]; exact h2, ?_, ?_, ?_⟩
  · simp [Engine.stateOf, htask, GreasyTask.setTaskState]
  · simp [Engine.retriesOf, htask, GreasyTask.setTaskState, GreasyTask.setReturnCode, hr]
  · rw [hc.dispatched_same]
    simp only [Engine.setTask, h.count]
    omega

theorem attempting_success {st0 : Engine} {task k i : Nat} {s : Engine}
    (h : Attempting st0 task k i s) (hacyc : Acyclic st0.revDepMap) :
    ∃ s2, (∀ n, completeTask (n + 1) s task 0 = some s2) ∧
      s2.stateOf task = some TaskState.completed ∧ s2.retriesOf task = some i ∧
      s2.dispatched.count task = st0.dispatched.count task + (i + 1) := by
  obtain ⟨t, ht, hr⟩ := h.task_rec
  obtain ⟨w, hw⟩ : ∃ w, ∀ n, completeTask n s task 0 =
      taskEpilogue n
        { s.setTask task (t.setReturnCode 0) with
          freeWorkers := s.freeWorkers ++ [w]
          taskAssignation := s.taskAssignation.filter (fun b => b.1 != w) }
        task := by
    obtain ⟨w, hw⟩ := find_bound h.bound
    exact ⟨w, fun n => by simp [completeTask, hw, workerCompleted, ht]⟩
  obtain ⟨s2, h2, hrel⟩ := taskEpilogue_completed
    { s.setTask task (t.setReturnCode 0) with
      freeWorkers := s.freeWorkers ++ [w]
      taskAssignation := s.taskAssignation.filter (fun b => b.1 != w) }
    task (t.setReturnCode 0) (by simp [Engine.setTask]) rfl
    (fun c hc => by
      have hc2 : Edge st0.revDepMap task c := by
        rw [← h.revDep]; exact hc
      by_cases hxt : c = task
      · simp [Engine.setTask, hxt]
      · simpa [Engine.setTask, hxt] using h.present c (Relation.TransGen.single hc2))
  have hself : task ∉ s.children task := by
    rw [mem_children_iff, h.revDep]; exact not_edge_self hacyc task
  have htask : s2.taskMap task =
      some ((t.setReturnCode 0).setTaskState TaskState.completed) := by
    rw [hrel.task_out task hself]
    simp [Engine.setTask]
  refine ⟨s2, fun n => by rw [hw (n + 1)]; exact h2 n, ?_, ?_, ?_⟩
  · simp [Engine.stateOf, htask, GreasyTask.setTaskState]
  · simp [Engine.retriesOf, htask, GreasyTask.setTaskState, GreasyTask.setReturnCode, hr]
  · rw [hrel.dispatched]
    simp only [Engine.setTask, h.count]
    omega

theorem runAttempts_append (fuel task : Nat) (as bs : List Int) (s : Engine) :
    runAttempts fuel task (as ++ bs) s =
      (runAttempts fuel task as s).bind (runAttempts fuel task bs) := by
  induction as generalizing s with
  | nil => simp [runAttempts]
  | cons a as ih =>
    simp only [List.cons_append, runAttempts]
    cases completeTask fuel s task a with
    | none => rfl
    | some s1 => simpa using ih s1

theorem runAttempts_failures {st0 : Engine} {task k : Nat} (codes : List Int) :
    ∀ (i : Nat) (s : Engine), Attempting st0 task k i s → i + codes.length ≤ k →
      (∀ c ∈ codes, c ≠ 0) →
      ∃ s2, (∀ n, runAttempts n task codes s = some s2) ∧
        Attempting st0 task k (i + codes.length) s2 := by
  induction codes with
  | nil => exact fun i s h _ _ => ⟨s, fun _ => rfl, h⟩
  | cons rc codes ih =>
    intro i s h hlen hne
    simp only [List.length_cons] at hlen
    obtain ⟨s1, h1, hA⟩ := attempting_retry h (by omega) rc (hne rc (List.mem_cons_self _ _))
    obtain ⟨s2, h2, hB⟩ := ih (i + 1) s1 hA (by omega)
      fun c hc => hne c (List.mem_cons_of_mem _ hc)
    refine ⟨s2, fun n => by simp [runAttempts, h1 n, h2 n], ?_⟩
    have : i + (rc :: codes).length = i + 1 + codes.length := by simp; omega
    rw [this]; exact hB

theorem attempting_start {st : Engine} {task k : Nat} {t : GreasyTask}
    (hcfg : st.maxRetriesCfg = some (k : Int)) (ht : st.taskMap task = some t)
    (hr : t.retries = 0) (hfree : st.freeWorkers ≠ [])
    (hmap : ∀ x, Reach st.revDepMap task x → (st.taskMap x).isSome = true) :
    ∃ s, allocate st task = some s ∧ Attempting st task k 0 s := by
  obtain ⟨w, rest, hw⟩ := List.exists_cons_of_ne_nil hfree
  refine ⟨_, allocate_eq st task t w rest hw ht, ⟨?_, ?_, rfl, hcfg, ?_, ?_⟩⟩
  · exact ⟨_, if_pos rfl, by simp [GreasyTask.setTaskState, hr]⟩
  · exact ⟨w, by simp⟩
  · intro x hx
    by_cases hxt : x = task
    · simp [Engine.setTask, hxt]
    · simpa [Engine.setTask, hxt] using hmap x hx
  · simp [Engine.setTask]

/-- C4 (retry budget): let `MaxRetries = k > 0` and let a task with `retries = 0` be
allocated (acyclic index, descendants in the task map, a free worker at hand).
If its attempts return the `k + 1` non-zero codes `codes`, the task ends `failed`
with `retries = k`, having been dispatched exactly `k + 1` times; if they return
`j ≤ k` non-zero codes followed by 0, it ends `completed` with `retries = j`,
having been dispatched exactly `j + 1` times. -/
theorem retry_budget (st : Engine) (task k : Nat) (t : GreasyTask) (_hk : 0 < k)
    (hcfg : st.maxRetriesCfg = some (k : Int)) (ht : st.taskMap task = some t)
    (hr : t.retries = 0) (hfree : st.freeWorkers ≠ []) (hacyc : Acyclic st.revDepMap)
    (hmap : ∀ x, Reach st.revDepMap task x → (st.taskMap x).isSome = true) :
    (∀ codes : List Int, codes.length = k + 1 → (∀ c ∈ codes, c ≠ 0) →
      ∃ N, ∀ n, N ≤ n → ∃ st2,
        (allocate st task).bind (runAttempts n task codes) = some st2 ∧
        st2.stateOf task = some TaskState.failed ∧ st2.retriesOf task = some k ∧
        st2.dispatched.count task = st.dispatched.count task + (k + 1)) ∧
    (∀ (j : Nat) (codes : List Int), j ≤ k → codes.length = j → (∀ c ∈ codes, c ≠ 0) →
      ∃ N, ∀ n, N ≤ n → ∃ st2,
        (allocate st task).bind (runAttempts n task (codes ++ [0])) = some st2 ∧
        st2.stateOf task = some TaskState.completed ∧ st2.retriesOf task = some j ∧
        st2.dispatched.count task = st.dispatched.count task + (j + 1)) := by
  obtain ⟨s0, hs0, hA0⟩ := attempting_start (k := k) hcfg ht hr hfree hmap
  refine ⟨fun codes hlen hne => ?_, fun j codes hj hlen hne => ?_⟩
  · obtain ⟨front, last, rfl⟩ : ∃ front last, codes = front ++ [last] := by
      rcases List.eq_nil_or_concat codes with h | ⟨front, last, h⟩
      · simp [h] at hlen
      · exact ⟨front, last, by simpa using h⟩
    have hfl : front.length = k := by simpa using hlen
    obtain ⟨s1, h1, hA1⟩ := runAttempts_failures front 0 s0 hA0 (by omega)
      fun c hc => hne c (List.mem_append_left _ hc)
    rw [Nat.zero_add, hfl] at hA1
    obtain ⟨N, hN⟩ := attempting_fail hA1 hacyc (lt_irrefl k) last (hne last (by simp))
    refine ⟨N, fun n hn => ?_⟩
    obtain ⟨s2, h2, hres⟩ := hN n hn
    refine ⟨s2, ?_, hres⟩
    simp [hs0, runAttempts_append, h1 n, runAttempts, h2]
  · obtain ⟨s1, h1, hA1⟩ := runAttempts_failures codes 0 s0 hA0 (by omega) hne
    rw [Nat.zero_add, hlen] at hA1
    obtain ⟨s2, h2, hres⟩ := attempting_success hA1 hacyc
    refine ⟨1, fun n hn => ⟨s2, ?_, hres⟩⟩
    obtain ⟨m, rfl⟩ : ∃ m, n = m + 1 := ⟨n - 1, by omega⟩
    simp [hs0, runAttempts_append, h1 (m + 1), runAttempts, h2 m]

theorem retry_budget_witness :
    (∀ codes : List Int, codes.length = 2 + 1 → (∀ c ∈ codes, c ≠ 0) →
      ∃ N, ∀ n, N ≤ n → ∃ st2,
        (allocate exRetryStart 1).bind (runAttempts n 1 codes) = some st2 ∧
        st2.stateOf 1 = some TaskState.failed ∧ st2.retriesOf 1 = some 2 ∧
        st2.dispatched.count 1 = exRetryStart.dispatched.count 1 + (2 + 1)) ∧
    (∀ (j : Nat) (codes : List Int), j ≤ 2 → codes.length = j → (∀ c ∈ codes, c ≠ 0) →
      ∃ N, ∀ n, N ≤ n → ∃ st2,
        (allocate exRetryStart 1).bind (runAttempts n 1 (codes ++ [0])) = some st2 ∧
        st2.stateOf 1 = some TaskState.completed ∧ st2.retriesOf 1 = some j ∧
        st2.dispatched.count 1 = exRetryStart.dispatched.count 1 + (j + 1)) :=
  retry_budget exRetryStart 1 2 (mkTask [] TaskState.waiting) (by decide) rfl rfl rfl
    (by decide) (acyclic_of_rank (fun x => 10 - x) (by decide))
    (fun x hx => by
      obtain ⟨e, he, hxe⟩ := reach_target hx
      have hall : ∀ e ∈ exRetryStart.revDepMap, ∀ c ∈ e.2,
          (exRetryStart.taskMap c).isSome = true := by decide
      exact hall e he x hxe)

theorem fold_untouched (recurse : Engine → Nat → Option Engine) (p : Nat) (state : TaskState)
    (h1 : state ≠ TaskState.completed) (h2 : state ≠ TaskState.failed)
    (h3 : state ≠ TaskState.cancelled) (cs : List Nat) (s : Engine) :
    cs.foldlM (updateChild recurse p state) s = some s := by
  induction cs with
  | nil => rfl
  | cons c cs ih =>
    rw [List.foldlM_cons]
    have : updateChild recurse p state s c = some s := by
      simp [updateChild, h1, h2, h3]
    rw [this]
    exact ih

/-- C19 (the cascade recursion terminates): over an acyclic reverse-dependency index,
for a parent in any state whose descendants are in the task map,
`updateDependencies` returns a state for every sufficient fuel; descendants
reachable along several paths are no obstacle. -/
theorem updateDependencies_terminates (st : Engine) (parent : Nat)
    (hacyc : Acyclic st.revDepMap) (hp : (st.taskMap parent).isSome = true)
    (hmap : ∀ x, Reach st.revDepMap parent x → (st.taskMap x).isSome = true) :
    ∃ N, ∀ n, N ≤ n → (updateDependencies n st parent).isSome = true := by
  obtain ⟨p, hp⟩ := Option.isSome_iff_exists.1 hp
  by_cases hc : p.taskState = TaskState.completed
  · obtain ⟨st2, h2, -⟩ := updateDependencies_completed st parent p hp hc
      fun c hc => hmap c (Relation.TransGen.single hc)
    refine ⟨1, fun n hn => ?_⟩
    obtain ⟨m, rfl⟩ : ∃ m, n = m + 1 := ⟨n - 1, by omega⟩
    simp [h2 m]
  · by_cases hf : p.taskState = TaskState.failed ∨ p.taskState = TaskState.cancelled
    · obtain ⟨N, hN⟩ := cascade_spec hacyc parent
      refine ⟨N, fun n hn => ?_⟩
      obtain ⟨st2, h2, -⟩ := hN n hn st rfl ⟨p, hp, hf⟩ hmap
      simp [h2]
    · refine ⟨1, fun n hn => ?_⟩
      obtain ⟨m, rfl⟩ : ∃ m, n = m + 1 := ⟨n - 1, by omega⟩
      rw [not_or] at hf
      simp only [updateDependencies, hp]
      cases st.revDepMap.lookup parent with
      | none => rfl
      | some cs => simp [fold_untouched _ parent p.taskState hc hf.1 hf.2 cs st]

theorem updateDependencies_terminates_witness :
    ∃ N, ∀ n, N ≤ n → (updateDependencies n exFailedDiamond 1).isSome = true :=
  updateDependencies_terminates exFailedDiamond 1
    (acyclic_of_rank (fun x => 10 - x) (by decide)) (by decide)
    (fun x hx => by
      obtain ⟨e, he, hxe⟩ := reach_target hx
      have hall : ∀ e ∈ exFailedDiamond.revDepMap, ∀ c ∈ e.2,
          (exFailedDiamond.taskMap c).isSome = true := by decide
      exact hall e he x hxe)

theorem cascadeOf_again {P : Nat → Prop} {s1 s2 s3 : Engine} (h12 : CascadeOf P s1 s2)
    (h23 : CascadeOf P s2 s3) : s3 = s2 := by
  have htask : s3.taskMap = s2.taskMap := by
    funext x
    by_cases hx : P x
    · rw [h23.task_in x hx, h12.task_in x hx]
      cases s1.taskMap x <;> simp [GreasyTask.setTaskState]
    · exact h23.task_out x hx
  have hblocked : s3.blockedTasks = s2.blockedTasks := by
    ext x
    rw [h23.blocked, h12.blocked]
    tauto
  have hf := h23.frame
  cases s2; cases s3
  simp only [Engine.mk.injEq] at hf htask hblocked ⊢
  simp_all

theorem releaseOf_again {p : Nat} {cs : List Nat} {s1 s2 s3 : Engine}
    (h12 : ReleaseOf p cs s1 s2) (h23 : ReleaseOf p cs s2 s3) :
    s3.taskMap = s2.taskMap ∧ s3.blockedTasks = s2.blockedTasks ∧
      s3.taskQueue = s2.taskQueue ++ cs.filter (fun c => (s2.depsOf c).isEmpty) := by
  refine ⟨?_, ?_, ?_⟩
  · funext x
    by_cases hx : x ∈ cs
    · rw [h23.task_in x hx, h12.task_in x hx]
      cases s1.taskMap x <;> simp [removeDependency_idem]
    · exact h23.task_out x hx
  · ext x
    rw [h23.blocked, h12.blocked, h12.onlyDep]
    tauto
  · rw [h23.queue]
    congr 1
    refine List.filter_congr fun c hc => ?_
    unfold Engine.onlyDep Engine.depsOf
    rw [h12.task_in c hc, Bool.eq_iff_iff]
    cases s1.taskMap c with
    | none => simp
    | some t => simp [removeDependency_deps, List.isEmpty_iff, List.filter_eq_nil_iff]

/-- C11, as stated, fails: task 1 of `exCompletedFork` is `completed`; the first
`updateDependencies(1)` queues its child 2, and a second call queues task 2 once
more, so the ready queue is not left unchanged. -/
theorem updateDependencies_twice_requeues :
    ∃ st2 st3, exCompletedFork.stateOf 1 = some TaskState.completed ∧
      updateDependencies 1 exCompletedFork 1 = some st2 ∧
      updateDependencies 1 st2 1 = some st3 ∧
      st2.taskQueue = [2] ∧ st3.taskQueue = [2, 2] ∧ st3.taskQueue ≠ st2.taskQueue := by
  have h1 : (updateDependencies 1 exCompletedFork 1).isSome = true := by decide
  obtain ⟨st2, h2⟩ := Option.isSome_iff_exists.1 h1
  have h3 : ((updateDependencies 1 exCompletedFork 1).bind
      fun s => updateDependencies 1 s 1).isSome = true := by decide
  rw [h2, Option.some_bind] at h3
  obtain ⟨st3, h4⟩ := Option.isSome_iff_exists.1 h3
  have hq2 : (updateDependencies 1 exCompletedFork 1).map Engine.taskQueue = some [2] := by
    decide
  have hq3 : ((updateDependencies 1 exCompletedFork 1).bind
      fun s => updateDependencies 1 s 1).map Engine.taskQueue = some [2, 2] := by decide
  rw [h2, Option.some_bind, h4] at hq3
  rw [h2] at hq2
  simp only [Option.map_some', Option.some.injEq] at hq2 hq3
  refine ⟨st2, st3, by decide, h2, h4, hq2, hq3, ?_⟩
  rw [hq2, hq3]
  decide

/-- C11, amended: let `updateDependencies(p)` have been applied to a terminal task
`p` (acyclic index, descendants in the task map).  When `p` is `failed` or
`cancelled`, applying it again returns the very same state.  When `p` is
`completed`, the second call leaves every task record (states and dependencies)
and the blocked set unchanged, and appends to the ready queue the children of `p`
that have no dependencies left. -/
theorem updateDependencies_again (st : Engine) (parent : Nat) (p : GreasyTask)
    (hp : st.taskMap parent = some p) (hacyc : Acyclic st.revDepMap)
    (hmap : ∀ x, Reach st.revDepMap parent x → (st.taskMap x).isSome = true) :
    (p.taskState = TaskState.failed ∨ p.taskState = TaskState.cancelled →
      ∃ N, ∀ n, N ≤ n → ∃ st2, updateDependencies n st parent = some st2 ∧
        updateDependencies n st2 parent = some st2) ∧
    (p.taskState = TaskState.completed →
      ∃ st2 st3, (∀ n, updateDependencies (n + 1) st parent = some st2) ∧
        (∀ n, updateDependencies (n + 1) st2 parent = some st3) ∧
        st3.taskMap = st2.taskMap ∧ st3.blockedTasks = st2.blockedTasks ∧
        st3.taskQueue =
          st2.taskQueue ++ (st.children parent).filter (fun c => (st2.depsOf c).isEmpty)) := by
  refine ⟨fun hstate => ?_, fun hstate => ?_⟩
  · obtain ⟨N, hN⟩ := cascade_spec hacyc parent
    refine ⟨N, fun n hn => ?_⟩
    obtain ⟨st2, h2, hc⟩ := hN n hn st rfl ⟨p, hp, hstate⟩ hmap
    obtain ⟨st3, h3, hc3⟩ := hN n hn st2 hc.revDep
      ⟨p, by rw [hc.task_out parent (hacyc parent)]; exact hp, hstate⟩
      (fun x hx => by rw [hc.isSome]; exact hmap x hx)
    refine ⟨st2, h2, ?_⟩
    rw [h3, cascadeOf_again hc hc3]
  · obtain ⟨st2, h2, hrel⟩ := updateDependencies_completed st parent p hp hstate
      fun c hc => hmap c (Relation.TransGen.single hc)
    have hself : parent ∉ st.children parent := not_edge_self hacyc parent
    have hrev : st2.revDepMap = st.revDepMap := by
      simpa using congrArg Engine.revDepMap hrel.frame
    have hch : st2.children parent = st.children parent := by
      simp [Engine.children, hrev]
    obtain ⟨st3, h3, hrel3⟩ := updateDependencies_completed st2 parent p
      (by rw [hrel.task_out parent hself]; exact hp) hstate
      (fun c hc => by
        rw [hch] at hc
        rw [hrel.task_in c hc]
        simpa using hmap c (Relation.TransGen.single hc))
    rw [hch] at hrel3
    exact ⟨st2, st3, h2, h3, releaseOf_again hrel hrel3⟩

theorem updateDependencies_again_witness :
    (TaskState.completed = TaskState.failed ∨ TaskState.completed = TaskState.cancelled →
      ∃ N, ∀ n, N ≤ n → ∃ st2, updateDependencies n exCompletedFork 1 = some st2 ∧
        updateDependencies n st2 1 = some st2) ∧
    (TaskState.completed = TaskState.completed →
      ∃ st2 st3, (∀ n, updateDependencies (n + 1) exCompletedFork 1 = some st2) ∧
        (∀ n, updateDependencies (n + 1) st2 1 = some st3) ∧
        st3.taskMap = st2.taskMap ∧ st3.blockedTasks = st2.blockedTasks ∧
        st3.taskQueue =
          st2.taskQueue ++
            (exCompletedFork.children 1).filter (fun c => (st2.depsOf c).isEmpty)) :=
  updateDependencies_again exCompletedFork 1 (mkTask [] TaskState.completed) rfl
    (acyclic_of_rank (fun x => if x = 2 ∨ x = 3 then 0 else 1) (by decide))
    (fun x hx => by
      obtain ⟨e, he, hxe⟩ := reach_target hx
      have hall : ∀ e ∈ exCompletedFork.revDepMap, ∀ c ∈ e.2,
          (exCompletedFork.taskMap c).isSome = true := by decide
      exact hall e he x hxe)

theorem init_fold (l : List Nat) :
    ∀ st : Engine,
      l.foldl
        (fun (s : Engine) (i : Nat) =>
          let worker_id : Int :=
            if s.usecpubinding then Int.tdiv (wrapInt ((i : Int) * s.n_node_cpus)) s.nworkers
            else (i : Int)
          { s with freeWorkers := s.freeWorkers ++ [worker_id] })
        st =
      { st with freeWorkers := st.freeWorkers ++ l.map fun (i : Nat) =>
          if st.usecpubinding then Int.tdiv (wrapInt ((i : Int) * st.n_node_cpus)) st.nworkers
          else (i : Int) } := by
  induction l with
  | nil => intro st; simp
  | cons i l ih =>
    intro st
    rw [List.foldl_cons, ih]
    simp

theorem init_freeWorkers (st : Engine) :
    (init st).freeWorkers =
      st.freeWorkers ++ (List.range st.nworkers.toNat).map fun (i : Nat) =>
        if st.usecpubinding then Int.tdiv (wrapInt ((i : Int) * st.n_node_cpus)) st.nworkers
        else (i : Int) := by
  unfold init
  rw [init_fold]

theorem wrapInt_of_small {x : Int} (h0 : 0 ≤ x) (h1 : x < 2147483648) : wrapInt x = x := by
  unfold wrapInt
  omega

theorem stride_lt_stride (c n : Int) (i j : Nat) (hn : 1 ≤ n) (hc : n ≤ c) (hij : i < j) :
    ((i : Int) * c) / n < ((j : Int) * c) / n := by
  have hn0 : n ≠ 0 := by omega
  have h1 : ((i : Int) * c + 1 * n) / n = (i : Int) * c / n + 1 :=
    Int.add_mul_ediv_right _ _ hn0
  have h2 : (i : Int) * c + 1 * n ≤ (j : Int) * c := by
    have : ((i : Int) + 1) * c ≤ (j : Int) * c :=
      Int.mul_le_mul_of_nonneg_right (by omega) (by omega)
    nlinarith
  have h3 : ((i : Int) * c + 1 * n) / n ≤ ((j : Int) * c) / n :=
    Int.ediv_le_ediv (by omega) h2
  omega

/-- C20, as stated, fails: with CPU binding, 3 workers and `2^30` CPUs (so
`1 ≤ nworkers ≤ n_node_cpus`), the product `2 * 2^30` wraps to `-2^31` and the third
worker gets the id `-715827882`: the ids are not the rounded-down quotients, not
increasing and not all in `[0, n_node_cpus)`. -/
theorem init_worker_ids_overflow :
    exHugeNode.usecpubinding = true ∧ 1 ≤ exHugeNode.nworkers ∧
      exHugeNode.nworkers ≤ exHugeNode.n_node_cpus ∧
      (init exHugeNode).freeWorkers = [0, 357913941, -715827882] ∧
      (List.range exHugeNode.nworkers.toNat).map
          (fun (i : Nat) => (i : Int) * exHugeNode.n_node_cpus / exHugeNode.nworkers) =
        [0, 357913941, 715827882] ∧
      ¬ (init exHugeNode).freeWorkers.Pairwise (fun a b => a < b) ∧
      ¬ ∀ w ∈ (init exHugeNode).freeWorkers, 0 ≤ w ∧ w < exHugeNode.n_node_cpus := by
  decide

/-- C20, amended (worker ids at init): starting from an empty `freeWorkers`, without
CPU binding the queue after `init` is `0, 1, ..., nworkers - 1`; with CPU binding,
`n_node_cpus ≥ 0` and products that fit in an `int`,
`(nworkers - 1) * n_node_cpus < 2^31`, worker `i` gets `i * n_node_cpus / nworkers`
rounded down; and when moreover `1 ≤ nworkers ≤ n_node_cpus` these ids are strictly
increasing, the first is 0 and all of them are non-negative and less than
`n_node_cpus`. -/
theorem init_worker_ids (st : Engine) (hempty : st.freeWorkers = []) :
    (st.usecpubinding = false →
      (init st).freeWorkers = (List.range st.nworkers.toNat).map fun (i : Nat) => (i : Int)) ∧
    (st.usecpubinding = true → 0 ≤ st.n_node_cpus →
      (st.nworkers - 1) * st.n_node_cpus < 2147483648 →
      (init st).freeWorkers =
        (List.range st.nworkers.toNat).map
          fun (i : Nat) => (i : Int) * st.n_node_cpus / st.nworkers) ∧
    (st.usecpubinding = true → 1 ≤ st.nworkers → st.nworkers ≤ st.n_node_cpus →
      (st.nworkers - 1) * st.n_node_cpus < 2147483648 →
      (init st).freeWorkers.Pairwise (fun a b => a < b) ∧
      (init st).freeWorkers.head? = some 0 ∧
      ∀ w ∈ (init st).freeWorkers, 0 ≤ w ∧ w < st.n_node_cpus) := by
  have hfloor : st.usecpubinding = true → 0 ≤ st.n_node_cpus →
      (st.nworkers - 1) * st.n_node_cpus < 2147483648 →
      (init st).freeWorkers =
        (List.range st.nworkers.toNat).map fun (i : Nat) =>
          (i : Int) * st.n_node_cpus / st.nworkers := by
    intro hb hc hfit
    rw [init_freeWorkers, hempty, List.nil_append]
    refine List.map_congr_left fun i hi => ?_
    simp only [hb, if_true]
    have hi2 : i < st.nworkers.toNat := List.mem_range.1 hi
    have hi3 : (i : Int) ≤ st.nworkers - 1 := by omega
    have hprod0 : 0 ≤ (i : Int) * st.n_node_cpus := Int.mul_nonneg (by omega) hc
    have hprod : (i : Int) * st.n_node_cpus < 2147483648 :=
      lt_of_le_of_lt (Int.mul_le_mul_of_nonneg_right hi3 hc) hfit
    rw [wrapInt_of_small hprod0 hprod]
    exact Int.tdiv_eq_ediv hprod0 (by omega)
  refine ⟨fun hb => ?_, hfloor, fun hb hn hc hfit => ?_⟩
  · rw [init_freeWorkers, hempty, List.nil_append]
    simp [hb]
  · rw [hfloor hb (by omega) hfit]
    refine ⟨?_, ?_, ?_⟩
    · rw [List.pairwise_map]
      refine List.Pairwise.imp ?_ (List.pairwise_lt_range _)
      intro i j hij
      exact stride_lt_stride _ _ i j hn hc hij
    · obtain ⟨m, hm⟩ : ∃ m, st.nworkers.toNat = m + 1 := ⟨st.nworkers.toNat - 1, by omega⟩
      rw [hm, List.range_succ_eq_map]
      simp
    · intro w hw
      obtain ⟨i, hi, rfl⟩ := List.mem_map.1 hw
      have hi2 : i < st.nworkers.toNat := List.mem_range.1 hi
      refine ⟨Int.ediv_nonneg (Int.mul_nonneg (by omega) (by omega)) (by omega), ?_⟩
      apply Int.ediv_lt_of_lt_mul (by omega)
      have : (i : Int) < st.nworkers := by omega
      nlinarith

theorem init_worker_ids_witness :
    (init exNoBinding).freeWorkers = [0, 1, 2] ∧
    (init exBinding).freeWorkers =
      (List.range exBinding.nworkers.toNat).map
        (fun (i : Nat) => (i : Int) * exBinding.n_node_cpus / exBinding.nworkers) ∧
    (init exBinding).freeWorkers.Pairwise (fun a b => a < b) ∧
    (init exBinding).freeWorkers.head? = some 0 ∧
    ∀ w ∈ (init exBinding).freeWorkers, 0 ≤ w ∧ w < exBinding.n_node_cpus :=
  ⟨(init_worker_ids exNoBinding rfl).1 rfl,
    (init_worker_ids exBinding rfl).2.1 rfl (by decide) (by decide),
    (init_worker_ids exBinding rfl).2.2 rfl (by decide) (by decide) (by decide)⟩

theorem foldlM_mono {f g : Engine → Nat → Option Engine}
    (h : ∀ s c s2, f s c = some s2 → g s c = some s2) (l : List Nat) :
    ∀ s s2, l.foldlM f s = some s2 → l.foldlM g s = some s2 := by
  induction l with
  | nil => exact fun s s2 h => h
  | cons c l ih =>
    intro s s2 hf
    rw [List.foldlM_cons] at hf ⊢
    cases hfc : f s c with
    | none => rw [hfc] at hf; simp at hf
    | some s1 =>
      rw [hfc] at hf
      rw [h s c s1 hfc]
      exact ih s1 s2 hf

theorem updateChild_mono {r1 r2 : Engine → Nat → Option Engine}
    (h : ∀ s c s2, r1 s c = some s2 → r2 s c = some s2) (p : Nat) (state : TaskState)
    (s : Engine) (c : Nat) (s2 : Engine)
    (h1 : updateChild r1 p state s c = some s2) : updateChild r2 p state s c = some s2 := by
  unfold updateChild at h1 ⊢
  by_cases hc : state = TaskState.completed
  · simpa [hc] using h1
  · by_cases hf : state = TaskState.failed ∨ state = TaskState.cancelled
    · simp only [hc, hf, if_false, if_true] at h1 ⊢
      cases hm : s.taskMap c with
      | none => simp [hm] at h1
      | some child =>
        simp only [hm] at h1 ⊢
        exact h _ _ _ h1
    · simpa [hc, hf] using h1

theorem updateDependencies_succ (n : Nat) :
    ∀ s p s2, updateDependencies n s p = some s2 → updateDependencies (n + 1) s p = some s2 := by
  induction n with
  | zero => intro s p s2 h; simp [updateDependencies] at h
  | succ n ih =>
    intro s p s2 h
    rw [updateDependencies] at h ⊢
    cases hp : s.taskMap p with
    | none => simp [hp] at h
    | some t =>
      simp only [hp] at h ⊢
      cases hl : s.revDepMap.lookup p with
      | none => simpa [hl] using h
      | some cs =>
        simp only [hl] at h ⊢
        exact foldlM_mono (updateChild_mono ih p t.taskState) cs s s2 h

theorem updateDependencies_mono {n m : Nat} (hnm : n ≤ m) {s : Engine} {p : Nat} {s2 : Engine}
    (h : updateDependencies n s p = some s2) : updateDependencies m s p = some s2 := by
  induction hnm with
  | refl => exact h
  | step _ ih => exact updateDependencies_succ _ _ _ _ ih

theorem taskEpilogue_mono {n m : Nat} (hnm : n ≤ m) {s : Engine} {task : Nat} {s2 : Engine}
    (h : taskEpilogue n s task = some s2) : taskEpilogue m s task = some s2 := by
  unfold taskEpilogue at h ⊢
  cases ht : s.taskMap task with
  | none => simp [ht] at h
  | some t =>
    simp only [ht] at h ⊢
    split at h
    · split at h
      · rename_i h1 h2
        rw [if_pos h1, if_pos h2]; exact h
      · rename_i h1 h2
        rw [if_pos h1, if_neg h2]; exact updateDependencies_mono hnm h
    · rename_i h1
      rw [if_neg h1]; exact updateDependencies_mono hnm h

theorem waitForAnyWorker_mono {backend : Nat → Nat × Int} {n m : Nat} (hnm : n ≤ m)
    {s s2 : Engine} (h : waitForAnyWorker backend n s = some s2) :
    waitForAnyWorker backend m s = some s2 := by
  unfold waitForAnyWorker at h ⊢
  cases hb : s.taskAssignation[(backend s.nwaits).1 % s.taskAssignation.length]? with
  | none => simp [hb] at h
  | some b =>
    obtain ⟨w, task⟩ := b
    simp only [hb, workerCompleted] at h ⊢
    cases ht : s.taskMap task with
    | none => simp [ht] at h
    | some t =>
      simp only [ht] at h ⊢
      exact taskEpilogue_mono hnm h

theorem Inv.task {s : Engine} (h : Inv s) {i : Nat} (hi : i ∈ s.validTasks) :
    ∃ t, s.taskMap i = some t := Option.isSome_iff_exists.1 (h.present i hi)

theorem phase_queue_head {s : Engine} (h : Inv s) {i : Nat} {rest : List Nat}
    (hQ : s.taskQueue = i :: rest) :
    i ∈ s.validTasks ∧ s.stateOf i = some TaskState.waiting ∧ i ∉ rest := by
  have hi : i ∈ s.taskQueue := by rw [hQ]; exact List.mem_cons_self _ _
  have hv := h.queue_valid i hi
  refine ⟨hv, (h.phase i hv).queued.1 hi, ?_⟩
  have := h.queue_nodup
  rw [hQ] at this
  exact (List.nodup_cons.1 this).1

/-- The invariant survives an `allocate` made by the main loop. -/
theorem inv_alloc {s s2 : Engine} {i : Nat} {w : Int} (h : Inv s)
    (hV : s2.validTasks = s.validTasks) (hR : s2.revDepMap = s.revDepMap)
    (hN : s2.nworkers = s.nworkers)
    (hsome : ∀ x, (s2.taskMap x).isSome = (s.taskMap x).isSome)
    (hst : ∀ x, s2.stateOf x = if x = i then some TaskState.running else s.stateOf x)
    (hdeps : ∀ x, s2.depsOf x = s.depsOf x)
    (hQ : s.taskQueue = i :: s2.taskQueue) (hB : s2.blockedTasks = s.blockedTasks)
    (hA : s2.taskAssignation = s.taskAssignation ++ [(w, i)])
    (hF : s.freeWorkers = w :: s2.freeWorkers)
    (hpop : s2.popped = s.popped ++ [i]) (hpush : s2.pushed = s.pushed)
    (hdisp : s2.dispatched = s.dispatched ++ [i]) : Inv s2 := by
  obtain ⟨hiV, hiW, hiQ⟩ := phase_queue_head h hQ
  have hph := h.phase i hiV
  have hnb : ¬ s.bound i := fun hb => by
    have := hph.running.1 hb
    rw [hiW] at this
    exact absurd this (by decide)
  have hch : ∀ p, s2.children p = s.children p := fun p => by simp [Engine.children, hR]
  refine
    { acyclic := by rw [hR]; exact h.acyclic
      present := fun x hx => by rw [hsome]; exact h.present x (hV ▸ hx)
      edge_valid := fun p c hpc => by rw [hV]; exact h.edge_valid p c (hR ▸ hpc)
      child_nodup := fun p => by rw [hch]; exact h.child_nodup p
      deps_iff := ?_
      phase := ?_
      queue_nodup := ?_
      queue_valid := ?_
      blocked_valid := fun x hx => by rw [hV]; exact h.blocked_valid x (hB ▸ hx)
      bound_valid := ?_
      bound_nodup := ?_
      cancel_down := ?_
      workers_nodup := ?_
      workers_count := ?_
      workers_pos := by rw [hN]; exact h.workers_pos
      fifo := ?_
      dispatched_popped := ?_
      popped_valid := ?_ }
  · intro c hc p
    rw [hdeps, hR, h.deps_iff c (hV ▸ hc) p, hst]
    by_cases hp : p = i
    · subst hp; simp [hiW]
    · simp [hp]
  · intro x hx
    rw [hV] at hx
    have hpx := h.phase x hx
    by_cases hxi : x = i
    · subst hxi
      have hdi : s.depsOf x = [] := by
        by_contra hne
        rcases hpx.deps.1 hne with h1 | h1 <;> rw [hiW] at h1 <;> exact absurd h1 (by decide)
      refine ⟨?_, ?_, ?_, ?_, ?_, ?_⟩
      · simp [hst, hiQ]
      · rw [hB, hpx.blocked, hst]; simp [hiW]
      · simp only [hst, if_true, iff_true]
        exact ⟨w, by rw [hA]; simp⟩
      · rw [hdeps, hst]; simp [hdi]
      · rw [hpop, hst]; simp
      · rw [hst]; simp
    · have hq : x ∈ s2.taskQueue ↔ x ∈ s.taskQueue := by rw [hQ]; simp [hxi]
      have hb : s2.bound x ↔ s.bound x := by
        unfold Engine.bound
        rw [hA]
        simp [hxi]
      refine ⟨?_, ?_, ?_, ?_, ?_, ?_⟩
      · rw [hq, hst, if_neg hxi]; exact hpx.queued
      · rw [hB, hst, if_neg hxi]; exact hpx.blocked
      · rw [hb, hst, if_neg hxi]; exact hpx.running
      · rw [hdeps, hst, if_neg hxi]; exact hpx.deps
      · rw [hpop, hst, if_neg hxi]; simp [hxi]; exact hpx.popped
      · rw [hst, if_neg hxi, hdeps]
        intro hc
        obtain ⟨q, hq1, hq2⟩ := hpx.cause hc
        refine ⟨q, hq1, ?_⟩
        have hqi : q ≠ i := by
          rintro rfl
          rw [hiW] at hq2
          rcases hq2 with h1 | h1 <;> exact absurd h1 (by decide)
        rw [hst, if_neg hqi]; exact hq2
  · have := h.queue_nodup
    rw [hQ] at this
    exact (List.nodup_cons.1 this).2
  · intro x hx
    rw [hV]
    exact h.queue_valid x (by rw [hQ]; exact List.mem_cons_of_mem _ hx)
  · intro b hb
    rw [hA, List.mem_append, List.mem_singleton] at hb
    rw [hV]
    rcases hb with hb | rfl
    · exact h.bound_valid b hb
    · exact hiV
  · rw [hA, List.map_append, List.map_singleton]
    refine List.Nodup.append h.bound_nodup (List.nodup_singleton _) ?_
    intro x hx1 hx2
    rw [List.mem_singleton] at hx2
    subst hx2
    obtain ⟨b, hb, rfl⟩ := List.mem_map.1 hx1
    exact hnb ⟨b.1, hb⟩
  · intro c hc p hp hpf
    rw [hV] at hc
    rw [hdeps] at hp
    have hpi : p ≠ i := by
      rintro rfl
      rw [hst, if_pos rfl] at hpf
      rcases hpf with h1 | h1 <;> exact absurd h1 (by decide)
    rw [hst, if_neg hpi] at hpf
    have hcc := h.cancel_down c hc p hp hpf
    have hci : c ≠ i := by
      rintro rfl
      rw [hiW] at hcc
      exact absurd hcc (by decide)
    rw [hst, if_neg hci]; exact hcc
  · have := h.workers_nodup
    rw [hF] at this
    rw [hA, List.map_append, List.map_singleton]
    have hperm : (s2.freeWorkers ++ (s.taskAssignation.map Prod.fst ++ [w])).Perm
        (w :: s2.freeWorkers ++ s.taskAssignation.map Prod.fst) := by
      rw [← List.append_assoc]
      exact (List.perm_append_singleton _ _).trans (by simp)
    exact hperm.nodup_iff.2 this
  · have := h.workers_count
    rw [hF] at this
    rw [hA, hN]
    simp only [List.length_append, List.length_cons, List.length_singleton, List.length_nil] at this ⊢
    omega
  · rw [hpush, hpop, h.fifo, hQ]; simp
  · intro c hc
    rw [hdisp, List.mem_append, List.mem_singleton] at hc
    rw [hpop, List.mem_append, List.mem_singleton]
    rcases hc with hc | hc
    · exact Or.inl (h.dispatched_popped c hc)
    · exact Or.inr hc
  · intro c hc
    rw [hpop, List.mem_append, List.mem_singleton] at hc
    rw [hV]
    rcases hc with hc | rfl
    · exact h.popped_valid c hc
    · exact hiV

theorem stateOf_setTask (s : Engine) (i : Nat) (t : GreasyTask) (x : Nat) :
    (s.setTask i t).stateOf x = if x = i then some t.taskState else s.stateOf x := by
  unfold Engine.stateOf Engine.setTask
  by_cases hx : x = i <;> simp [hx]

theorem depsOf_setTask (s : Engine) (i : Nat) (t : GreasyTask) (x : Nat) :
    (s.setTask i t).depsOf x = if x = i then t.dependencies else s.depsOf x := by
  unfold Engine.depsOf Engine.setTask
  by_cases hx : x = i <;> simp [hx]

theorem isSome_setTask (s : Engine) (i : Nat) (t : GreasyTask) (x : Nat)
    (hi : (s.taskMap i).isSome = true) :
    ((s.setTask i t).taskMap x).isSome = (s.taskMap x).isSome := by
  unfold Engine.setTask
  by_cases hx : x = i
  · subst hx; simp [hi]
  · simp [hx]

theorem stateOf_eq_of_task {s : Engine} {i : Nat} {t : GreasyTask} (h : s.taskMap i = some t) :
    s.stateOf i = some t.taskState := by simp [Engine.stateOf, h]

theorem depsOf_eq_of_task {s : Engine} {i : Nat} {t : GreasyTask} (h : s.taskMap i = some t) :
    s.depsOf i = t.dependencies := by simp [Engine.depsOf, h]

theorem weight_of_task {s : Engine} {i : Nat} {t : GreasyTask} (h : s.taskMap i = some t) :
    weight s i =
      match t.taskState with
      | TaskState.waiting => 2 + ((s.maxRetriesCfg.getD 0).toNat - t.retries)
      | TaskState.blocked => 2 + ((s.maxRetriesCfg.getD 0).toNat - t.retries)
      | TaskState.running => 1 + ((s.maxRetriesCfg.getD 0).toNat - t.retries)
      | _ => 0 := by
  simp [weight, h]

theorem loopMeasure_lt {s s2 : Engine} (hV : s2.validTasks = s.validTasks) {i : Nat}
    (hi : i ∈ s.validTasks) (hle : ∀ x ∈ s.validTasks, weight s2 x ≤ weight s x)
    (hlt : weight s2 i < weight s i) : loopMeasure s2 < loopMeasure s := by
  unfold loopMeasure
  rw [hV]
  exact List.sum_lt_sum _ _ hle ⟨i, hi, hlt⟩

theorem Trans.refl (s : Engine) : Trans s s :=
  { config := ⟨rfl, rfl, rfl, rfl⟩
    terminal_kept := fun _ _ h _ => h
    blocked_sub := fun _ h => h
    queue_sub := fun _ h => Or.inl h
    pushed_ext := ⟨[], by simp, by simp⟩
    dispatched_ext := ⟨[], by simp, by simp⟩
    outside := fun _ _ => rfl
    waits := Or.inl rfl }

/-- A step of the inner loop that allocates the head of the ready queue: it
succeeds, keeps the invariant and lowers the termination measure. -/
theorem loop_alloc {s : Engine} (h : Inv s) {i : Nat} {rest : List Nat}
    (hQ : s.taskQueue = i :: rest) (hF : s.freeWorkers ≠ []) :
    ∃ s2, allocate { s with taskQueue := rest, popped := s.popped ++ [i] } i = some s2 ∧
      Inv s2 ∧ Trans s s2 ∧ loopMeasure s2 < loopMeasure s := by
  obtain ⟨hiV, hiW, hiQ⟩ := phase_queue_head h hQ
  obtain ⟨t, ht⟩ := h.task hiV
  obtain ⟨w, F, hw⟩ := List.exists_cons_of_ne_nil hF
  have htw : t.taskState = TaskState.waiting := by
    rw [stateOf_eq_of_task ht] at hiW
    exact Option.some.inj hiW
  have hwA : w ∉ s.taskAssignation.map Prod.fst := by
    have := h.workers_nodup
    rw [hw] at this
    have h2 := (List.nodup_cons.1 this).1
    exact fun hc => h2 (List.mem_append_right _ hc)
  have hfilter : s.taskAssignation.filter (fun b => b.1 != w) = s.taskAssignation := by
    rw [List.filter_eq_self]
    intro b hb
    simp only [bne_iff_ne, ne_eq]
    rintro rfl
    exact hwA (List.mem_map_of_mem _ hb)
  have heq := allocate_eq { s with taskQueue := rest, popped := s.popped ++ [i] } i t w F hw ht
  rw [hfilter] at heq
  refine ⟨_, heq, ?_, ?_, ?_⟩
  · refine inv_alloc (i := i) (w := w) h rfl rfl rfl ?_ ?_ ?_ hQ rfl rfl hw rfl rfl rfl
    · intro x
      exact isSome_setTask _ i _ x (by simp [ht])
    · intro x
      exact stateOf_setTask _ i _ x
    · intro x
      show (Engine.setTask _ i _).depsOf x = _
      rw [depsOf_setTask]
      by_cases hx : x = i
      · subst hx
        simp [GreasyTask.setTaskState, depsOf_eq_of_task ht]
      · simp [hx, Engine.depsOf]
  · refine ⟨⟨rfl, rfl, rfl, rfl⟩, ?_, fun _ hx => hx, ?_,
      ⟨[], by simp [Engine.setTask], by simp⟩, ?_, ?_, Or.inl rfl⟩
    rotate_right
    · intro x hx
      have hxi : x ≠ i := by rintro rfl; exact hx hiV
      show (Engine.setTask _ i _).stateOf x = _
      rw [stateOf_setTask, if_neg hxi]
      rfl
    · intro x st hx hterm
      show (Engine.setTask _ i _).stateOf x = _
      rw [stateOf_setTask]
      have hxi : x ≠ i := by
        rintro rfl
        rw [hiW] at hx
        cases Option.some.inj hx
        exact absurd hterm (by decide)
      rw [if_neg hxi]
      exact hx
    · intro x hx
      exact Or.inl (by rw [hQ]; exact List.mem_cons_of_mem _ hx)
    · refine ⟨[i], rfl, fun x hx => ?_⟩
      rw [List.mem_singleton] at hx
      subst hx
      refine ⟨?_, hiV⟩
      by_contra hne
      rcases (h.phase x hiV).deps.1 hne with h1 | h1 <;> rw [hiW] at h1 <;>
        exact absurd h1 (by decide)
  · refine loopMeasure_lt rfl hiV (fun x _ => ?_) ?_
    · by_cases hx : x = i
      · subst hx
        rw [weight_of_task ht, htw]
        simp [weight, Engine.setTask, GreasyTask.setTaskState]
      · simp [weight, Engine.setTask, hx]
    · rw [weight_of_task ht, htw]
      simp [weight, Engine.setTask, GreasyTask.setTaskState]

theorem unbind_perm (A : List (Int × Nat)) (w : Int) (i : Nat) (hmem : (w, i) ∈ A)
    (hk : (A.map Prod.fst).Nodup) :
    A.Perm ((w, i) :: A.filter (fun b => b.1 != w)) := by
  induction A with
  | nil => simp at hmem
  | cons b A ih =>
    rw [List.map_cons, List.nodup_cons] at hk
    by_cases hb : b = (w, i)
    · subst hb
      have hfil : A.filter (fun b => b.1 != w) = A := by
        rw [List.filter_eq_self]
        intro c hc
        simp only [bne_iff_ne, ne_eq]
        intro hcw
        exact hk.1 (List.mem_map.2 ⟨c, hc, hcw⟩)
      simp [List.filter_cons, hfil]
    · have hmem2 : (w, i) ∈ A := by
        rcases List.mem_cons.1 hmem with h | h
        · exact absurd h.symm hb
        · exact h
      have hbw : b.1 ≠ w := by
        intro hbw
        exact hk.1 (List.mem_map.2 ⟨(w, i), hmem2, hbw.symm⟩)
      have : (b :: A).filter (fun b => b.1 != w) = b :: A.filter (fun b => b.1 != w) := by
        simp [List.filter_cons, hbw]
      rw [this]
      exact ((ih hmem2 hk.2).cons b).trans (List.Perm.swap _ _ _)

/-- What the invariant says about a task bound to a worker. -/
theorem Inv.of_bound {s : Engine} (h : Inv s) {w : Int} {i : Nat}
    (hmem : (w, i) ∈ s.taskAssignation) :
    i ∈ s.validTasks ∧ s.stateOf i = some TaskState.running ∧ s.depsOf i = [] ∧
      i ∉ s.taskQueue ∧ i ∉ s.blockedTasks ∧ i ∈ s.popped := by
  have hV := h.bound_valid _ hmem
  have hph := h.phase i hV
  have hrun := hph.running.1 ⟨w, hmem⟩
  refine ⟨hV, hrun, ?_, ?_, ?_, hph.popped.2 (Or.inl hrun)⟩
  · by_contra hne
    rcases hph.deps.1 hne with h1 | h1 <;> rw [hrun] at h1 <;> exact absurd h1 (by decide)
  · intro hq
    have := hph.queued.1 hq
    rw [hrun] at this
    exact absurd this (by decide)
  · intro hq
    have := hph.blocked.1 hq
    rw [hrun] at this
    exact absurd this (by decide)

/-- The worker pool after the binding `(w, i)` was removed and `w` was pushed back. -/
theorem workers_unbind {s : Engine} (h : Inv s) {w : Int} {i : Nat}
    (hmem : (w, i) ∈ s.taskAssignation) :
    ((s.freeWorkers ++ [w]) ++
        (s.taskAssignation.filter (fun b => b.1 != w)).map Prod.fst).Nodup ∧
      s.taskAssignation.length = (s.taskAssignation.filter (fun b => b.1 != w)).length + 1 ∧
      (∀ b, b ∈ s.taskAssignation.filter (fun b => b.1 != w) ↔
        b ∈ s.taskAssignation ∧ b ≠ (w, i)) ∧
      i ∉ (s.taskAssignation.filter (fun b => b.1 != w)).map Prod.snd ∧
      ((s.taskAssignation.filter (fun b => b.1 != w)).map Prod.snd).Nodup := by
  have hk : (s.taskAssignation.map Prod.fst).Nodup := (List.nodup_append.1 h.workers_nodup).2.1
  have hperm := unbind_perm s.taskAssignation w i hmem hk
  have hsnd := (hperm.map Prod.snd).nodup_iff.1 h.bound_nodup
  rw [List.map_cons, List.nodup_cons] at hsnd
  refine ⟨?_, ?_, ?_, hsnd.1, hsnd.2⟩
  · have hp2 : ((s.freeWorkers ++ [w]) ++
        (s.taskAssignation.filter (fun b => b.1 != w)).map Prod.fst).Perm
        (s.freeWorkers ++ s.taskAssignation.map Prod.fst) := by
      rw [List.append_assoc]
      exact List.Perm.append_left _ (by simpa using (hperm.map Prod.fst).symm)
    exact hp2.nodup_iff.2 h.workers_nodup
  · simpa using hperm.length_eq
  · intro b
    constructor
    · intro hb
      refine ⟨List.mem_of_mem_filter hb, ?_⟩
      rintro rfl
      simpa using (List.mem_filter.1 hb).2
    · rintro ⟨hb, hne⟩
      rcases List.mem_cons.1 (hperm.mem_iff.1 hb) with h1 | h1
      · exact absurd h1 hne
      · exact h1

/-- The invariant survives the retry branch of the epilogue: task `i`, which ran on
worker `w`, is bound again, to the head `w0` of the free workers. -/
theorem inv_retry {s s2 : Engine} {i : Nat} {w w0 : Int} (h : Inv s)
    (hmem : (w, i) ∈ s.taskAssignation)
    (hV : s2.validTasks = s.validTasks) (hR : s2.revDepMap = s.revDepMap)
    (hN : s2.nworkers = s.nworkers)
    (hsome : ∀ x, (s2.taskMap x).isSome = (s.taskMap x).isSome)
    (hst : ∀ x, s2.stateOf x = s.stateOf x) (hdeps : ∀ x, s2.depsOf x = s.depsOf x)
    (hQ : s2.taskQueue = s.taskQueue) (hB : s2.blockedTasks = s.blockedTasks)
    (hF : s.freeWorkers ++ [w] = w0 :: s2.freeWorkers)
    (hA : s2.taskAssignation =
      (s.taskAssignation.filter (fun b => b.1 != w)).filter (fun b => b.1 != w0) ++ [(w0, i)])
    (hpop : s2.popped = s.popped) (hpush : s2.pushed = s.pushed)
    (hdisp : s2.dispatched = s.dispatched ++ [i]) : Inv s2 := by
  obtain ⟨hiV, hiR, hiD, hiQ, hiB, hiP⟩ := h.of_bound hmem
  obtain ⟨hwn, hlen, hA1, hi1, hsnd⟩ := workers_unbind h hmem
  rw [hF] at hwn
  have hw0 : w0 ∉ (s.taskAssignation.filter (fun b => b.1 != w)).map Prod.fst := by
    have := (List.nodup_cons.1 hwn).1
    exact fun hc => this (List.mem_append_right _ hc)
  have hfil : (s.taskAssignation.filter (fun b => b.1 != w)).filter (fun b => b.1 != w0) =
      s.taskAssignation.filter (fun b => b.1 != w) := by
    rw [List.filter_eq_self]
    intro b hb
    simp only [bne_iff_ne, ne_eq]
    intro hbw
    exact hw0 (List.mem_map.2 ⟨b, hb, hbw⟩)
  rw [hfil] at hA
  have hch : ∀ p, s2.children p = s.children p := fun p => by simp [Engine.children, hR]
  have hbound : ∀ x, s2.bound x ↔ s.bound x := by
    intro x
    unfold Engine.bound
    rw [hA]
    constructor
    · rintro ⟨w1, hw1⟩
      rcases List.mem_append.1 hw1 with h1 | h1
      · exact ⟨w1, ((hA1 _).1 h1).1⟩
      · simp only [List.mem_singleton, Prod.mk.injEq] at h1
        exact ⟨w, h1.2 ▸ hmem⟩
    · rintro ⟨w1, hw1⟩
      by_cases hx : x = i
      · exact ⟨w0, by simp [hx]⟩
      · exact ⟨w1, List.mem_append_left _ ((hA1 _).2 ⟨hw1, by simp [hx]⟩)⟩
  refine
    { acyclic := by rw [hR]; exact h.acyclic
      present := fun x hx => by rw [hsome]; exact h.present x (hV ▸ hx)
      edge_valid := fun p c hpc => by rw [hV]; exact h.edge_valid p c (hR ▸ hpc)
      child_nodup := fun p => by rw [hch]; exact h.child_nodup p
      deps_iff := fun c hc p => by rw [hdeps, hR, hst]; exact h.deps_iff c (hV ▸ hc) p
      phase := ?_
      queue_nodup := by rw [hQ]; exact h.queue_nodup
      queue_valid := fun x hx => by rw [hV]; exact h.queue_valid x (hQ ▸ hx)
      blocked_valid := fun x hx => by rw [hV]; exact h.blocked_valid x (hB ▸ hx)
      bound_valid := ?_
      bound_nodup := ?_
      cancel_down := fun c hc p hp hpf => by
        rw [hst] at hpf ⊢
        exact h.cancel_down c (hV ▸ hc) p (hdeps c ▸ hp) hpf
      workers_nodup := ?_
      workers_count := ?_
      workers_pos := by rw [hN]; exact h.workers_pos
      fifo := by rw [hpush, hpop, hQ]; exact h.fifo
      dispatched_popped := ?_
      popped_valid := fun c hc => by rw [hV]; exact h.popped_valid c (hpop ▸ hc) }
  · intro x hx
    have hpx := h.phase x (hV ▸ hx)
    refine ⟨?_, ?_, ?_, ?_, ?_, ?_⟩
    · rw [hQ, hst]; exact hpx.queued
    · rw [hB, hst]; exact hpx.blocked
    · rw [hbound, hst]; exact hpx.running
    · rw [hdeps, hst]; exact hpx.deps
    · rw [hpop, hst]; exact hpx.popped
    · rw [hst, hdeps]
      intro hc
      obtain ⟨q, hq1, hq2⟩ := hpx.cause hc
      exact ⟨q, hq1, by rw [hst]; exact hq2⟩
  · intro b hb
    rw [hV]
    rw [hA] at hb
    rcases List.mem_append.1 hb with h1 | h1
    · exact h.bound_valid b ((hA1 _).1 h1).1
    · rw [List.mem_singleton] at h1
      subst h1
      exact hiV
  · rw [hA, List.map_append, List.map_singleton]
    refine List.Nodup.append hsnd (List.nodup_singleton _) ?_
    intro x hx1 hx2
    rw [List.mem_singleton] at hx2
    subst hx2
    exact hi1 hx1
  · rw [hA, List.map_append, List.map_singleton]
    have hperm : (s2.freeWorkers ++
        ((s.taskAssignation.filter (fun b => b.1 != w)).map Prod.fst ++ [w0])).Perm
        (w0 :: s2.freeWorkers ++
          (s.taskAssignation.filter (fun b => b.1 != w)).map Prod.fst) := by
      rw [← List.append_assoc]
      exact (List.perm_append_singleton _ _).trans (by simp)
    exact hperm.nodup_iff.2 hwn
  · have hc := h.workers_count
    have hlenF := congrArg List.length hF
    simp only [List.length_append, List.length_cons, List.length_singleton,
      List.length_nil] at hlenF
    rw [hA, hN]
    simp only [List.length_append, List.length_singleton]
    rw [← hc]
    congr 1
    omega
  · intro c hc
    rw [hdisp, List.mem_append, List.mem_singleton] at hc
    rw [hpop]
    rcases hc with hc | hc
    · exact h.dispatched_popped c hc
    · exact hc ▸ hiP

/-- The invariant survives the `completed` verdict of the epilogue followed by the
release of the children of task `i`, which ran on worker `w`. -/
theorem inv_completed {s s2 : Engine} {i : Nat} {w : Int} (h : Inv s)
    (hmem : (w, i) ∈ s.taskAssignation)
    (hV : s2.validTasks = s.validTasks) (hR : s2.revDepMap = s.revDepMap)
    (hN : s2.nworkers = s.nworkers) (hM : s2.maxRetriesCfg = s.maxRetriesCfg)
    (hsome : ∀ x, (s2.taskMap x).isSome = (s.taskMap x).isSome)
    (hst : ∀ x, s2.stateOf x =
      if x = i then some TaskState.completed
      else if x ∈ s.children i ∧ s.onlyDep i x = true ∧ s.stateOf x = some TaskState.blocked
        then some TaskState.waiting
      else s.stateOf x)
    (hdeps : ∀ x, s2.depsOf x =
      if x ∈ s.children i then (s.depsOf x).filter (fun d => d != i) else s.depsOf x)
    (hQ : s2.taskQueue = s.taskQueue ++ (s.children i).filter fun c => s.onlyDep i c)
    (hB : ∀ x, x ∈ s2.blockedTasks ↔
      x ∈ s.blockedTasks ∧ ¬ (x ∈ s.children i ∧ s.onlyDep i x = true))
    (hF : s2.freeWorkers = s.freeWorkers ++ [w])
    (hA : s2.taskAssignation = s.taskAssignation.filter (fun b => b.1 != w))
    (hpop : s2.popped = s.popped)
    (hpush : s2.pushed = s.pushed ++ (s.children i).filter fun c => s.onlyDep i c)
    (hdisp : s2.dispatched = s.dispatched) (hW : s2.nwaits = s.nwaits) :
    Inv s2 ∧ Trans s s2 := by
  obtain ⟨hiV, hiR, hiD, hiQ, hiB, hiP⟩ := h.of_bound hmem
  obtain ⟨hwn, hlen, hA1, hi1, hsnd⟩ := workers_unbind h hmem
  have hch : ∀ p, s2.children p = s.children p := fun p => by simp [Engine.children, hR]
  have hself : i ∉ s.children i := not_edge_self h.acyclic i
  -- the children of `i` still wait for it
  have hchild : ∀ c ∈ s.children i, c ∈ s.validTasks ∧ i ∈ s.depsOf c ∧ c ≠ i := by
    intro c hc
    have hcV := (h.edge_valid i c hc).2
    refine ⟨hcV, (h.deps_iff c hcV i).2 ⟨hc, ?_⟩, ?_⟩
    · rw [hiR]; decide
    · rintro rfl; exact hself hc
  have hrel : ∀ c, c ∈ s.children i → s.onlyDep i c = true →
      s.stateOf c = some TaskState.blocked := by
    intro c hc hod
    obtain ⟨hcV, hic, -⟩ := hchild c hc
    have hne : s.depsOf c ≠ [] := List.ne_nil_of_mem hic
    rcases (h.phase c hcV).deps.1 hne with h1 | h1
    · exact h1
    · obtain ⟨q, hq1, hq2⟩ := (h.phase c hcV).cause h1
      have hqi : q = i := by
        have := List.all_eq_true.1 hod q hq1
        simpa using this
      rw [hqi, hiR] at hq2
      rcases hq2 with h2 | h2 <;> exact absurd h2 (by decide)
  have hst_rel : ∀ c, c ∈ s.children i → s.onlyDep i c = true →
      s2.stateOf c = some TaskState.waiting := by
    intro c hc hod
    rw [hst, if_neg (hchild c hc).2.2, if_pos ⟨hc, hod, hrel c hc hod⟩]
  have hst_same : ∀ x, x ≠ i → ¬ (x ∈ s.children i ∧ s.onlyDep i x = true) →
      s2.stateOf x = s.stateOf x := by
    intro x hx hnr
    rw [hst, if_neg hx, if_neg fun hc => hnr ⟨hc.1, hc.2.1⟩]
  have hst_other : ∀ x v, x ≠ i → v ≠ TaskState.waiting → v ≠ TaskState.blocked →
      (s2.stateOf x = some v ↔ s.stateOf x = some v) := by
    intro x v hx hv1 hv2
    by_cases hr : x ∈ s.children i ∧ s.onlyDep i x = true
    · rw [hst_rel x hr.1 hr.2, hrel x hr.1 hr.2]
      simp [hv1.symm, hv2.symm]
    · rw [hst_same x hx hr]
  have hcompl : ∀ p, p ≠ i →
      (s2.stateOf p ≠ some TaskState.completed ↔ s.stateOf p ≠ some TaskState.completed) :=
    fun p hp => not_congr (hst_other p _ hp (by decide) (by decide))
  have hbound : ∀ x, x ≠ i → (s2.bound x ↔ s.bound x) := by
    intro x hx
    unfold Engine.bound
    rw [hA]
    constructor
    · rintro ⟨w1, hw1⟩
      exact ⟨w1, ((hA1 _).1 hw1).1⟩
    · rintro ⟨w1, hw1⟩
      exact ⟨w1, (hA1 _).2 ⟨hw1, by simp [hx]⟩⟩
  have hfil_empty : ∀ c, c ∈ s.children i →
      ((s.depsOf c).filter (fun d => d != i) = [] ↔ s.onlyDep i c = true) := by
    intro c _
    unfold Engine.onlyDep
    simp [List.filter_eq_nil_iff]
  refine ⟨
    { acyclic := by rw [hR]; exact h.acyclic
      present := fun x hx => by rw [hsome]; exact h.present x (hV ▸ hx)
      edge_valid := fun p c hpc => by rw [hV]; exact h.edge_valid p c (hR ▸ hpc)
      child_nodup := fun p => by rw [hch]; exact h.child_nodup p
      deps_iff := ?_
      phase := ?_
      queue_nodup := ?_
      queue_valid := ?_
      blocked_valid := fun x hx => by rw [hV]; exact h.blocked_valid x ((hB x).1 hx).1
      bound_valid := fun b hb => by
        rw [hV]; rw [hA] at hb; exact h.bound_valid b ((hA1 _).1 hb).1
      bound_nodup := by rw [hA]; exact hsnd
      cancel_down := ?_
      workers_nodup := by rw [hF, hA]; exact hwn
      workers_count := ?_
      workers_pos := by rw [hN]; exact h.workers_pos
      fifo := by rw [hpush, hpop, hQ, h.fifo, List.append_assoc]
      dispatched_popped := fun c hc => by
        rw [hpop]; exact h.dispatched_popped c (hdisp ▸ hc)
      popped_valid := fun c hc => by rw [hV]; exact h.popped_valid c (hpop ▸ hc) }, ?_⟩
  · -- deps_iff
    intro c hc p
    rw [hV] at hc
    rw [hR, hdeps]
    by_cases hp : p = i
    · subst hp
      by_cases hcc : c ∈ s.children p
      · rw [if_pos hcc, hst, if_pos rfl]
        simp
      · rw [if_neg hcc, hst, if_pos rfl]
        simp only [ne_eq, not_true_eq_false, and_false, iff_false]
        intro hpc
        exact hcc ((h.deps_iff c hc p).1 hpc).1
    · rw [hcompl p hp]
      by_cases hcc : c ∈ s.children i
      · rw [if_pos hcc, List.mem_filter, h.deps_iff c hc p]
        simp [hp]
      · rw [if_neg hcc]; exact h.deps_iff c hc p
  · -- phase
    intro x hx
    rw [hV] at hx
    have hpx := h.phase x hx
    by_cases hxi : x = i
    · subst hxi
      have hsx : s2.stateOf x = some TaskState.completed := by rw [hst, if_pos rfl]
      refine ⟨?_, ?_, ?_, ?_, ?_, ?_⟩
      · rw [hsx, hQ, List.mem_append, List.mem_filter]
        simp only [reduceCtorEq, iff_false, Option.some.injEq]
        rintro (h1 | h1)
        · exact hiQ h1
        · exact hself h1.1
      · rw [hsx, hB]
        simp only [reduceCtorEq, iff_false, Option.some.injEq]
        exact fun h1 => hiB h1.1
      · rw [hsx]
        simp only [reduceCtorEq, iff_false, Option.some.injEq]
        rintro ⟨w1, hw1⟩
        rw [hA] at hw1
        exact hi1 (List.mem_map.2 ⟨(w1, x), hw1, rfl⟩)
      · rw [hsx, hdeps, if_neg hself, hiD]
        simp
      · rw [hsx, hpop]
        simp [hiP]
      · rw [hsx]
        intro hc
        exact absurd hc (by decide)
    · by_cases hr : x ∈ s.children i ∧ s.onlyDep i x = true
      · have hsx := hst_rel x hr.1 hr.2
        have hsb := hrel x hr.1 hr.2
        refine ⟨?_, ?_, ?_, ?_, ?_, ?_⟩
        · rw [hsx, hQ, List.mem_append, List.mem_filter]
          simp [hr.1, hr.2]
        · rw [hsx, hB]
          simp only [reduceCtorEq, iff_false, Option.some.injEq]
          exact fun h1 => h1.2 hr
        · rw [hsx, hbound x hxi, hpx.running, hsb]
          simp
        · rw [hsx, hdeps, if_pos hr.1, (hfil_empty x hr.1).2 hr.2]
          simp
        · rw [hsx, hpop, hpx.popped, hsb]
          simp
        · rw [hsx]
          intro hc
          exact absurd hc (by decide)
      · have hsx := hst_same x hxi hr
        refine ⟨?_, ?_, ?_, ?_, ?_, ?_⟩
        · rw [hsx, hQ, List.mem_append, List.mem_filter, ← hpx.queued]
          constructor
          · rintro (h1 | h1)
            · exact h1
            · exact absurd h1 hr
          · exact Or.inl
        · rw [hsx, hB, ← hpx.blocked]
          exact ⟨fun h1 => h1.1, fun h1 => ⟨h1, hr⟩⟩
        · rw [hsx, hbound x hxi]; exact hpx.running
        · rw [hsx, hdeps, ← hpx.deps]
          by_cases hcc : x ∈ s.children i
          · rw [if_pos hcc]
            have h1 : ¬ s.onlyDep i x = true := fun h1 => hr ⟨hcc, h1⟩
            have h2 : s.depsOf x ≠ [] := List.ne_nil_of_mem (hchild x hcc).2.1
            rw [Ne, hfil_empty x hcc]
            exact ⟨fun _ => h2, fun _ => h1⟩
          · rw [if_neg hcc]
        · rw [hsx, hpop]; exact hpx.popped
        · rw [hsx]
          intro hc
          obtain ⟨q, hq1, hq2⟩ := hpx.cause hc
          have hqi : q ≠ i := by
            rintro rfl
            rw [hiR] at hq2
            rcases hq2 with h2 | h2 <;> exact absurd h2 (by decide)
          refine ⟨q, ?_, ?_⟩
          · rw [hdeps]
            split
            · exact List.mem_filter.2 ⟨hq1, by simpa using hqi⟩
            · exact hq1
          · rw [hst_other q _ hqi (by decide) (by decide),
              hst_other q _ hqi (by decide) (by decide)]
            exact hq2
  · -- queue_nodup
    rw [hQ]
    refine List.Nodup.append h.queue_nodup ((h.child_nodup i).filter _) ?_
    intro x hx1 hx2
    rw [List.mem_filter] at hx2
    have hxV := h.queue_valid x hx1
    have := (h.phase x hxV).queued.1 hx1
    rw [hrel x hx2.1 hx2.2] at this
    exact absurd this (by decide)
  · -- queue_valid
    intro x hx
    rw [hV]
    rw [hQ, List.mem_append, List.mem_filter] at hx
    rcases hx with h1 | h1
    · exact h.queue_valid x h1
    · exact (hchild x h1.1).1
  · -- cancel_down
    intro c hc p hp hpf
    rw [hV] at hc
    have hpi : p ≠ i := by
      rintro rfl
      rw [hst, if_pos rfl] at hpf
      rcases hpf with h2 | h2 <;> exact absurd h2 (by decide)
    rw [hst_other p _ hpi (by decide) (by decide),
      hst_other p _ hpi (by decide) (by decide)] at hpf
    have hp2 : p ∈ s.depsOf c := by
      rw [hdeps] at hp
      split at hp
      · exact (List.mem_filter.1 hp).1
      · exact hp
    have hcc := h.cancel_down c hc p hp2 hpf
    have hci : c ≠ i := by
      rintro rfl
      rw [hiR] at hcc
      exact absurd hcc (by decide)
    rw [hst_other c _ hci (by decide) (by decide)]
    exact hcc
  · -- workers_count
    have hc := h.workers_count
    rw [hF, hA, hN, ← hc]
    simp only [List.length_append, List.length_singleton]
    congr 1
    omega
  · -- Trans
    refine ⟨⟨hV, hR, hN, hM⟩, ?_, fun x hx => ((hB x).1 hx).1, ?_, ?_,
      ⟨[], by simp [hdisp], by simp⟩, ?_, Or.inl hW⟩
    rotate_right
    · intro x hx
      have hxi : x ≠ i := by rintro rfl; exact hx hiV
      exact hst_same x hxi fun hc => hx (hchild x hc.1).1
    · intro x v hx hterm
      have hxi : x ≠ i := by
        rintro rfl
        rw [hiR] at hx
        cases Option.some.inj hx
        exact absurd hterm (by decide)
      rw [hst_other x v hxi (by rintro rfl; exact absurd hterm (by decide))
        (by rintro rfl; exact absurd hterm (by decide))]
      exact hx
    · intro x hx
      rw [hQ, List.mem_append, List.mem_filter] at hx
      rcases hx with h1 | h1
      · exact Or.inl h1
      · exact Or.inr ((h.phase x (hchild x h1.1).1).blocked.2 (hrel x h1.1 h1.2))
    · refine ⟨_, hpush, fun x hx => ?_⟩
      rw [List.mem_filter] at hx
      exact (h.phase x (hchild x hx.1).1).blocked.2 (hrel x hx.1 hx.2)

theorem reach_tail_iff {R : List (Nat × List Nat)} {i d : Nat} :
    Reach R i d ↔ ∃ b, (b = i ∨ Reach R i b) ∧ Edge R b d := by
  unfold Reach
  rw [Relation.TransGen.tail'_iff]
  refine exists_congr fun b => and_congr ?_ Iff.rfl
  rw [Relation.reflTransGen_iff_eq_or_transGen]

/-- The invariant survives the `failed` verdict of the epilogue followed by the
cancellation of the descendants of task `i`, which ran on worker `w`. -/
theorem inv_failed {s s2 : Engine} {i : Nat} {w : Int} (h : Inv s)
    (hmem : (w, i) ∈ s.taskAssignation)
    (hV : s2.validTasks = s.validTasks) (hR : s2.revDepMap = s.revDepMap)
    (hN : s2.nworkers = s.nworkers) (hM : s2.maxRetriesCfg = s.maxRetriesCfg)
    (hsome : ∀ x, (s2.taskMap x).isSome = (s.taskMap x).isSome)
    (hst_in : ∀ x, Reach s.revDepMap i x →
      s2.stateOf x = (s.stateOf x).map fun _ => TaskState.cancelled)
    (hst_i : s2.stateOf i = some TaskState.failed)
    (hst_same : ∀ x, ¬ Reach s.revDepMap i x → x ≠ i → s2.stateOf x = s.stateOf x)
    (hdeps : ∀ x, s2.depsOf x = s.depsOf x)
    (hQ : s2.taskQueue = s.taskQueue)
    (hB : ∀ x, x ∈ s2.blockedTasks ↔ x ∈ s.blockedTasks ∧ ¬ Reach s.revDepMap i x)
    (hF : s2.freeWorkers = s.freeWorkers ++ [w])
    (hA : s2.taskAssignation = s.taskAssignation.filter (fun b => b.1 != w))
    (hpop : s2.popped = s.popped) (hpush : s2.pushed = s.pushed)
    (hdisp : s2.dispatched = s.dispatched) (hW : s2.nwaits = s.nwaits) :
    Inv s2 ∧ Trans s s2 := by
  obtain ⟨hiV, hiR, hiD, hiQ, hiB, hiP⟩ := h.of_bound hmem
  obtain ⟨hwn, hlen, hA1, hi1, hsnd⟩ := workers_unbind h hmem
  have hch : ∀ p, s2.children p = s.children p := fun p => by simp [Engine.children, hR]
  have hself : ¬ Reach s.revDepMap i i := h.acyclic i
  -- a task with a parent that is not completed is blocked or cancelled
  have hedge : ∀ p d, Edge s.revDepMap p d → s.stateOf p ≠ some TaskState.completed →
      d ∈ s.validTasks ∧ p ∈ s.depsOf d ∧
        (s.stateOf d = some TaskState.blocked ∨ s.stateOf d = some TaskState.cancelled) := by
    intro p d hpd hp
    have hdV := (h.edge_valid p d hpd).2
    have hmemd := (h.deps_iff d hdV p).2 ⟨hpd, hp⟩
    exact ⟨hdV, hmemd, (h.phase d hdV).deps.1 (List.ne_nil_of_mem hmemd)⟩
  have hdesc : ∀ d, Reach s.revDepMap i d →
      d ∈ s.validTasks ∧
        (s.stateOf d = some TaskState.blocked ∨ s.stateOf d = some TaskState.cancelled) := by
    intro d hd
    induction hd with
    | single e =>
      have := hedge i _ e (by rw [hiR]; decide)
      exact ⟨this.1, this.2.2⟩
    | @tail b c _ e ih =>
      have hb : s.stateOf b ≠ some TaskState.completed := by
        rcases ih.2 with h1 | h1 <;> rw [h1] <;> decide
      have := hedge _ _ e hb
      exact ⟨this.1, this.2.2⟩
  have hst_desc : ∀ d, Reach s.revDepMap i d → s2.stateOf d = some TaskState.cancelled := by
    intro d hd
    rw [hst_in d hd]
    rcases (hdesc d hd).2 with h1 | h1 <;> rw [h1] <;> rfl
  have hdesc_ne : ∀ d, Reach s.revDepMap i d → d ≠ i := by
    rintro d hd rfl
    exact hself hd
  have hcompl : ∀ p,
      (s2.stateOf p ≠ some TaskState.completed ↔ s.stateOf p ≠ some TaskState.completed) := by
    intro p
    by_cases hp : Reach s.revDepMap i p
    · rw [hst_desc p hp]
      rcases (hdesc p hp).2 with h1 | h1 <;> rw [h1] <;> simp
    · by_cases hpi : p = i
      · subst hpi
        rw [hst_i, hiR]; simp
      · rw [hst_same p hp hpi]
  have hbad : ∀ q, (s.stateOf q = some TaskState.failed ∨ s.stateOf q = some TaskState.cancelled) →
      (s2.stateOf q = some TaskState.failed ∨ s2.stateOf q = some TaskState.cancelled) := by
    intro q hq
    by_cases hqd : Reach s.revDepMap i q
    · exact Or.inr (hst_desc q hqd)
    · by_cases hqi : q = i
      · subst hqi; exact Or.inl hst_i
      · rw [hst_same q hqd hqi]; exact hq
  have hbound : ∀ x, x ≠ i → (s2.bound x ↔ s.bound x) := by
    intro x hx
    unfold Engine.bound
    rw [hA]
    constructor
    · rintro ⟨w1, hw1⟩
      exact ⟨w1, ((hA1 _).1 hw1).1⟩
    · rintro ⟨w1, hw1⟩
      exact ⟨w1, (hA1 _).2 ⟨hw1, by simp [hx]⟩⟩
  refine ⟨
    { acyclic := by rw [hR]; exact h.acyclic
      present := fun x hx => by rw [hsome]; exact h.present x (hV ▸ hx)
      edge_valid := fun p c hpc => by rw [hV]; exact h.edge_valid p c (hR ▸ hpc)
      child_nodup := fun p => by rw [hch]; exact h.child_nodup p
      deps_iff := fun c hc p => by
        rw [hdeps, hR, hcompl]; exact h.deps_iff c (hV ▸ hc) p
      phase := ?_
      queue_nodup := by rw [hQ]; exact h.queue_nodup
      queue_valid := fun x hx => by rw [hV]; exact h.queue_valid x (hQ ▸ hx)
      blocked_valid := fun x hx => by rw [hV]; exact h.blocked_valid x ((hB x).1 hx).1
      bound_valid := fun b hb => by
        rw [hV]; rw [hA] at hb; exact h.bound_valid b ((hA1 _).1 hb).1
      bound_nodup := by rw [hA]; exact hsnd
      cancel_down := ?_
      workers_nodup := by rw [hF, hA]; exact hwn
      workers_count := ?_
      workers_pos := by rw [hN]; exact h.workers_pos
      fifo := by rw [hpush, hpop, hQ]; exact h.fifo
      dispatched_popped := fun c hc => by
        rw [hpop]; exact h.dispatched_popped c (hdisp ▸ hc)
      popped_valid := fun c hc => by rw [hV]; exact h.popped_valid c (hpop ▸ hc) }, ?_⟩
  · -- phase
    intro x hx
    rw [hV] at hx
    have hpx := h.phase x hx
    by_cases hxd : Reach s.revDepMap i x
    · have hsx := hst_desc x hxd
      have hxi := hdesc_ne x hxd
      have hsd := (hdesc x hxd).2
      refine ⟨?_, ?_, ?_, ?_, ?_, ?_⟩
      · rw [hsx, hQ, hpx.queued]
        rcases hsd with h1 | h1 <;> rw [h1] <;> simp
      · rw [hsx, hB]
        simp only [reduceCtorEq, iff_false, Option.some.injEq]
        exact fun h1 => h1.2 hxd
      · rw [hsx, hbound x hxi, hpx.running]
        rcases hsd with h1 | h1 <;> rw [h1] <;> simp
      · rw [hsx, hdeps]
        simp only [reduceCtorEq, or_true, Option.some.injEq, iff_true]
        exact hpx.deps.2 hsd
      · rw [hsx, hpop, hpx.popped]
        rcases hsd with h1 | h1 <;> rw [h1] <;> simp
      · intro _
        obtain ⟨b, hb1, hb2⟩ := reach_tail_iff.1 hxd
        have hbs : s.stateOf b ≠ some TaskState.completed := by
          rcases hb1 with rfl | hb1
          · rw [hiR]; decide
          · rcases (hdesc b hb1).2 with h1 | h1 <;> rw [h1] <;> decide
        refine ⟨b, by rw [hdeps]; exact (hedge b x hb2 hbs).2.1, ?_⟩
        rcases hb1 with rfl | hb1
        · exact Or.inl hst_i
        · exact Or.inr (hst_desc b hb1)
    · by_cases hxi : x = i
      · subst hxi
        refine ⟨?_, ?_, ?_, ?_, ?_, ?_⟩
        · rw [hst_i, hQ]
          simp only [reduceCtorEq, iff_false, Option.some.injEq]
          exact hiQ
        · rw [hst_i, hB]
          simp only [reduceCtorEq, iff_false, Option.some.injEq]
          exact fun h1 => hiB h1.1
        · rw [hst_i]
          simp only [reduceCtorEq, iff_false, Option.some.injEq]
          rintro ⟨w1, hw1⟩
          rw [hA] at hw1
          exact hi1 (List.mem_map.2 ⟨(w1, x), hw1, rfl⟩)
        · rw [hst_i, hdeps, hiD]
          simp
        · rw [hst_i, hpop]
          simp [hiP]
        · rw [hst_i]
          intro hc
          exact absurd hc (by decide)
      · have hsx := hst_same x hxd hxi
        refine ⟨?_, ?_, ?_, ?_, ?_, ?_⟩
        · rw [hsx, hQ]; exact hpx.queued
        · rw [hsx, hB, ← hpx.blocked]
          exact ⟨fun h1 => h1.1, fun h1 => ⟨h1, hxd⟩⟩
        · rw [hsx, hbound x hxi]; exact hpx.running
        · rw [hsx, hdeps]; exact hpx.deps
        · rw [hsx, hpop]; exact hpx.popped
        · rw [hsx, hdeps]
          intro hc
          obtain ⟨q, hq1, hq2⟩ := hpx.cause hc
          exact ⟨q, hq1, hbad q hq2⟩
  · -- cancel_down
    intro c hc p hp hpf
    rw [hV] at hc
    rw [hdeps] at hp
    have hpc := ((h.deps_iff c hc p).1 hp).1
    by_cases hpd : Reach s.revDepMap i p
    · exact hst_desc c (Relation.TransGen.tail hpd hpc)
    · by_cases hpi : p = i
      · subst hpi
        exact hst_desc c (Relation.TransGen.single hpc)
      · rw [hst_same p hpd hpi] at hpf
        have hcc := h.cancel_down c hc p hp hpf
        rcases hbad c (Or.inr hcc) with h1 | h1
        · by_cases hcd : Reach s.revDepMap i c
          · exact hst_desc c hcd
          · by_cases hci : c = i
            · subst hci
              rw [hiR] at hcc
              exact absurd hcc (by decide)
            · rw [hst_same c hcd hci]; exact hcc
        · exact h1
  · -- workers_count
    have hc := h.workers_count
    rw [hF, hA, hN, ← hc]
    simp only [List.length_append, List.length_singleton]
    congr 1
    omega
  · -- Trans
    refine ⟨⟨hV, hR, hN, hM⟩, ?_, fun x hx => ((hB x).1 hx).1,
      fun x hx => Or.inl (hQ ▸ hx), ⟨[], by simp [hpush], by simp⟩,
      ⟨[], by simp [hdisp], by simp⟩, ?_, Or.inl hW⟩
    rotate_right
    · intro x hx
      have hxi : x ≠ i := by rintro rfl; exact hx hiV
      exact hst_same x (fun hc => hx (hdesc x hc).1) hxi
    intro x v hx hterm
    by_cases hxd : Reach s.revDepMap i x
    · rw [hst_desc x hxd]
      rcases (hdesc x hxd).2 with h1 | h1
      · rw [h1] at hx
        cases Option.some.inj hx
        exact absurd hterm (by decide)
      · rw [← h1]; exact hx
    · have hxi : x ≠ i := by
        rintro rfl
        rw [hiR] at hx
        cases Option.some.inj hx
        exact absurd hterm (by decide)
      rw [hst_same x hxd hxi]; exact hx

theorem workerCompleted_eq (n : Nat) (s : Engine) (w : Int) (i : Nat) (rc : Int)
    (t : GreasyTask) (ht : s.taskMap i = some t) :
    workerCompleted n s w i rc =
      taskEpilogue n
        { s.setTask i (t.setReturnCode rc) with
          freeWorkers := s.freeWorkers ++ [w]
          taskAssignation := s.taskAssignation.filter (fun b => b.1 != w) }
        i := by
  simp [workerCompleted, ht]

/-- A completion that leads to a retry: the step succeeds with any fuel, keeps the
invariant and lowers the termination measure. -/
theorem completion_retry {s : Engine} (h : Inv s) {w : Int} {i : Nat}
    (hmem : (w, i) ∈ s.taskAssignation) (rc : Int) (t : GreasyTask)
    (ht : s.taskMap i = some t) (hrc : rc ≠ 0)
    (hretry : (t.retries : Int) < s.maxRetriesCfg.getD 0) :
    ∃ s2, (∀ n, workerCompleted n s w i rc = some s2) ∧ Inv s2 ∧ Trans s s2 ∧
      loopMeasure s2 < loopMeasure s := by
  obtain ⟨hiV, hiR, hiD, hiQ, hiB, hiP⟩ := h.of_bound hmem
  have htr : t.taskState = TaskState.running := by
    rw [stateOf_eq_of_task ht] at hiR
    exact Option.some.inj hiR
  have htd : t.dependencies = [] := by
    rw [depsOf_eq_of_task ht] at hiD
    exact hiD
  obtain ⟨w0, rest, hfree⟩ : ∃ w0 rest, s.freeWorkers ++ [w] = w0 :: rest :=
    List.exists_cons_of_ne_nil (by simp)
  have heq := fun n => taskEpilogue_retry_eq n
    { s.setTask i (t.setReturnCode rc) with
      freeWorkers := s.freeWorkers ++ [w]
      taskAssignation := s.taskAssignation.filter (fun b => b.1 != w) }
    i (t.setReturnCode rc) w0 rest
    (by simp [Engine.setTask]) (by simpa [GreasyTask.setReturnCode] using hrc)
    (by simpa [Engine.setTask, GreasyTask.setReturnCode] using hretry) hfree
  refine ⟨_, fun n => (workerCompleted_eq n s w i rc t ht).trans (heq n), ?_, ?_, ?_⟩
  · refine @inv_retry _ _ i w w0 h hmem rfl rfl rfl ?_ ?_ ?_ rfl rfl hfree rfl
      rfl rfl rfl
    · intro x
      by_cases hx : x = i
      · subst hx; simp [Engine.setTask, ht]
      · simp [Engine.setTask, hx]
    · intro x
      by_cases hx : x = i
      · subst hx; simp [Engine.stateOf, Engine.setTask, ht, htr]
      · simp [Engine.stateOf, Engine.setTask, hx]
    · intro x
      by_cases hx : x = i
      · subst hx; simp [Engine.depsOf, Engine.setTask, ht, GreasyTask.setReturnCode]
      · simp [Engine.depsOf, Engine.setTask, hx]
  · refine ⟨⟨rfl, rfl, rfl, rfl⟩, ?_, fun _ hx => hx, fun _ hx => Or.inl hx,
      ⟨[], by simp [Engine.setTask], by simp⟩, ⟨[i], by simp [Engine.setTask], ?_⟩, ?_,
      Or.inl rfl⟩
    rotate_right
    · intro x hx
      have hxi : x ≠ i := by rintro rfl; exact hx hiV
      simp [Engine.stateOf, Engine.setTask, hxi]
    · intro x v hx hterm
      have hxi : x ≠ i := by
        rintro rfl
        rw [hiR] at hx
        cases Option.some.inj hx
        exact absurd hterm (by decide)
      simpa [Engine.stateOf, Engine.setTask, hxi] using hx
    · intro x hx
      rw [List.mem_singleton] at hx
      subst hx
      exact ⟨hiD, hiV⟩
  · refine loopMeasure_lt rfl hiV (fun x _ => ?_) ?_
    · by_cases hx : x = i
      · subst hx
        rw [weight_of_task ht, htr]
        simp [weight, Engine.setTask, GreasyTask.setReturnCode]
        omega
      · simp [weight, Engine.setTask, hx]
    · rw [weight_of_task ht, htr]
      simp [weight, Engine.setTask, GreasyTask.setReturnCode]
      omega

theorem removeDependency_state (t : GreasyTask) (p : Nat) :
    (t.removeDependency p).taskState =
      if (t.dependencies.all fun d => d == p) = true ∧ t.taskState = TaskState.blocked
      then TaskState.waiting else t.taskState := by
  have hemp : (t.dependencies.filter fun d => d != p).isEmpty =
      t.dependencies.all fun d => d == p := by
    rw [Bool.eq_iff_iff]
    simp [List.isEmpty_iff, List.filter_eq_nil_iff]
  simp only [GreasyTask.removeDependency, hemp]
  by_cases h1 : (t.dependencies.all fun d => d == p) = true <;>
    by_cases h2 : t.taskState = TaskState.blocked <;> simp [h1, h2]

theorem weight_removeDependency (s s2 : Engine) (x p : Nat)
    (hM : s2.maxRetriesCfg = s.maxRetriesCfg)
    (h : s2.taskMap x = (s.taskMap x).map fun t => t.removeDependency p) :
    weight s2 x = weight s x := by
  unfold weight
  rw [h, hM]
  cases s.taskMap x with
  | none => rfl
  | some t =>
    simp only [Option.map_some', removeDependency_state]
    have hr : (t.removeDependency p).retries = t.retries := rfl
    rw [hr]
    by_cases h1 : (t.dependencies.all fun d => d == p) = true ∧ t.taskState = TaskState.blocked
    · rw [if_pos h1, h1.2]
    · rw [if_neg h1]

/-- A completion with return code 0: the step succeeds with any positive fuel, keeps
the invariant and lowers the termination measure. -/
theorem completion_completed {s : Engine} (h : Inv s) {w : Int} {i : Nat}
    (hmem : (w, i) ∈ s.taskAssignation) (t : GreasyTask) (ht : s.taskMap i = some t) :
    ∃ s2, (∀ n, workerCompleted (n + 1) s w i 0 = some s2) ∧ Inv s2 ∧ Trans s s2 ∧
      loopMeasure s2 < loopMeasure s := by
  obtain ⟨hiV, hiR, hiD, hiQ, hiB, hiP⟩ := h.of_bound hmem
  have htr : t.taskState = TaskState.running := by
    rw [stateOf_eq_of_task ht] at hiR
    exact Option.some.inj hiR
  have hself : i ∉ s.children i := not_edge_self h.acyclic i
  have hcV : ∀ c ∈ s.children i, c ∈ s.validTasks := fun c hc => (h.edge_valid i c hc).2
  obtain ⟨s2, h2, hrel⟩ := taskEpilogue_completed
    { s.setTask i (t.setReturnCode 0) with
      freeWorkers := s.freeWorkers ++ [w]
      taskAssignation := s.taskAssignation.filter (fun b => b.1 != w) }
    i (t.setReturnCode 0) (by simp [Engine.setTask]) rfl
    (fun c hc => by
      have hc2 : c ∈ s.children i := hc
      have hci : c ≠ i := by rintro rfl; exact hself hc2
      simpa [Engine.setTask, hci] using h.present c (hcV c hc2))
  have hrel2 : ReleaseOf i (s.children i)
      (Engine.setTask
        { s.setTask i (t.setReturnCode 0) with
          freeWorkers := s.freeWorkers ++ [w]
          taskAssignation := s.taskAssignation.filter (fun b => b.1 != w) }
        i ((t.setReturnCode 0).setTaskState TaskState.completed)) s2 := hrel
  have htask_i : s2.taskMap i =
      some ((t.setReturnCode 0).setTaskState TaskState.completed) := by
    rw [hrel2.task_out i hself]
    simp [Engine.setTask]
  have htask_in : ∀ x, x ∈ s.children i →
      s2.taskMap x = (s.taskMap x).map fun t => t.removeDependency i := by
    intro x hx
    have hxi : x ≠ i := by rintro rfl; exact hself hx
    rw [hrel2.task_in x hx]
    simp [Engine.setTask, hxi]
  have htask_out : ∀ x, x ∉ s.children i → x ≠ i → s2.taskMap x = s.taskMap x := by
    intro x hx hxi
    rw [hrel2.task_out x hx]
    simp [Engine.setTask, hxi]
  have hod : ∀ c, Engine.onlyDep
      (Engine.setTask
        { s.setTask i (t.setReturnCode 0) with
          freeWorkers := s.freeWorkers ++ [w]
          taskAssignation := s.taskAssignation.filter (fun b => b.1 != w) }
        i ((t.setReturnCode 0).setTaskState TaskState.completed)) i c = s.onlyDep i c := by
    intro c
    unfold Engine.onlyDep Engine.depsOf
    by_cases hci : c = i
    · subst hci
      simp [Engine.setTask, ht, GreasyTask.setReturnCode, GreasyTask.setTaskState]
    · simp [Engine.setTask, hci]
  have hfr := hrel2.frame
  refine ⟨s2, fun n => (workerCompleted_eq (n + 1) s w i 0 t ht).trans (h2 n), ?_⟩
  have hinv := @inv_completed s s2 i w h hmem
    (by simpa [Engine.setTask] using congrArg Engine.validTasks hfr)
    (by simpa [Engine.setTask] using congrArg Engine.revDepMap hfr)
    (by simpa [Engine.setTask] using congrArg Engine.nworkers hfr)
    (by simpa [Engine.setTask] using congrArg Engine.maxRetriesCfg hfr)
    (fun x => by
      by_cases hxi : x = i
      · subst hxi; simp [htask_i, ht]
      · by_cases hx : x ∈ s.children i
        · rw [htask_in x hx]; simp
        · rw [htask_out x hx hxi])
    (fun x => by
      by_cases hxi : x = i
      · subst hxi
        simp [Engine.stateOf, htask_i, GreasyTask.setTaskState]
      · rw [if_neg hxi]
        by_cases hx : x ∈ s.children i
        · unfold Engine.stateOf Engine.onlyDep Engine.depsOf
          rw [htask_in x hx]
          cases s.taskMap x with
          | none => simp
          | some tx =>
            simp only [Option.map_some', removeDependency_state, hx, true_and,
              Option.some.injEq]
            by_cases h1 : (tx.dependencies.all fun d => d == i) = true ∧
                tx.taskState = TaskState.blocked
            · rw [if_pos h1, if_pos h1]
            · rw [if_neg h1, if_neg h1]
        · rw [if_neg fun hc => hx hc.1]
          unfold Engine.stateOf
          rw [htask_out x hx hxi])
    (fun x => by
      by_cases hx : x ∈ s.children i
      · rw [if_pos hx]
        unfold Engine.depsOf
        rw [htask_in x hx]
        cases s.taskMap x <;> simp [removeDependency_deps]
      · rw [if_neg hx]
        by_cases hxi : x = i
        · subst hxi
          simp [Engine.depsOf, htask_i, ht, GreasyTask.setTaskState, GreasyTask.setReturnCode]
        · unfold Engine.depsOf
          rw [htask_out x hx hxi])
    (by
      rw [hrel2.queue]
      simp only [hod]
      rfl)
    (fun x => by
      rw [hrel2.blocked, hod]
      rfl)
    (by simpa [Engine.setTask] using congrArg Engine.freeWorkers hfr)
    (by simpa [Engine.setTask] using congrArg Engine.taskAssignation hfr)
    (by simpa [Engine.setTask] using congrArg Engine.popped hfr)
    (by
      rw [hrel2.pushed]
      simp only [hod]
      rfl)
    (by simpa [Engine.setTask] using congrArg Engine.dispatched hfr)
    (by simpa [Engine.setTask] using congrArg Engine.nwaits hfr)
  refine ⟨hinv.1, hinv.2, ?_⟩
  have hM : s2.maxRetriesCfg = s.maxRetriesCfg := hinv.2.config.2.2.2
  refine loopMeasure_lt hinv.2.config.1 hiV (fun x _ => ?_) ?_
  · by_cases hxi : x = i
    · subst hxi
      simp [weight, htask_i, GreasyTask.setTaskState]
    · by_cases hx : x ∈ s.children i
      · exact le_of_eq (weight_removeDependency s s2 x i hM (htask_in x hx))
      · simp [weight, htask_out x hx hxi, hM]
  · rw [weight_of_task ht, htr]
    simp [weight, htask_i, GreasyTask.setTaskState]

/-- A completion with a non-zero return code and no retry left: the step succeeds
with enough fuel, keeps the invariant and lowers the termination measure. -/
theorem completion_failed {s : Engine} (h : Inv s) {w : Int} {i : Nat}
    (hmem : (w, i) ∈ s.taskAssignation) (rc : Int) (t : GreasyTask)
    (ht : s.taskMap i = some t) (hrc : rc ≠ 0)
    (hretry : ¬ (t.retries : Int) < s.maxRetriesCfg.getD 0) :
    ∃ N s2, (∀ n, N ≤ n → workerCompleted n s w i rc = some s2) ∧ Inv s2 ∧ Trans s s2 ∧
      loopMeasure s2 < loopMeasure s := by
  obtain ⟨hiV, hiR, hiD, hiQ, hiB, hiP⟩ := h.of_bound hmem
  have htr : t.taskState = TaskState.running := by
    rw [stateOf_eq_of_task ht] at hiR
    exact Option.some.inj hiR
  have hself : ¬ Reach s.revDepMap i i := h.acyclic i
  have hdV : ∀ x, Reach s.revDepMap i x → x ∈ s.validTasks := by
    intro x hx
    obtain ⟨b, -, hb⟩ := reach_tail_iff.1 hx
    exact (h.edge_valid b x hb).2
  obtain ⟨N, hN⟩ := taskEpilogue_failed
    { s.setTask i (t.setReturnCode rc) with
      freeWorkers := s.freeWorkers ++ [w]
      taskAssignation := s.taskAssignation.filter (fun b => b.1 != w) }
    i (t.setReturnCode rc) (by simp [Engine.setTask])
    (by simpa [GreasyTask.setReturnCode] using hrc)
    (by simpa [Engine.setTask, GreasyTask.setReturnCode] using hretry)
    (by simpa [Engine.setTask] using h.acyclic)
    (fun x hx => by
      have hx2 : Reach s.revDepMap i x := hx
      have hxi : x ≠ i := by rintro rfl; exact hself hx2
      simpa [Engine.setTask, hxi] using h.present x (hdV x hx2))
  obtain ⟨s2, h2, hc⟩ := hN N le_rfl
  have hc2 : CascadeOf (Reach s.revDepMap i)
      (Engine.setTask
        { s.setTask i (t.setReturnCode rc) with
          freeWorkers := s.freeWorkers ++ [w]
          taskAssignation := s.taskAssignation.filter (fun b => b.1 != w) }
        i ((t.setReturnCode rc).setTaskState TaskState.failed)) s2 := hc
  have htask_i : s2.taskMap i =
      some ((t.setReturnCode rc).setTaskState TaskState.failed) := by
    rw [hc2.task_out i hself]
    simp [Engine.setTask]
  have htask_in : ∀ x, Reach s.revDepMap i x →
      s2.taskMap x = (s.taskMap x).map fun t => t.setTaskState TaskState.cancelled := by
    intro x hx
    have hxi : x ≠ i := by rintro rfl; exact hself hx
    rw [hc2.task_in x hx]
    simp [Engine.setTask, hxi]
  have htask_out : ∀ x, ¬ Reach s.revDepMap i x → x ≠ i → s2.taskMap x = s.taskMap x := by
    intro x hx hxi
    rw [hc2.task_out x hx]
    simp [Engine.setTask, hxi]
  have hfr := hc2.frame
  refine ⟨N, s2, fun n hn =>
    (workerCompleted_eq n s w i rc t ht).trans (taskEpilogue_mono hn h2), ?_⟩
  have hinv := @inv_failed s s2 i w h hmem
    (by simpa [Engine.setTask] using congrArg Engine.validTasks hfr)
    (by simpa [Engine.setTask] using congrArg Engine.revDepMap hfr)
    (by simpa [Engine.setTask] using congrArg Engine.nworkers hfr)
    (by simpa [Engine.setTask] using congrArg Engine.maxRetriesCfg hfr)
    (fun x => by
      by_cases hxi : x = i
      · subst hxi; simp [htask_i, ht]
      · by_cases hx : Reach s.revDepMap i x
        · rw [htask_in x hx]; simp
        · rw [htask_out x hx hxi])
    (fun x hx => by
      unfold Engine.stateOf
      rw [htask_in x hx]
      cases s.taskMap x <;> simp [GreasyTask.setTaskState])
    (by simp [Engine.stateOf, htask_i, GreasyTask.setTaskState])
    (fun x hx hxi => by
      unfold Engine.stateOf
      rw [htask_out x hx hxi])
    (fun x => by
      by_cases hxi : x = i
      · subst hxi
        simp [Engine.depsOf, htask_i, ht, GreasyTask.setTaskState, GreasyTask.setReturnCode]
      · by_cases hx : Reach s.revDepMap i x
        · unfold Engine.depsOf
          rw [htask_in x hx]
          cases s.taskMap x <;> simp [GreasyTask.setTaskState]
        · unfold Engine.depsOf
          rw [htask_out x hx hxi])
    (by simpa [Engine.setTask] using congrArg Engine.taskQueue hfr)
    (fun x => by rw [hc2.blocked]; rfl)
    (by simpa [Engine.setTask] using congrArg Engine.freeWorkers hfr)
    (by simpa [Engine.setTask] using congrArg Engine.taskAssignation hfr)
    (by simpa [Engine.setTask] using congrArg Engine.popped hfr)
    (by simpa [Engine.setTask] using congrArg Engine.pushed hfr)
    (by simpa [Engine.setTask] using congrArg Engine.dispatched hfr)
    (by simpa [Engine.setTask] using congrArg Engine.nwaits hfr)
  refine ⟨hinv.1, hinv.2, ?_⟩
  have hM : s2.maxRetriesCfg = s.maxRetriesCfg := hinv.2.config.2.2.2
  refine loopMeasure_lt hinv.2.config.1 hiV (fun x _ => ?_) ?_
  · by_cases hxi : x = i
    · subst hxi
      simp [weight, htask_i, GreasyTask.setTaskState]
    · by_cases hx : Reach s.revDepMap i x
      · unfold weight
        rw [htask_in x hx]
        cases s.taskMap x <;> simp [GreasyTask.setTaskState]
      · simp [weight, htask_out x hx hxi, hM]
  · rw [weight_of_task ht, htr]
    simp [weight, htask_i, GreasyTask.setTaskState]

/-- Every completion the back end can report for a bound task is handled: with
enough fuel the step succeeds, keeps the invariant and lowers the termination
measure. -/
theorem completion_step {s : Engine} (h : Inv s) {w : Int} {i : Nat}
    (hmem : (w, i) ∈ s.taskAssignation) (rc : Int) :
    ∃ N s2, (∀ n, N ≤ n → workerCompleted n s w i rc = some s2) ∧ Inv s2 ∧ Trans s s2 ∧
      loopMeasure s2 < loopMeasure s := by
  obtain ⟨t, ht⟩ := h.task (h.bound_valid _ hmem)
  by_cases hrc : rc = 0
  · subst hrc
    obtain ⟨s2, h2, hrest⟩ := completion_completed h hmem t ht
    refine ⟨1, s2, fun n hn => ?_, hrest⟩
    obtain ⟨m, rfl⟩ : ∃ m, n = m + 1 := ⟨n - 1, by omega⟩
    exact h2 m
  · by_cases hretry : (t.retries : Int) < s.maxRetriesCfg.getD 0
    · obtain ⟨s2, h2, hrest⟩ := completion_retry h hmem rc t ht hrc hretry
      exact ⟨0, s2, fun n _ => h2 n, hrest⟩
    · exact completion_failed h hmem rc t ht hrc hretry

theorem acc_parent_of_acyclic {R : List (Nat × List Nat)} (hR : Acyclic R) (c : Nat) :
    Acc (fun p q => Edge R p q) c := by
  let K := {q : Nat // ∃ e ∈ R, q ∈ e.2}
  have hfin : Finite K := by
    have hsub : {q : Nat | ∃ e ∈ R, q ∈ e.2} ⊆ {q | q ∈ R.flatMap Prod.snd} := by
      intro q hq
      obtain ⟨e, he, hqe⟩ := hq
      exact List.mem_flatMap.2 ⟨e, he, hqe⟩
    exact Set.Finite.subset (List.finite_toSet _) hsub
  let r : K → K → Prop := fun a b => Reach R a.1 b.1
  haveI : IsTrans K r := ⟨fun a b c hab hbc => Relation.TransGen.trans hab hbc⟩
  haveI : IsIrrefl K r := ⟨fun a h => hR a.1 h⟩
  have wf : WellFounded r := Finite.wellFounded_of_trans_of_irrefl r
  have htarget : ∀ p q, Edge R p q → ∃ e ∈ R, q ∈ e.2 := fun p q h =>
    reach_target (Relation.TransGen.single h)
  have key : ∀ k : K, Acc (fun p q => Edge R p q) k.1 := by
    intro k
    induction k using wf.induction with
    | _ k ih =>
      refine Acc.intro _ fun p hp => ?_
      by_cases hpk : ∃ e ∈ R, p ∈ e.2
      · exact ih ⟨p, hpk⟩ (Relation.TransGen.single hp)
      · exact Acc.intro _ fun d hd => absurd (htarget d p hd) hpk
  by_cases hc : ∃ e ∈ R, c ∈ e.2
  · exact key ⟨c, hc⟩
  · exact Acc.intro _ fun d hd => absurd (htarget d c hd) hc

/-- With an empty ready queue, a blocked task waits, directly or through other
blocked tasks, for a running one. -/
theorem blocked_needs_running {s : Engine} (h : Inv s) (hQ : s.taskQueue = []) (b : Nat)
    (hb : b ∈ s.blockedTasks) : s.taskAssignation ≠ [] := by
  have key : ∀ b, b ∈ s.validTasks → s.stateOf b = some TaskState.blocked →
      s.taskAssignation ≠ [] := by
    intro b
    induction acc_parent_of_acyclic h.acyclic b with
    | intro b _ ih =>
      intro hbV hbs
      have hne := (h.phase b hbV).deps.2 (Or.inl hbs)
      obtain ⟨p, hp⟩ := List.exists_mem_of_ne_nil _ hne
      obtain ⟨hpb, hpc⟩ := (h.deps_iff b hbV p).1 hp
      have hpV := (h.edge_valid p b hpb).1
      obtain ⟨t, ht⟩ := h.task hpV
      have hps := stateOf_eq_of_task ht
      have hphase := h.phase p hpV
      cases hts : t.taskState with
      | blocked => exact ih p hpb hpV (by rw [hps, hts])
      | waiting =>
        have := hphase.queued.2 (by rw [hps, hts])
        rw [hQ] at this
        simp at this
      | running =>
        obtain ⟨w, hw⟩ := hphase.running.2 (by rw [hps, hts])
        exact List.ne_nil_of_mem hw
      | completed => exact absurd (by rw [hps, hts]) hpc
      | failed =>
        have := h.cancel_down b hbV p hp (Or.inl (by rw [hps, hts]))
        rw [hbs] at this
        exact absurd this (by decide)
      | cancelled =>
        have := h.cancel_down b hbV p hp (Or.inr (by rw [hps, hts]))
        rw [hbs] at this
        exact absurd this (by decide)
  have hbV := h.blocked_valid b hb
  exact key b hbV ((h.phase b hbV).blocked.1 hb)

theorem inv_nwaits {s : Engine} (h : Inv s) (k : Nat) : Inv { s with nwaits := k } :=
  { acyclic := h.acyclic
    present := h.present
    edge_valid := h.edge_valid
    child_nodup := h.child_nodup
    deps_iff := h.deps_iff
    phase := fun i hi =>
      ⟨(h.phase i hi).queued, (h.phase i hi).blocked, (h.phase i hi).running,
        (h.phase i hi).deps, (h.phase i hi).popped, (h.phase i hi).cause⟩
    queue_nodup := h.queue_nodup
    queue_valid := h.queue_valid
    blocked_valid := h.blocked_valid
    bound_valid := h.bound_valid
    bound_nodup := h.bound_nodup
    cancel_down := h.cancel_down
    workers_nodup := h.workers_nodup
    workers_count := h.workers_count
    workers_pos := h.workers_pos
    fifo := h.fifo
    dispatched_popped := h.dispatched_popped
    popped_valid := h.popped_valid }

theorem trans_of_nwaits {s s2 : Engine} {k : Nat} (h : Trans { s with nwaits := k } s2)
    (hA : s.taskAssignation ≠ []) : Trans s s2 :=
  ⟨h.config, h.terminal_kept, h.blocked_sub, h.queue_sub, h.pushed_ext, h.dispatched_ext,
    h.outside, Or.inr hA⟩

/-- A call of `waitForAnyWorker` while some task is running: with enough fuel it
succeeds, keeps the invariant and lowers the termination measure. -/
theorem wait_step (backend : Nat → Nat × Int) {s : Engine} (h : Inv s)
    (hA : s.taskAssignation ≠ []) :
    ∃ N s2, (∀ n, N ≤ n → waitForAnyWorker backend n s = some s2) ∧ Inv s2 ∧ Trans s s2 ∧
      loopMeasure s2 < loopMeasure s := by
  have hlen : 0 < s.taskAssignation.length := List.length_pos.2 hA
  have hidx : (backend s.nwaits).1 % s.taskAssignation.length < s.taskAssignation.length :=
    Nat.mod_lt _ hlen
  obtain ⟨b, hb⟩ : ∃ b, s.taskAssignation[(backend s.nwaits).1 % s.taskAssignation.length]? =
      some b := ⟨_, List.getElem?_eq_getElem hidx⟩
  obtain ⟨w, i⟩ := b
  have hmem : (w, i) ∈ s.taskAssignation := List.getElem?_mem hb
  obtain ⟨N, s2, h2, hinv, htr, hlt⟩ :=
    completion_step (inv_nwaits h (s.nwaits + 1)) (w := w) (i := i) hmem (backend s.nwaits).2
  refine ⟨N, s2, fun n hn => ?_, hinv, trans_of_nwaits htr hA, hlt⟩
  simp only [waitForAnyWorker, hb]
  exact h2 n hn

/-- Whenever a call of `waitForAnyWorker` returns, the invariant is kept and the
termination measure is lower. -/
theorem wait_sound {backend : Nat → Nat × Int} {n : Nat} {s s2 : Engine} (h : Inv s)
    (hw : waitForAnyWorker backend n s = some s2) :
    Inv s2 ∧ Trans s s2 ∧ loopMeasure s2 < loopMeasure s := by
  have hA : s.taskAssignation ≠ [] := by
    intro hnil
    simp [waitForAnyWorker, hnil] at hw
  obtain ⟨N, s3, h3, hrest⟩ := wait_step backend h hA
  have h1 := waitForAnyWorker_mono (le_max_left n N) hw
  rw [h3 _ (le_max_right n N)] at h1
  cases Option.some.inj h1
  exact hrest

theorem TraceOK.single {s : Engine} (h : Inv s) : TraceOK [s] s :=
  ⟨rfl, fun x hx => by rw [List.mem_singleton] at hx; exact hx ▸ h, List.chain'_singleton s⟩

theorem TraceOK.prepend {s s1 : Engine} {tr : List Engine} (h : Inv s) (ht : Trans s s1)
    (h1 : TraceOK tr s1) : TraceOK (s :: tr) s :=
  ⟨rfl, fun x hx => by
      rcases List.mem_cons.1 hx with rfl | hx
      · exact h
      · exact h1.inv x hx,
    List.chain'_cons'.2 ⟨fun y hy => by
      rw [h1.head] at hy
      cases Option.some.inj hy
      exact ht, h1.chain⟩⟩

theorem TraceOK.ne_nil {s : Engine} {tr : List Engine} (h : TraceOK tr s) : tr ≠ [] := by
  intro hnil
  have := h.head
  rw [hnil] at this
  simp at this

theorem TraceOK.append {s s2 : Engine} {tr1 tr2 : List Engine} (h1 : TraceOK tr1 s)
    (h2 : TraceOK tr2 s2) (hlink : ∀ x, tr1.getLast? = some x → Trans x s2) :
    TraceOK (tr1 ++ tr2) s :=
  ⟨by rw [List.head?_append_of_ne_nil _ h1.ne_nil]; exact h1.head,
    fun x hx => by
      rcases List.mem_append.1 hx with hx | hx
      · exact h1.inv x hx
      · exact h2.inv x hx,
    List.Chain'.append h1.chain h2.chain fun x hx y hy => by
      rw [h2.head] at hy
      cases Option.some.inj hy
      exact hlink x hx⟩

theorem innerLoop_sound (backend : Nat → Nat × Int) (n : Nat) :
    ∀ s s2, Inv s → innerLoop backend n s = some s2 →
      Inv s2 ∧ s2.taskQueue = [] ∧ loopMeasure s2 ≤ loopMeasure s := by
  induction n with
  | zero => intro s s2 _ h; simp [innerLoop] at h
  | succ n ih =>
    intro s s2 hinv h
    rw [innerLoop] at h
    cases hQ : s.taskQueue with
    | nil =>
      simp only [hQ] at h
      cases Option.some.inj h
      exact ⟨hinv, hQ, le_rfl⟩
    | cons i rest =>
      simp only [hQ] at h
      by_cases hF : s.freeWorkers ≠ []
      · rw [if_pos hF] at h
        obtain ⟨s1, h1, hinv1, -, hlt⟩ := loop_alloc hinv hQ hF
        rw [h1, Option.some_bind] at h
        obtain ⟨h2, h3, h4⟩ := ih s1 s2 hinv1 h
        exact ⟨h2, h3, by omega⟩
      · rw [if_neg hF] at h
        cases hw : waitForAnyWorker backend n s with
        | none => simp [hw] at h
        | some s1 =>
          rw [hw, Option.some_bind] at h
          obtain ⟨hinv1, -, hlt⟩ := wait_sound hinv hw
          obtain ⟨h2, h3, h4⟩ := ih s1 s2 hinv1 h
          exact ⟨h2, h3, by omega⟩

theorem innerTrace_ok (backend : Nat → Nat × Int) (n : Nat) :
    ∀ s, Inv s → TraceOK (innerTrace backend n s) s := by
  induction n with
  | zero => intro s h; exact TraceOK.single h
  | succ n ih =>
    intro s hinv
    rw [innerTrace]
    cases hQ : s.taskQueue with
    | nil => exact TraceOK.single hinv
    | cons i rest =>
      simp only []
      by_cases hF : s.freeWorkers ≠ []
      · rw [if_pos hF]
        obtain ⟨s1, h1, hinv1, htr, -⟩ := loop_alloc hinv hQ hF
        rw [h1]
        exact TraceOK.prepend hinv htr (ih s1 hinv1)
      · rw [if_neg hF]
        cases hw : waitForAnyWorker backend n s with
        | none => exact TraceOK.single hinv
        | some s1 =>
          obtain ⟨hinv1, htr, -⟩ := wait_sound hinv hw
          exact TraceOK.prepend hinv htr (ih s1 hinv1)

theorem getLast?_cons_of_getLast? {x y : Engine} {l : List Engine} (h : l.getLast? = some y) :
    (x :: l).getLast? = some y := by
  rw [List.getLast?_cons, h]
  rfl

theorem innerTrace_last (backend : Nat → Nat × Int) (n : Nat) :
    ∀ s s2, innerLoop backend n s = some s2 → (innerTrace backend n s).getLast? = some s2 := by
  induction n with
  | zero => intro s s2 h; simp [innerLoop] at h
  | succ n ih =>
    intro s s2 h
    rw [innerLoop] at h
    rw [innerTrace]
    cases hQ : s.taskQueue with
    | nil =>
      simp only [hQ] at h
      cases Option.some.inj h
      rfl
    | cons i rest =>
      simp only [hQ] at h
      simp only []
      by_cases hF : s.freeWorkers ≠ []
      · rw [if_pos hF] at h ⊢
        cases ha : allocate { s with taskQueue := rest, popped := s.popped ++ [i] } i with
        | none => simp [ha] at h
        | some s1 =>
          rw [ha, Option.some_bind] at h
          exact getLast?_cons_of_getLast? (ih s1 s2 h)
      · rw [if_neg hF] at h ⊢
        cases hw : waitForAnyWorker backend n s with
        | none => simp [hw] at h
        | some s1 =>
          rw [hw, Option.some_bind] at h
          exact getLast?_cons_of_getLast? (ih s1 s2 h)

theorem innerLoop_mono (backend : Nat → Nat × Int) (n : Nat) :
    ∀ s s2, innerLoop backend n s = some s2 → innerLoop backend (n + 1) s = some s2 := by
  induction n with
  | zero => intro s s2 h; simp [innerLoop] at h
  | succ n ih =>
    intro s s2 h
    rw [innerLoop] at h ⊢
    cases hQ : s.taskQueue with
    | nil => simpa [hQ] using h
    | cons i rest =>
      simp only [hQ] at h ⊢
      by_cases hF : s.freeWorkers ≠ []
      · rw [if_pos hF] at h ⊢
        cases ha : allocate { s with taskQueue := rest, popped := s.popped ++ [i] } i with
        | none => simp [ha] at h
        | some s1 =>
          rw [ha, Option.some_bind] at h
          rw [Option.some_bind]
          exact ih s1 s2 h
      · rw [if_neg hF] at h ⊢
        cases hw : waitForAnyWorker backend n s with
        | none => simp [hw] at h
        | some s1 =>
          rw [hw, Option.some_bind] at h
          rw [waitForAnyWorker_mono (Nat.le_succ n) hw, Option.some_bind]
          exact ih s1 s2 h

theorem innerLoop_mono_le (backend : Nat → Nat × Int) {n m : Nat} (hnm : n ≤ m) {s s2 : Engine}
    (h : innerLoop backend n s = some s2) : innerLoop backend m s = some s2 := by
  induction hnm with
  | refl => exact h
  | step _ ih => exact innerLoop_mono backend _ _ _ ih

/-- The inner loop terminates: from a state satisfying the invariant it returns,
given enough fuel. -/
theorem innerLoop_total (backend : Nat → Nat × Int) (m : Nat) :
    ∀ s, Inv s → loopMeasure s ≤ m → ∃ N s2, innerLoop backend N s = some s2 := by
  induction m with
  | zero =>
    intro s hinv hm
    cases hQ : s.taskQueue with
    | nil => exact ⟨1, s, by simp [innerLoop, hQ]⟩
    | cons i rest =>
      exfalso
      by_cases hF : s.freeWorkers ≠ []
      · obtain ⟨s1, -, -, -, hlt⟩ := loop_alloc hinv hQ hF
        omega
      · have hA : s.taskAssignation ≠ [] := by
          intro hnil
          have := hinv.workers_count
          have hpos := hinv.workers_pos
          rw [not_not] at hF
          rw [hF, hnil] at this
          simp at this
          omega
        obtain ⟨N, s1, -, -, -, hlt⟩ := wait_step backend hinv hA
        omega
  | succ m ih =>
    intro s hinv hm
    cases hQ : s.taskQueue with
    | nil => exact ⟨1, s, by simp [innerLoop, hQ]⟩
    | cons i rest =>
      by_cases hF : s.freeWorkers ≠ []
      · obtain ⟨s1, h1, hinv1, -, hlt⟩ := loop_alloc hinv hQ hF
        obtain ⟨N, s2, h2⟩ := ih s1 hinv1 (by omega)
        exact ⟨N + 1, s2, by simp [innerLoop, hQ, hF, h1, h2]⟩
      · have hA : s.taskAssignation ≠ [] := by
          intro hnil
          have := hinv.workers_count
          have hpos := hinv.workers_pos
          rw [not_not] at hF
          rw [hF, hnil] at this
          simp at this
          omega
        obtain ⟨Nw, s1, h1, hinv1, -, hlt⟩ := wait_step backend hinv hA
        obtain ⟨N, s2, h2⟩ := ih s1 hinv1 (by omega)
        refine ⟨max Nw N + 1, s2, ?_⟩
        rw [innerLoop]
        simp only [hQ, hF, if_false]
        rw [h1 _ (le_max_left _ _), Option.some_bind]
        exact innerLoop_mono_le backend (le_max_right _ _) h2

theorem mainLoop_sound (backend : Nat → Nat × Int) (n : Nat) :
    ∀ s s3, Inv s → mainLoop backend n s = some s3 →
      Inv s3 ∧ s3.taskQueue = [] ∧ s3.blockedTasks = ∅ := by
  induction n with
  | zero => intro s s3 _ h; simp [mainLoop] at h
  | succ n ih =>
    intro s s3 hinv h
    rw [mainLoop] at h
    by_cases hg : s.taskQueue ≠ [] ∨ s.blockedTasks ≠ ∅
    · rw [if_pos hg] at h
      cases hi : innerLoop backend n s with
      | none => simp [hi] at h
      | some s1 =>
        rw [hi, Option.some_bind] at h
        obtain ⟨hinv1, -, -⟩ := innerLoop_sound backend n s s1 hinv hi
        by_cases hb : s1.blockedTasks ≠ ∅
        · rw [if_pos hb] at h
          cases hw : waitForAnyWorker backend n s1 with
          | none => simp [hw] at h
          | some s2 =>
            rw [hw, Option.some_bind] at h
            exact ih s2 s3 (wait_sound hinv1 hw).1 h
        · rw [if_neg hb] at h
          exact ih s1 s3 hinv1 h
    · rw [if_neg hg] at h
      cases Option.some.inj h
      rw [not_or, not_not, not_not] at hg
      exact ⟨hinv, hg.1, hg.2⟩

theorem mainTrace_ok (backend : Nat → Nat × Int) (n : Nat) :
    ∀ s, Inv s → TraceOK (mainTrace backend n s) s := by
  induction n with
  | zero => intro s h; exact TraceOK.single h
  | succ n ih =>
    intro s hinv
    rw [mainTrace]
    by_cases hg : s.taskQueue ≠ [] ∨ s.blockedTasks ≠ ∅
    · rw [if_pos hg]
      have hin := innerTrace_ok backend n s hinv
      cases hi : innerLoop backend n s with
      | none => simpa using hin
      | some s1 =>
        simp only []
        obtain ⟨hinv1, -, -⟩ := innerLoop_sound backend n s s1 hinv hi
        have hlast := innerTrace_last backend n s s1 hi
        by_cases hb : s1.blockedTasks ≠ ∅
        · rw [if_pos hb]
          cases hw : waitForAnyWorker backend n s1 with
          | none => simpa using hin
          | some s2 =>
            simp only []
            obtain ⟨hinv2, htr, -⟩ := wait_sound hinv1 hw
            refine hin.append (ih s2 hinv2) fun x hx => ?_
            rw [hlast] at hx
            cases Option.some.inj hx
            exact htr
        · rw [if_neg hb]
          refine hin.append (ih s1 hinv1) fun x hx => ?_
          rw [hlast] at hx
          cases Option.some.inj hx
          exact Trans.refl _
    · rw [if_neg hg]
      exact TraceOK.single hinv

theorem getLast?_append_of_getLast? {y : Engine} {l1 l2 : List Engine}
    (h : l2.getLast? = some y) : (l1 ++ l2).getLast? = some y := by
  rw [List.getLast?_append, h]
  rfl

theorem mainTrace_last (backend : Nat → Nat × Int) (n : Nat) :
    ∀ s s3, mainLoop backend n s = some s3 → (mainTrace backend n s).getLast? = some s3 := by
  induction n with
  | zero => intro s s3 h; simp [mainLoop] at h
  | succ n ih =>
    intro s s3 h
    rw [mainLoop] at h
    rw [mainTrace]
    by_cases hg : s.taskQueue ≠ [] ∨ s.blockedTasks ≠ ∅
    · rw [if_pos hg] at h ⊢
      cases hi : innerLoop backend n s with
      | none => simp [hi] at h
      | some s1 =>
        rw [hi, Option.some_bind] at h
        simp only []
        by_cases hb : s1.blockedTasks ≠ ∅
        · rw [if_pos hb] at h ⊢
          cases hw : waitForAnyWorker backend n s1 with
          | none => simp [hw] at h
          | some s2 =>
            rw [hw, Option.some_bind] at h
            exact getLast?_append_of_getLast? (ih s2 s3 h)
        · rw [if_neg hb] at h ⊢
          exact getLast?_append_of_getLast? (ih s1 s3 h)
    · rw [if_neg hg] at h ⊢
      cases Option.some.inj h
      rfl

theorem mainLoop_mono (backend : Nat → Nat × Int) (n : Nat) :
    ∀ s s3, mainLoop backend n s = some s3 → mainLoop backend (n + 1) s = some s3 := by
  induction n with
  | zero => intro s s3 h; simp [mainLoop] at h
  | succ n ih =>
    intro s s3 h
    rw [mainLoop] at h ⊢
    by_cases hg : s.taskQueue ≠ [] ∨ s.blockedTasks ≠ ∅
    · rw [if_pos hg] at h ⊢
      cases hi : innerLoop backend n s with
      | none => simp [hi] at h
      | some s1 =>
        rw [hi, Option.some_bind] at h
        rw [innerLoop_mono backend n s s1 hi, Option.some_bind]
        by_cases hb : s1.blockedTasks ≠ ∅
        · rw [if_pos hb] at h ⊢
          cases hw : waitForAnyWorker backend n s1 with
          | none => simp [hw] at h
          | some s2 =>
            rw [hw, Option.some_bind] at h
            rw [waitForAnyWorker_mono (Nat.le_succ n) hw, Option.some_bind]
            exact ih s2 s3 h
        · rw [if_neg hb] at h ⊢
          exact ih s1 s3 h
    · rw [if_neg hg] at h ⊢
      exact h

theorem mainLoop_mono_le (backend : Nat → Nat × Int) {n m : Nat} (hnm : n ≤ m) {s s2 : Engine}
    (h : mainLoop backend n s = some s2) : mainLoop backend m s = some s2 := by
  induction hnm with
  | refl => exact h
  | step _ ih => exact mainLoop_mono backend _ _ _ ih

/-- The main scheduling loop terminates: from a state satisfying the invariant it
returns, given enough fuel. -/
theorem mainLoop_total (backend : Nat → Nat × Int) (m : Nat) :
    ∀ s, Inv s → loopMeasure s ≤ m → ∃ N s3, mainLoop backend N s = some s3 := by
  induction m using Nat.strong_induction_on with
  | _ m ih =>
    intro s hinv hm
    by_cases hg : s.taskQueue ≠ [] ∨ s.blockedTasks ≠ ∅
    · obtain ⟨N1, s1, hi⟩ := innerLoop_total backend _ s hinv le_rfl
      obtain ⟨hinv1, hQ1, hle⟩ := innerLoop_sound backend N1 s s1 hinv hi
      by_cases hb : s1.blockedTasks ≠ ∅
      · obtain ⟨b, hbm⟩ := Finset.nonempty_iff_ne_empty.2 hb
        have hA := blocked_needs_running hinv1 hQ1 b hbm
        obtain ⟨Nw, s2, hw, hinv2, -, hlt⟩ := wait_step backend hinv1 hA
        obtain ⟨N2, s3, h3⟩ := ih (loopMeasure s2) (by omega) s2 hinv2 le_rfl
        refine ⟨max N1 (max Nw N2) + 1, s3, ?_⟩
        rw [mainLoop, if_pos hg,
          innerLoop_mono_le backend (le_max_left _ _) hi, Option.some_bind, if_pos hb,
          hw _ (le_trans (le_max_left _ _) (le_max_right _ _)), Option.some_bind]
        exact mainLoop_mono_le backend (le_trans (le_max_right _ _) (le_max_right _ _)) h3
      · refine ⟨max N1 1 + 1, s1, ?_⟩
        rw [mainLoop, if_pos hg,
          innerLoop_mono_le backend (le_max_left _ _) hi, Option.some_bind, if_neg hb]
        have h1 : mainLoop backend 1 s1 = some s1 := by
          rw [not_not] at hb
          simp [mainLoop, hQ1, hb]
        exact mainLoop_mono_le backend (le_max_right _ _) h1
    · exact ⟨1, s, by simp only [mainLoop, if_neg hg]⟩

theorem drainLoop_sound (backend : Nat → Nat × Int) (n : Nat) :
    ∀ s s2, Inv s → s.taskQueue = [] → s.blockedTasks = ∅ →
      drainLoop backend n s = some s2 →
      Inv s2 ∧ s2.taskQueue = [] ∧ s2.blockedTasks = ∅ ∧
        (s2.freeWorkers.length : Int) = s2.nworkers := by
  induction n with
  | zero => intro s s2 _ _ _ h; simp [drainLoop] at h
  | succ n ih =>
    intro s s2 hinv hQ hB h
    rw [drainLoop] at h
    by_cases hg : (s.freeWorkers.length : Int) ≠ s.nworkers
    · rw [if_pos hg] at h
      cases hw : waitForAnyWorker backend n s with
      | none => simp [hw] at h
      | some s1 =>
        rw [hw, Option.some_bind] at h
        obtain ⟨hinv1, htr, -⟩ := wait_sound hinv hw
        have hB1 : s1.blockedTasks = ∅ := by
          rw [Finset.eq_empty_iff_forall_not_mem]
          intro x hx
          have := htr.blocked_sub x hx
          rw [hB] at this
          simp at this
        have hQ1 : s1.taskQueue = [] := by
          rw [List.eq_nil_iff_forall_not_mem]
          intro x hx
          rcases htr.queue_sub x hx with h1 | h1
          · rw [hQ] at h1; simp at h1
          · rw [hB] at h1; simp at h1
        exact ih s1 s2 hinv1 hQ1 hB1 h
    · rw [if_neg hg] at h
      cases Option.some.inj h
      rw [not_not] at hg
      exact ⟨hinv, hQ, hB, hg⟩

theorem drainTrace_ok (backend : Nat → Nat × Int) (n : Nat) :
    ∀ s, Inv s → TraceOK (drainTrace backend n s) s := by
  induction n with
  | zero => intro s h; exact TraceOK.single h
  | succ n ih =>
    intro s hinv
    rw [drainTrace]
    by_cases hg : (s.freeWorkers.length : Int) ≠ s.nworkers
    · rw [if_pos hg]
      cases hw : waitForAnyWorker backend n s with
      | none => exact TraceOK.single hinv
      | some s1 =>
        obtain ⟨hinv1, htr, -⟩ := wait_sound hinv hw
        exact TraceOK.prepend hinv htr (ih s1 hinv1)
    · rw [if_neg hg]
      exact TraceOK.single hinv

theorem drainTrace_last (backend : Nat → Nat × Int) (n : Nat) :
    ∀ s s2, drainLoop backend n s = some s2 → (drainTrace backend n s).getLast? = some s2 := by
  induction n with
  | zero => intro s s2 h; simp [drainLoop] at h
  | succ n ih =>
    intro s s2 h
    rw [drainLoop] at h
    rw [drainTrace]
    by_cases hg : (s.freeWorkers.length : Int) ≠ s.nworkers
    · rw [if_pos hg] at h ⊢
      cases hw : waitForAnyWorker backend n s with
      | none => simp [hw] at h
      | some s1 =>
        rw [hw, Option.some_bind] at h
        exact getLast?_cons_of_getLast? (ih s1 s2 h)
    · rw [if_neg hg] at h ⊢
      cases Option.some.inj h
      rfl

theorem drainLoop_mono (backend : Nat → Nat × Int) (n : Nat) :
    ∀ s s2, drainLoop backend n s = some s2 → drainLoop backend (n + 1) s = some s2 := by
  induction n with
  | zero => intro s s2 h; simp [drainLoop] at h
  | succ n ih =>
    intro s s2 h
    rw [drainLoop] at h ⊢
    by_cases hg : (s.freeWorkers.length : Int) ≠ s.nworkers
    · rw [if_pos hg] at h ⊢
      cases hw : waitForAnyWorker backend n s with
      | none => simp [hw] at h
      | some s1 =>
        rw [hw, Option.some_bind] at h
        rw [waitForAnyWorker_mono (Nat.le_succ n) hw, Option.some_bind]
        exact ih s1 s2 h
    · rw [if_neg hg] at h ⊢
      exact h

theorem drainLoop_mono_le (backend : Nat → Nat × Int) {n m : Nat} (hnm : n ≤ m)
    {s s2 : Engine} (h : drainLoop backend n s = some s2) :
    drainLoop backend m s = some s2 := by
  induction hnm with
  | refl => exact h
  | step _ ih => exact drainLoop_mono backend _ _ _ ih

/-- The final loop terminates: from a state satisfying the invariant it returns,
given enough fuel. -/
theorem drainLoop_total (backend : Nat → Nat × Int) (m : Nat) :
    ∀ s, Inv s → loopMeasure s ≤ m → ∃ N s2, drainLoop backend N s = some s2 := by
  induction m using Nat.strong_induction_on with
  | _ m ih =>
    intro s hinv hm
    by_cases hg : (s.freeWorkers.length : Int) ≠ s.nworkers
    · have hA : s.taskAssignation ≠ [] := by
        intro hnil
        have := hinv.workers_count
        rw [hnil] at this
        simp at this
        exact hg this
      obtain ⟨Nw, s1, hw, hinv1, -, hlt⟩ := wait_step backend hinv hA
      obtain ⟨N2, s2, h2⟩ := ih (loopMeasure s1) (by omega) s1 hinv1 le_rfl
      refine ⟨max Nw N2 + 1, s2, ?_⟩
      rw [drainLoop, if_pos hg, hw _ (le_max_left _ _), Option.some_bind]
      exact drainLoop_mono_le backend (le_max_right _ _) h2
    · exact ⟨1, s, by simp only [drainLoop, if_neg hg]⟩

theorem LoadOK.state {st : Engine} (h : LoadOK st) {i : Nat} (hi : i ∈ st.validTasks) :
    (st.stateOf i = some TaskState.waiting ∧ st.depsOf i = []) ∨
      (st.stateOf i = some TaskState.blocked ∧ st.depsOf i ≠ []) := by
  by_cases hd : st.depsOf i = []
  · exact Or.inl ⟨h.state_waiting i hi hd, hd⟩
  · exact Or.inr ⟨h.state_blocked i hi hd, hd⟩

theorem LoadOK.edge {st : Engine} (h : LoadOK st) {p c : Nat} (hpc : Edge st.revDepMap p c) :
    p ∈ st.validTasks ∧ c ∈ st.validTasks ∧ p ∈ st.depsOf c := by
  obtain ⟨cs, hcs, hc⟩ := edge_iff.1 hpc
  obtain ⟨h1, -, h3⟩ := h.index_sound (p, cs) (lookup_mem hcs)
  exact ⟨h1, (h3 c hc).1, (h3 c hc).2⟩

/-- The classification pass of `runScheduler` turns a load into a state that
satisfies the invariant of the scheduler loop. -/
theorem classify_inv {st : Engine} (h : LoadOK st) (hacyc : Acyclic st.revDepMap) :
    ∃ st1, st.validTasks.foldlM classifyStep st = some st1 ∧ Inv st1 ∧
      st1.taskMap = st.taskMap ∧ st1.validTasks = st.validTasks ∧
      st1.revDepMap = st.revDepMap ∧ st1.nworkers = st.nworkers ∧
      st1.pushed = st.validTasks.filter (fun i => st.stateOf i == some TaskState.waiting) ∧
      (∀ x, x ∈ st1.blockedTasks ↔
        x ∈ st.validTasks ∧ st.stateOf x = some TaskState.blocked) ∧
      st1.dispatched = [] := by
  obtain ⟨st1, h1, hq, hb, hp, hf⟩ := classify_fold st.validTasks st h.present
  rw [h.queue_empty, List.nil_append] at hq
  rw [h.fresh.2.1, List.nil_append] at hp
  have hb2 : ∀ x, x ∈ st1.blockedTasks ↔
      x ∈ st.validTasks ∧ st.stateOf x = some TaskState.blocked := by
    intro x
    rw [hb, h.blocked_empty]
    simp
  have hT : st1.taskMap = st.taskMap := by simpa using congrArg Engine.taskMap hf
  have hV : st1.validTasks = st.validTasks := by simpa using congrArg Engine.validTasks hf
  have hR : st1.revDepMap = st.revDepMap := by simpa using congrArg Engine.revDepMap hf
  have hN : st1.nworkers = st.nworkers := by simpa using congrArg Engine.nworkers hf
  have hF : st1.freeWorkers = st.freeWorkers := by simpa using congrArg Engine.freeWorkers hf
  have hA : st1.taskAssignation = [] := by
    rw [← h.unbound]; simpa using congrArg Engine.taskAssignation hf
  have hpop : st1.popped = [] := by
    rw [← h.fresh.2.2]; simpa using congrArg Engine.popped hf
  have hdisp : st1.dispatched = [] := by
    rw [← h.fresh.1]; simpa using congrArg Engine.dispatched hf
  have hst : ∀ x, st1.stateOf x = st.stateOf x := fun x => by simp [Engine.stateOf, hT]
  have hdeps : ∀ x, st1.depsOf x = st.depsOf x := fun x => by simp [Engine.depsOf, hT]
  have hQm : ∀ x, x ∈ st1.taskQueue ↔
      x ∈ st.validTasks ∧ st.stateOf x = some TaskState.waiting := by
    intro x
    rw [hq, List.mem_filter]
    simp
  refine ⟨st1, h1, ?_, hT, hV, hR, hN, hp, hb2, hdisp⟩
  refine
    { acyclic := by rw [hR]; exact hacyc
      present := fun x hx => by rw [hT]; exact h.present x (hV ▸ hx)
      edge_valid := fun p c hpc => by
        rw [hV]
        have := h.edge (hR ▸ hpc)
        exact ⟨this.1, this.2.1⟩
      child_nodup := ?_
      deps_iff := ?_
      phase := ?_
      queue_nodup := by rw [hq]; exact h.valid_nodup.filter _
      queue_valid := fun x hx => by rw [hV]; exact ((hQm x).1 hx).1
      blocked_valid := fun x hx => by rw [hV]; exact ((hb2 x).1 hx).1
      bound_valid := fun b hb => by rw [hA] at hb; simp at hb
      bound_nodup := by rw [hA]; simp
      cancel_down := ?_
      workers_nodup := by rw [hF, hA]; simpa using h.workers_nodup
      workers_count := by rw [hF, hA, hN, ← h.workers_count]; simp
      workers_pos := by rw [hN]; exact h.workers_pos
      fifo := by rw [hp, hpop, hq]; rfl
      dispatched_popped := fun c hc => by rw [hdisp] at hc; simp at hc
      popped_valid := fun c hc => by rw [hpop] at hc; simp at hc }
  · intro p
    unfold Engine.children
    rw [hR]
    cases hl : st.revDepMap.lookup p with
    | none => simp
    | some cs => exact (h.index_sound (p, cs) (lookup_mem hl)).2.1
  · intro c hc p
    rw [hV] at hc
    rw [hdeps, hR, hst]
    constructor
    · intro hp
      refine ⟨h.index_complete c hc p hp, ?_⟩
      rcases h.state (h.deps_valid c hc p hp) with h1 | h1 <;> rw [h1.1] <;> decide
    · intro hpc
      exact (h.edge hpc.1).2.2
  · intro x hx
    rw [hV] at hx
    have hnb : ¬ st1.bound x := by
      rintro ⟨w, hw⟩
      rw [hA] at hw
      simp at hw
    refine ⟨?_, ?_, ?_, ?_, ?_, ?_⟩
    · rw [hQm, hst]; exact ⟨fun h1 => h1.2, fun h1 => ⟨hx, h1⟩⟩
    · rw [hb2, hst]; exact ⟨fun h1 => h1.2, fun h1 => ⟨hx, h1⟩⟩
    · rw [hst]
      rcases h.state hx with h1 | h1 <;> rw [h1.1] <;> simp [hnb]
    · rw [hst, hdeps]
      rcases h.state hx with h1 | h1 <;> rw [h1.1] <;> simp [h1.2]
    · rw [hst, hpop]
      rcases h.state hx with h1 | h1 <;> rw [h1.1] <;> simp
    · rw [hst]
      rcases h.state hx with h1 | h1 <;> rw [h1.1] <;> simp
  · intro c hc p hp hpf
    rw [hV] at hc
    rw [hdeps] at hp
    rw [hst] at hpf
    rcases h.state (h.deps_valid c hc p hp) with h1 | h1 <;> rw [h1.1] at hpf <;>
      rcases hpf with h2 | h2 <;> exact absurd h2 (by decide)

theorem runTrace_eq {backend : Nat → Nat × Int} {n : Nat} {st st1 : Engine}
    (hnw : st.nworkers ≠ 0) (h1 : st.validTasks.foldlM classifyStep st = some st1) :
    runTrace backend n st =
      mainTrace backend n st1 ++
        match mainLoop backend n st1 with
        | none => []
        | some st2 => drainTrace backend n st2 := by
  simp [runTrace, hnw, h1]

theorem runScheduler_eq {backend : Nat → Nat × Int} {n : Nat} {st st1 : Engine}
    (hnw : st.nworkers ≠ 0) (h1 : st.validTasks.foldlM classifyStep st = some st1) :
    runScheduler backend n st =
      (mainLoop backend n st1).bind (drainLoop backend n) := by
  simp [runScheduler, hnw, h1]

/-- The trace of a run from a consistent acyclic load: it starts with the state the
classification pass leaves, every state satisfies the invariant, and consecutive
states are related by a step of the loop. -/
theorem runTrace_ok (backend : Nat → Nat × Int) (n : Nat) {st : Engine} (h : LoadOK st)
    (hacyc : Acyclic st.revDepMap) :
    ∃ st1, st.validTasks.foldlM classifyStep st = some st1 ∧ Inv st1 ∧
      TraceOK (runTrace backend n st) st1 := by
  obtain ⟨st1, h1, hinv, -⟩ := classify_inv h hacyc
  have hnw : st.nworkers ≠ 0 := by have := h.workers_pos; omega
  refine ⟨st1, h1, hinv, ?_⟩
  rw [runTrace_eq hnw h1]
  have hm := mainTrace_ok backend n st1 hinv
  cases hml : mainLoop backend n st1 with
  | none => simpa using hm
  | some st2 =>
    simp only []
    obtain ⟨hinv2, -, -⟩ := mainLoop_sound backend n st1 st2 hinv hml
    refine hm.append (drainTrace_ok backend n st2 hinv2) fun x hx => ?_
    rw [mainTrace_last backend n st1 st2 hml] at hx
    cases Option.some.inj hx
    exact Trans.refl _

theorem runTrace_last (backend : Nat → Nat × Int) (n : Nat) {st st1 st3 : Engine}
    (hnw : st.nworkers ≠ 0) (h1 : st.validTasks.foldlM classifyStep st = some st1)
    (hrun : runScheduler backend n st = some st3) :
    (runTrace backend n st).getLast? = some st3 := by
  rw [runScheduler_eq hnw h1] at hrun
  rw [runTrace_eq hnw h1]
  cases hml : mainLoop backend n st1 with
  | none => simp [hml] at hrun
  | some st2 =>
    rw [hml, Option.some_bind] at hrun
    exact getLast?_append_of_getLast? (drainTrace_last backend n st2 st3 hrun)

/-- A run from a consistent acyclic load returns, for every sufficient fuel, one and
the same final state. -/
theorem runScheduler_total (backend : Nat → Nat × Int) {st : Engine} (h : LoadOK st)
    (hacyc : Acyclic st.revDepMap) :
    ∃ N st3, ∀ n, N ≤ n → runScheduler backend n st = some st3 := by
  obtain ⟨st1, h1, hinv, -⟩ := classify_inv h hacyc
  have hnw : st.nworkers ≠ 0 := by have := h.workers_pos; omega
  obtain ⟨N1, st2, hm⟩ := mainLoop_total backend _ st1 hinv le_rfl
  obtain ⟨hinv2, -, -⟩ := mainLoop_sound backend N1 st1 st2 hinv hm
  obtain ⟨N2, st3, hd⟩ := drainLoop_total backend _ st2 hinv2 le_rfl
  refine ⟨max N1 N2, st3, fun n hn => ?_⟩
  rw [runScheduler_eq hnw h1, mainLoop_mono_le backend (le_trans (le_max_left _ _) hn) hm,
    Option.some_bind]
  exact drainLoop_mono_le backend (le_trans (le_max_right _ _) hn) hd

/-- The state a run from a consistent acyclic load returns. -/
theorem runScheduler_sound (backend : Nat → Nat × Int) (n : Nat) {st st3 : Engine}
    (h : LoadOK st) (hacyc : Acyclic st.revDepMap)
    (hrun : runScheduler backend n st = some st3) :
    Inv st3 ∧ st3.taskQueue = [] ∧ st3.blockedTasks = ∅ ∧
      (st3.freeWorkers.length : Int) = st3.nworkers := by
  obtain ⟨st1, h1, hinv, -⟩ := classify_inv h hacyc
  have hnw : st.nworkers ≠ 0 := by have := h.workers_pos; omega
  rw [runScheduler_eq hnw h1] at hrun
  cases hml : mainLoop backend n st1 with
  | none => simp [hml] at hrun
  | some st2 =>
    rw [hml, Option.some_bind] at hrun
    obtain ⟨hinv2, hQ, hB⟩ := mainLoop_sound backend n st1 st2 hinv hml
    exact drainLoop_sound backend n st2 st3 hinv2 hQ hB hrun

theorem TraceOK.forall_of_step {P : Engine → Prop} {tr : List Engine} {s1 : Engine}
    (h : TraceOK tr s1) (h1 : P s1) (hstep : ∀ x y, Inv x → Trans x y → P x → P y) :
    ∀ x ∈ tr, P x := by
  obtain ⟨hhead, hinv, hchain⟩ := h
  induction tr generalizing s1 with
  | nil => intro x hx; simp at hx
  | cons a tr ih =>
    simp only [List.head?_cons, Option.some.injEq] at hhead
    subst hhead
    intro x hx
    rcases List.mem_cons.1 hx with rfl | hx
    · exact h1
    · cases tr with
      | nil => simp at hx
      | cons b tr =>
        rw [List.chain'_cons] at hchain
        exact ih (hstep a b (hinv a (List.mem_cons_self _ _)) hchain.1 h1) rfl
          (fun y hy => hinv y (List.mem_cons_of_mem _ hy)) hchain.2 x hx

theorem mem_of_getLast? {l : List Engine} {x : Engine} (h : l.getLast? = some x) : x ∈ l := by
  obtain ⟨ys, rfl⟩ := List.getLast?_eq_some_iff.1 h
  simp

/-- The configuration (valid tasks, index, worker count, retry budget) is the same
in every state of a run. -/
theorem runTrace_config (backend : Nat → Nat × Int) (n : Nat) {st : Engine} (h : LoadOK st)
    (hacyc : Acyclic st.revDepMap) :
    ∀ s ∈ runTrace backend n st,
      s.validTasks = st.validTasks ∧ s.revDepMap = st.revDepMap ∧
        s.nworkers = st.nworkers := by
  obtain ⟨st1, h1, -, htr⟩ := runTrace_ok backend n h hacyc
  obtain ⟨st1b, h1b, -, -, hV, hR, hN, -⟩ := classify_inv h hacyc
  rw [h1] at h1b
  cases Option.some.inj h1b
  refine htr.forall_of_step ⟨hV, hR, hN⟩ ?_
  rintro x y - hxy ⟨h2, h3, h4⟩
  exact ⟨hxy.config.1.trans h2, hxy.config.2.1.trans h3, hxy.config.2.2.1.trans h4⟩

/-- C9 (final states): from a consistent acyclic load with `nworkers ≥ 1` distinct
free workers, for every back end (every choice of the completing task and of its
return code at every wait), `runScheduler` returns, for every sufficient fuel, a
state in which every valid task is `completed`, `failed` or `cancelled`, the ready
queue and the blocked set are empty, no worker is bound, and `freeWorkers` holds
`nworkers` distinct workers. -/
theorem runScheduler_final_states (backend : Nat → Nat × Int) (st : Engine) (h : LoadOK st)
    (hacyc : Acyclic st.revDepMap) :
    ∃ N st3, (∀ n, N ≤ n → runScheduler backend n st = some st3) ∧
      (∀ i ∈ st.validTasks,
        st3.stateOf i = some TaskState.completed ∨ st3.stateOf i = some TaskState.failed ∨
          st3.stateOf i = some TaskState.cancelled) ∧
      st3.taskQueue = [] ∧ st3.blockedTasks = ∅ ∧ st3.taskAssignation = [] ∧
      (st3.freeWorkers.length : Int) = st.nworkers ∧ st3.freeWorkers.Nodup := by
  obtain ⟨N, st3, hN⟩ := runScheduler_total backend h hacyc
  have hrun := hN N le_rfl
  obtain ⟨hinv, hQ, hB, hF⟩ := runScheduler_sound backend N h hacyc hrun
  obtain ⟨st1, h1, -, -⟩ := classify_inv h hacyc
  have hnw : st.nworkers ≠ 0 := by have := h.workers_pos; omega
  have hmem := mem_of_getLast? (runTrace_last backend N hnw h1 hrun)
  obtain ⟨hV, -, hNw⟩ := runTrace_config backend N h hacyc st3 hmem
  have hA : st3.taskAssignation = [] := by
    have := hinv.workers_count
    rw [← hF] at this
    have h0 : st3.taskAssignation.length = 0 := by
      have h2 : ((st3.freeWorkers.length + st3.taskAssignation.length : Nat) : Int) =
          (st3.freeWorkers.length : Int) := this
      omega
    exact List.length_eq_zero.1 h0
  refine ⟨N, st3, hN, ?_, hQ, hB, hA, by rw [hF, hNw], ?_⟩
  · intro i hi
    rw [← hV] at hi
    obtain ⟨t, ht⟩ := hinv.task hi
    have hs := stateOf_eq_of_task ht
    have hph := hinv.phase i hi
    cases hts : t.taskState with
    | blocked =>
      have := hph.blocked.2 (by rw [hs, hts])
      rw [hB] at this
      simp at this
    | waiting =>
      have := hph.queued.2 (by rw [hs, hts])
      rw [hQ] at this
      simp at this
    | running =>
      obtain ⟨w, hw⟩ := hph.running.2 (by rw [hs, hts])
      rw [hA] at hw
      simp at hw
    | completed => exact Or.inl (by rw [hs, hts])
    | failed => exact Or.inr (Or.inl (by rw [hs, hts]))
    | cancelled => exact Or.inr (Or.inr (by rw [hs, hts]))
  · have := hinv.workers_nodup
    rw [hA] at this
    simpa using this

theorem exLoadChain_loadOK : LoadOK exLoadChain :=
  { valid_nodup := by decide
    present := by decide
    state_waiting := by decide
    state_blocked := by decide
    deps_valid := by decide
    index_sound := by decide
    index_complete := by decide
    queue_empty := rfl
    blocked_empty := rfl
    unbound := rfl
    workers_nodup := by decide
    workers_count := by decide
    workers_pos := by decide
    fresh := ⟨rfl, rfl, rfl⟩ }

theorem exLoadChain_acyclic : Acyclic exLoadChain.revDepMap :=
  acyclic_of_rank (fun x => 10 - x) (by decide)

theorem runScheduler_final_states_witness :
    ∃ N st3, (∀ n, N ≤ n → runScheduler (fun _ => (0, 1)) n exLoadChain = some st3) ∧
      (∀ i ∈ exLoadChain.validTasks,
        st3.stateOf i = some TaskState.completed ∨ st3.stateOf i = some TaskState.failed ∨
          st3.stateOf i = some TaskState.cancelled) ∧
      st3.taskQueue = [] ∧ st3.blockedTasks = ∅ ∧ st3.taskAssignation = [] ∧
      (st3.freeWorkers.length : Int) = exLoadChain.nworkers ∧ st3.freeWorkers.Nodup :=
  runScheduler_final_states (fun _ => (0, 1)) exLoadChain exLoadChain_loadOK
    exLoadChain_acyclic

/-- C10 (scheduler termination): from a consistent acyclic load with `nworkers ≥ 1`,
with a back end whose every wait reports the completion of one running task,
`runScheduler` returns for every sufficient fuel (main loop and final loop
terminate), and along the run `waitForAnyWorker` is only ever called in a state
in which some task is bound to a worker. -/
theorem runScheduler_terminates (backend : Nat → Nat × Int) (st : Engine) (h : LoadOK st)
    (hacyc : Acyclic st.revDepMap) :
    (∃ N, ∀ n, N ≤ n → (runScheduler backend n st).isSome = true) ∧
    ∀ n, List.Chain' (fun s s2 => s2.nwaits = s.nwaits ∨ s.taskAssignation ≠ [])
      (runTrace backend n st) := by
  refine ⟨?_, fun n => ?_⟩
  · obtain ⟨N, st3, hN⟩ := runScheduler_total backend h hacyc
    exact ⟨N, fun n hn => by rw [hN n hn]; rfl⟩
  · obtain ⟨st1, -, -, htr⟩ := runTrace_ok backend n h hacyc
    exact htr.chain.imp fun a b hab => hab.waits

theorem runScheduler_terminates_witness :
    (∃ N, ∀ n, N ≤ n → (runScheduler (fun k => (k, 1 - k)) n exLoadChain).isSome = true) ∧
    ∀ n, List.Chain' (fun s s2 => s2.nwaits = s.nwaits ∨ s.taskAssignation ≠ [])
      (runTrace (fun k => (k, 1 - k)) n exLoadChain) :=
  runScheduler_terminates (fun k => (k, 1 - k)) exLoadChain exLoadChain_loadOK
    exLoadChain_acyclic

theorem Frame.same (s : Engine) : Frame s s :=
  ⟨⟨rfl, rfl, rfl⟩, ⟨rfl, rfl, rfl⟩, ⟨[], by simp, by simp⟩⟩

theorem Frame.comp {s1 s2 s3 : Engine} (h12 : Frame s1 s2) (h23 : Frame s2 s3) :
    Frame s1 s3 := by
  obtain ⟨new1, hq1, hp1⟩ := h12.queue
  obtain ⟨new2, hq2, hp2⟩ := h23.queue
  refine ⟨⟨h23.workers.1.trans h12.workers.1, h23.workers.2.1.trans h12.workers.2.1,
    h23.workers.2.2.trans h12.workers.2.2⟩,
    ⟨h23.logs.1.trans h12.logs.1, h23.logs.2.1.trans h12.logs.2.1,
      h23.logs.2.2.trans h12.logs.2.2⟩, ⟨new1 ++ new2, ?_, ?_⟩⟩
  · rw [hq2, hq1, List.append_assoc]
  · rw [hp2, hp1, List.append_assoc]

theorem foldlM_frame {f : Engine → Nat → Option Engine}
    (h : ∀ s c s2, f s c = some s2 → Frame s s2) (l : List Nat) :
    ∀ s s2, l.foldlM f s = some s2 → Frame s s2 := by
  induction l with
  | nil =>
    intro s s2 hf
    cases Option.some.inj hf
    exact Frame.same s
  | cons c l ih =>
    intro s s2 hf
    rw [List.foldlM_cons] at hf
    cases hfc : f s c with
    | none => rw [hfc] at hf; simp at hf
    | some s1 =>
      rw [hfc] at hf
      exact (h s c s1 hfc).comp (ih s1 s2 hf)

theorem updateChild_frame {r : Engine → Nat → Option Engine}
    (h : ∀ s c s2, r s c = some s2 → Frame s s2) (p : Nat) (state : TaskState)
    (s : Engine) (c : Nat) (s2 : Engine) (h1 : updateChild r p state s c = some s2) :
    Frame s s2 := by
  unfold updateChild at h1
  by_cases hc : state = TaskState.completed
  · simp only [hc, if_true] at h1
    cases hm : s.taskMap c with
    | none => simp [hm] at h1
    | some child =>
      simp only [hm] at h1
      split at h1
      · cases Option.some.inj h1
        exact ⟨⟨rfl, rfl, rfl⟩, ⟨rfl, rfl, rfl⟩, ⟨[c], rfl, rfl⟩⟩
      · cases Option.some.inj h1
        exact ⟨⟨rfl, rfl, rfl⟩, ⟨rfl, rfl, rfl⟩, ⟨[], by simp [Engine.setTask],
          by simp [Engine.setTask]⟩⟩
  · by_cases hf : state = TaskState.failed ∨ state = TaskState.cancelled
    · simp only [hc, hf, if_false, if_true] at h1
      cases hm : s.taskMap c with
      | none => simp [hm] at h1
      | some child =>
        simp only [hm] at h1
        have := h _ _ _ h1
        exact ⟨this.workers, this.logs, this.queue⟩
    · simp only [hc, hf, if_false] at h1
      cases Option.some.inj h1
      exact Frame.same s

theorem updateDependencies_frame (n : Nat) :
    ∀ s p s2, updateDependencies n s p = some s2 → Frame s s2 := by
  induction n with
  | zero => intro s p s2 h; simp [updateDependencies] at h
  | succ n ih =>
    intro s p s2 h
    rw [updateDependencies] at h
    cases hp : s.taskMap p with
    | none => simp [hp] at h
    | some t =>
      simp only [hp] at h
      cases hl : s.revDepMap.lookup p with
      | none =>
        simp only [hl] at h
        cases Option.some.inj h
        exact Frame.same s
      | some cs =>
        simp only [hl] at h
        exact foldlM_frame (updateChild_frame ih p t.taskState) cs s s2 h

/-- What `allocate` does to the worker pool, the queue and the logs. -/
theorem allocate_frame {s s2 : Engine} {i : Nat} (h : allocate s i = some s2) :
    ∃ w rest, s.freeWorkers = w :: rest ∧ s2.freeWorkers = rest ∧
      s2.taskAssignation = s.taskAssignation.filter (fun b => b.1 != w) ++ [(w, i)] ∧
      s2.taskQueue = s.taskQueue ∧ s2.pushed = s.pushed ∧ s2.popped = s.popped ∧
      s2.nworkers = s.nworkers := by
  unfold allocate at h
  cases hF : s.freeWorkers with
  | nil => simp [hF] at h
  | cons w rest =>
    cases ht : s.taskMap i with
    | none => simp [hF, ht] at h
    | some t =>
      simp only [hF, ht] at h
      cases Option.some.inj h
      exact ⟨w, rest, rfl, rfl, rfl, rfl, rfl, rfl, rfl⟩

/-- What a completion does to the worker pool, the queue and the logs: worker `w` is
unbound and freed, and on a retry the head of the free workers is bound again. -/
theorem workerCompleted_frame {n : Nat} {s s2 : Engine} {w : Int} {i : Nat} {rc : Int}
    (h : workerCompleted n s w i rc = some s2) :
    (∃ new, s2.taskQueue = s.taskQueue ++ new ∧ s2.pushed = s.pushed ++ new) ∧
      s2.popped = s.popped ∧ s2.nworkers = s.nworkers ∧
      ((s2.freeWorkers = s.freeWorkers ++ [w] ∧
          s2.taskAssignation = s.taskAssignation.filter (fun b => b.1 != w)) ∨
        ∃ w0 rest, s.freeWorkers ++ [w] = w0 :: rest ∧ s2.freeWorkers = rest ∧
          s2.taskAssignation =
            (s.taskAssignation.filter (fun b => b.1 != w)).filter (fun b => b.1 != w0) ++
              [(w0, i)]) := by
  unfold workerCompleted at h
  cases ht : s.taskMap i with
  | none => simp [ht] at h
  | some t =>
    simp only [ht] at h
    unfold taskEpilogue at h
    simp only [Engine.setTask, if_true] at h
    split at h
    · split at h
      · obtain ⟨w0, rest, h1, h2, h3, h4, h5, h6, h7⟩ := allocate_frame h
        exact ⟨⟨[], by simpa using h4, by simpa using h5⟩, h6, h7,
          Or.inr ⟨w0, rest, h1, h2, h3⟩⟩
      · have hf := updateDependencies_frame _ _ _ _ h
        exact ⟨hf.queue, hf.logs.1, hf.workers.2.2, Or.inl ⟨hf.workers.1, hf.workers.2.1⟩⟩
    · have hf := updateDependencies_frame _ _ _ _ h
      exact ⟨hf.queue, hf.logs.1, hf.workers.2.2, Or.inl ⟨hf.workers.1, hf.workers.2.1⟩⟩

theorem waitForAnyWorker_frame {backend : Nat → Nat × Int} {n : Nat} {s s2 : Engine}
    (h : waitForAnyWorker backend n s = some s2) :
    ∃ w i, (w, i) ∈ s.taskAssignation ∧
      (∃ new, s2.taskQueue = s.taskQueue ++ new ∧ s2.pushed = s.pushed ++ new) ∧
      s2.popped = s.popped ∧ s2.nworkers = s.nworkers ∧
      ((s2.freeWorkers = s.freeWorkers ++ [w] ∧
          s2.taskAssignation = s.taskAssignation.filter (fun b => b.1 != w)) ∨
        ∃ w0 rest, s.freeWorkers ++ [w] = w0 :: rest ∧ s2.freeWorkers = rest ∧
          s2.taskAssignation =
            (s.taskAssignation.filter (fun b => b.1 != w)).filter (fun b => b.1 != w0) ++
              [(w0, i)]) := by
  unfold waitForAnyWorker at h
  cases hb : s.taskAssignation[(backend s.nwaits).1 % s.taskAssignation.length]? with
  | none => simp [hb] at h
  | some b =>
    obtain ⟨w, i⟩ := b
    simp only [hb] at h
    have hf := workerCompleted_frame h
    exact ⟨w, i, List.getElem?_mem hb, hf⟩

theorem innerTrace_forall (backend : Nat → Nat × Int) (P : Engine → Prop)
    (halloc : ∀ s i rest s1, P s → s.taskQueue = i :: rest →
      allocate { s with taskQueue := rest, popped := s.popped ++ [i] } i = some s1 → P s1)
    (hwait : ∀ n s s1, P s → waitForAnyWorker backend n s = some s1 → P s1) (n : Nat) :
    ∀ s, P s → (∀ x ∈ innerTrace backend n s, P x) ∧
      ∀ s1, innerLoop backend n s = some s1 → P s1 := by
  induction n with
  | zero =>
    intro s hs
    refine ⟨fun x hx => ?_, fun s1 h => by simp [innerLoop] at h⟩
    simp only [innerTrace, List.mem_singleton] at hx
    exact hx ▸ hs
  | succ n ih =>
    intro s hs
    rw [innerTrace, innerLoop]
    cases hQ : s.taskQueue with
    | nil =>
      refine ⟨fun x hx => ?_, fun s1 h => ?_⟩
      · simp only [List.mem_singleton] at hx
        exact hx ▸ hs
      · cases Option.some.inj h
        exact hs
    | cons i rest =>
      simp only []
      by_cases hF : s.freeWorkers ≠ []
      · rw [if_pos hF, if_pos hF]
        cases ha : allocate { s with taskQueue := rest, popped := s.popped ++ [i] } i with
        | none =>
          refine ⟨fun x hx => ?_, fun s1 h => by simp at h⟩
          simp only [List.mem_singleton] at hx
          exact hx ▸ hs
        | some s1 =>
          have h1 := halloc s i rest s1 hs hQ ha
          refine ⟨fun x hx => ?_, fun s2 h => ?_⟩
          · rcases List.mem_cons.1 hx with rfl | hx
            · exact hs
            · exact (ih s1 h1).1 x hx
          · rw [Option.some_bind] at h
            exact (ih s1 h1).2 s2 h
      · rw [if_neg hF, if_neg hF]
        cases hw : waitForAnyWorker backend n s with
        | none =>
          refine ⟨fun x hx => ?_, fun s1 h => by simp at h⟩
          simp only [List.mem_singleton] at hx
          exact hx ▸ hs
        | some s1 =>
          have h1 := hwait n s s1 hs hw
          refine ⟨fun x hx => ?_, fun s2 h => ?_⟩
          · rcases List.mem_cons.1 hx with rfl | hx
            · exact hs
            · exact (ih s1 h1).1 x hx
          · rw [Option.some_bind] at h
            exact (ih s1 h1).2 s2 h

theorem mainTrace_forall (backend : Nat → Nat × Int) (P : Engine → Prop)
    (halloc : ∀ s i rest s1, P s → s.taskQueue = i :: rest →
      allocate { s with taskQueue := rest, popped := s.popped ++ [i] } i = some s1 → P s1)
    (hwait : ∀ n s s1, P s → waitForAnyWorker backend n s = some s1 → P s1) (n : Nat) :
    ∀ s, P s → (∀ x ∈ mainTrace backend n s, P x) ∧
      ∀ s1, mainLoop backend n s = some s1 → P s1 := by
  induction n with
  | zero =>
    intro s hs
    refine ⟨fun x hx => ?_, fun s1 h => by simp [mainLoop] at h⟩
    simp only [mainTrace, List.mem_singleton] at hx
    exact hx ▸ hs
  | succ n ih =>
    intro s hs
    rw [mainTrace, mainLoop]
    by_cases hg : s.taskQueue ≠ [] ∨ s.blockedTasks ≠ ∅
    · rw [if_pos hg, if_pos hg]
      obtain ⟨hin1, hin2⟩ := innerTrace_forall backend P halloc hwait n s hs
      cases hi : innerLoop backend n s with
      | none =>
        refine ⟨fun x hx => ?_, fun s1 h => by simp at h⟩
        simp only [List.append_nil] at hx
        exact hin1 x hx
      | some s1 =>
        have h1 := hin2 s1 hi
        simp only [Option.some_bind]
        by_cases hb : s1.blockedTasks ≠ ∅
        · rw [if_pos hb, if_pos hb]
          cases hw : waitForAnyWorker backend n s1 with
          | none =>
            refine ⟨fun x hx => ?_, fun s3 h => by simp at h⟩
            simp only [List.append_nil] at hx
            exact hin1 x hx
          | some s2 =>
            have h2 := hwait n s1 s2 h1 hw
            refine ⟨fun x hx => ?_, fun s3 h => ?_⟩
            · rcases List.mem_append.1 hx with hx | hx
              · exact hin1 x hx
              · exact (ih s2 h2).1 x hx
            · rw [Option.some_bind] at h
              exact (ih s2 h2).2 s3 h
        · rw [if_neg hb, if_neg hb]
          refine ⟨fun x hx => ?_, fun s3 h => (ih s1 h1).2 s3 h⟩
          rcases List.mem_append.1 hx with hx | hx
          · exact hin1 x hx
          · exact (ih s1 h1).1 x hx
    · rw [if_neg hg, if_neg hg]
      refine ⟨fun x hx => ?_, fun s1 h => ?_⟩
      · simp only [List.mem_singleton] at hx
        exact hx ▸ hs
      · cases Option.some.inj h
        exact hs

theorem drainTrace_forall (backend : Nat → Nat × Int) (P : Engine → Prop)
    (hwait : ∀ n s s1, P s → waitForAnyWorker backend n s = some s1 → P s1) (n : Nat) :
    ∀ s, P s → ∀ x ∈ drainTrace backend n s, P x := by
  induction n with
  | zero =>
    intro s hs x hx
    simp only [drainTrace, List.mem_singleton] at hx
    exact hx ▸ hs
  | succ n ih =>
    intro s hs x hx
    rw [drainTrace] at hx
    by_cases hg : (s.freeWorkers.length : Int) ≠ s.nworkers
    · rw [if_pos hg] at hx
      cases hw : waitForAnyWorker backend n s with
      | none =>
        simp only [hw, List.mem_singleton] at hx
        exact hx ▸ hs
      | some s1 =>
        simp only [hw] at hx
        rcases List.mem_cons.1 hx with rfl | hx
        · exact hs
        · exact ih s1 (hwait n s s1 hs hw) x hx
    · rw [if_neg hg] at hx
      simp only [List.mem_singleton] at hx
      exact hx ▸ hs

/-- A property that the classification pass establishes and that every `allocate`
of the loop and every `waitForAnyWorker` keeps holds in every state of the
trace of `runScheduler`. -/
theorem runTrace_forall (backend : Nat → Nat × Int) (P : Engine → Prop) (st : Engine)
    (h0 : st.nworkers = 0 → P st)
    (hcls : ∀ st1, st.validTasks.foldlM classifyStep st = some st1 → P st1)
    (halloc : ∀ s i rest s1, P s → s.taskQueue = i :: rest →
      allocate { s with taskQueue := rest, popped := s.popped ++ [i] } i = some s1 → P s1)
    (hwait : ∀ n s s1, P s → waitForAnyWorker backend n s = some s1 → P s1) (n : Nat) :
    ∀ x ∈ runTrace backend n st, P x := by
  intro x hx
  unfold runTrace at hx
  by_cases hnw : st.nworkers = 0
  · rw [if_pos hnw, List.mem_singleton] at hx
    exact hx ▸ h0 hnw
  · rw [if_neg hnw] at hx
    cases hc : st.validTasks.foldlM classifyStep st with
    | none => simp [hc] at hx
    | some st1 =>
      simp only [hc] at hx
      have h1 := hcls st1 hc
      obtain ⟨hm1, hm2⟩ := mainTrace_forall backend P halloc hwait n st1 h1
      rcases List.mem_append.1 hx with hx | hx
      · exact hm1 x hx
      · cases hml : mainLoop backend n st1 with
        | none => simp [hml] at hx
        | some st2 =>
          simp only [hml] at hx
          exact drainTrace_forall backend P hwait n st2 (hm2 st2 hml) x hx

theorem workersOK_bind {N : Int} {F rest : List Int} {A : List (Int × Nat)} {w : Int}
    {i : Nat} (hF : F = w :: rest)
    (h : (F ++ A.map Prod.fst).Nodup ∧ ((F.length + A.length : Nat) : Int) = N) :
    (rest ++ (A.filter (fun b => b.1 != w) ++ [(w, i)]).map Prod.fst).Nodup ∧
      ((rest.length + (A.filter (fun b => b.1 != w) ++ [(w, i)]).length : Nat) : Int) = N := by
  subst hF
  obtain ⟨h1, h2⟩ := h
  have hwA : w ∉ A.map Prod.fst := by
    have h3 := (List.nodup_cons.1 h1).1
    exact fun hc => h3 (List.mem_append_right _ hc)
  have hfilter : A.filter (fun b => b.1 != w) = A := by
    rw [List.filter_eq_self]
    intro b hb
    simp only [bne_iff_ne, ne_eq]
    rintro rfl
    exact hwA (List.mem_map_of_mem _ hb)
  rw [hfilter]
  refine ⟨?_, ?_⟩
  · rw [List.map_append, List.map_singleton]
    have hperm : (rest ++ (A.map Prod.fst ++ [w])).Perm (w :: rest ++ A.map Prod.fst) := by
      rw [← List.append_assoc]
      exact (List.perm_append_singleton _ _).trans (by simp)
    exact hperm.nodup_iff.2 h1
  · rw [← h2]
    simp only [List.length_append, List.length_cons, List.length_singleton, List.length_nil]
    congr 1
    omega

theorem workersOK_unbind {N : Int} {F : List Int} {A : List (Int × Nat)} {w : Int} {i : Nat}
    (hmem : (w, i) ∈ A)
    (h : (F ++ A.map Prod.fst).Nodup ∧ ((F.length + A.length : Nat) : Int) = N) :
    ((F ++ [w]) ++ (A.filter (fun b => b.1 != w)).map Prod.fst).Nodup ∧
      (((F ++ [w]).length + (A.filter (fun b => b.1 != w)).length : Nat) : Int) = N := by
  obtain ⟨h1, h2⟩ := h
  have hk : (A.map Prod.fst).Nodup := (List.nodup_append.1 h1).2.1
  have hperm := unbind_perm A w i hmem hk
  refine ⟨?_, ?_⟩
  · have hp2 : ((F ++ [w]) ++ (A.filter (fun b => b.1 != w)).map Prod.fst).Perm
        (F ++ A.map Prod.fst) := by
      rw [List.append_assoc]
      exact List.Perm.append_left _ (by simpa using (hperm.map Prod.fst).symm)
    exact hp2.nodup_iff.2 h1
  · rw [← h2]
    have hl := hperm.length_eq
    simp only [List.length_cons] at hl
    simp only [List.length_append, List.length_singleton]
    congr 1
    omega

theorem workersOK_allocate {N : Int} {s s2 : Engine} {i : Nat} (h : WorkersOK N s)
    (ha : allocate s i = some s2) : WorkersOK N s2 := by
  obtain ⟨w, rest, h1, h2, h3, -⟩ := allocate_frame ha
  unfold WorkersOK
  rw [h2, h3]
  exact workersOK_bind h1 h

theorem workersOK_wait {backend : Nat → Nat × Int} {N : Int} {n : Nat} {s s2 : Engine}
    (h : WorkersOK N s) (hw : waitForAnyWorker backend n s = some s2) : WorkersOK N s2 := by
  obtain ⟨w, i, hmem, -, -, -, hcase⟩ := waitForAnyWorker_frame hw
  have hu := workersOK_unbind hmem h
  unfold WorkersOK
  rcases hcase with ⟨h1, h2⟩ | ⟨w0, rest, h1, h2, h3⟩
  · rw [h1, h2]; exact hu
  · rw [h2, h3]
    exact workersOK_bind h1 hu

theorem classify_frame {st st1 : Engine}
    (h : st.validTasks.foldlM classifyStep st = some st1) : Frame st st1 := by
  refine foldlM_frame ?_ _ _ _ h
  intro s c s2 hc
  unfold classifyStep at hc
  cases hm : s.taskMap c with
  | none => simp [hm] at hc
  | some t =>
    simp only [hm] at hc
    split at hc
    · cases Option.some.inj hc
      exact ⟨⟨rfl, rfl, rfl⟩, ⟨rfl, rfl, rfl⟩, ⟨[c], rfl, rfl⟩⟩
    · split at hc
      · cases Option.some.inj hc
        exact ⟨⟨rfl, rfl, rfl⟩, ⟨rfl, rfl, rfl⟩, ⟨[], by simp, by simp⟩⟩
      · cases Option.some.inj hc
        exact Frame.same s

/-- A sound worker pool stays sound along every run of `runScheduler`: from a state
whose free and bound worker ids are pairwise distinct and `N` in number, every
state of the run has that property, whatever the tasks and the index. -/
theorem runTrace_workersOK (backend : Nat → Nat × Int) (N : Int) (st : Engine)
    (h0 : WorkersOK N st) (n : Nat) : ∀ s ∈ runTrace backend n st, WorkersOK N s := by
  refine runTrace_forall backend (WorkersOK N) st (fun _ => h0) ?_ ?_ ?_ n
  · intro st1 h1
    have hf := classify_frame h1
    unfold WorkersOK
    rw [hf.workers.1, hf.workers.2.1]
    exact h0
  · intro s i rest s1 hs _ ha
    exact workersOK_allocate (s := { s with taskQueue := rest, popped := s.popped ++ [i] })
      hs ha
  · intro n s s1 hs hw
    exact workersOK_wait hs hw

/-- C17 (worker conservation) fails on the code: with CPU binding, two workers and
one CPU, `init` places `nworkers = 2` ids in `freeWorkers`, but they are the same
id, 0 and 0; the run reaches a state, after both tasks were handed to `allocate`,
in which `freeWorkers` is empty and worker 0 holds the only binding, so that
`|freeWorkers| + |bindings| = 1`, not `nworkers = 2`. -/
theorem worker_conservation_fails :
    (init exOversubscribed).freeWorkers = [0, 0] ∧
      (init exOversubscribed).nworkers = 2 ∧
      ∃ s ∈ runTrace (fun _ => (0, 0)) 3 (init exOversubscribed),
        s.freeWorkers = [] ∧ s.taskAssignation = [(0, 2)] ∧
        ((s.freeWorkers.length + s.taskAssignation.length : Nat) : Int) ≠
          (init exOversubscribed).nworkers := by
  refine ⟨by decide, by decide, ?_⟩
  have h : (runTrace (fun _ => (0, 0)) 3 (init exOversubscribed)).any
      (fun s => decide (s.freeWorkers = [] ∧ s.taskAssignation = [(0, 2)] ∧
        ((s.freeWorkers.length + s.taskAssignation.length : Nat) : Int) ≠
          (init exOversubscribed).nworkers)) = true := by decide
  obtain ⟨s, hs, hne⟩ := List.any_eq_true.1 h
  exact ⟨s, hs, of_decide_eq_true hne⟩

theorem exLoadDiamond_loadOK : LoadOK exLoadDiamond :=
  { valid_nodup := by decide
    present := by decide
    state_waiting := by decide
    state_blocked := by decide
    deps_valid := by decide
    index_sound := by decide
    index_complete := by decide
    queue_empty := rfl
    blocked_empty := rfl
    unbound := rfl
    workers_nodup := by decide
    workers_count := by decide
    workers_pos := by decide
    fresh := ⟨rfl, rfl, rfl⟩ }

theorem exLoadDiamond_acyclic : Acyclic exLoadDiamond.revDepMap :=
  acyclic_of_rank (fun x => 10 - x) (by decide)

theorem chain_pairwise {R : Engine → Engine → Prop}
    (htrans : ∀ a b c, R a b → R b c → R a c) {l : List Engine} (h : List.Chain' R l) :
    List.Pairwise R l := by
  haveI : IsTrans Engine R := ⟨htrans⟩
  exact List.chain'_iff_pairwise.1 h

theorem chain_of_forall {R : Engine → Engine → Prop} {P : Engine → Prop} :
    ∀ l : List Engine, (∀ x ∈ l, P x) → List.Chain' R l →
      List.Chain' (fun a b => P a ∧ R a b) l := by
  intro l
  induction l with
  | nil => intro _ _; exact List.chain'_nil
  | cons a l ih =>
    intro hP hc
    cases l with
    | nil => exact List.chain'_singleton a
    | cons b l =>
      rw [List.chain'_cons] at hc ⊢
      exact ⟨⟨hP a (List.mem_cons_self _ _), hc.1⟩,
        ih (fun x hx => hP x (List.mem_cons_of_mem _ hx)) hc.2⟩

/-- C13 (terminal states are monotonic): in a consistent acyclic load the valid
tasks are `waiting` or `blocked`; and in every run of `runScheduler` from it, for
every state `s` of the run and every later state `s2`, a task that is
`completed`, `failed` or `cancelled` in `s` has the same state in `s2`. -/
theorem terminal_states_monotonic (backend : Nat → Nat × Int) (st : Engine) (h : LoadOK st)
    (hacyc : Acyclic st.revDepMap) :
    (∀ i ∈ st.validTasks,
      st.stateOf i = some TaskState.waiting ∨ st.stateOf i = some TaskState.blocked) ∧
    ∀ n, List.Pairwise
      (fun s s2 => ∀ x v, s.stateOf x = some v → v.terminal = true → s2.stateOf x = some v)
      (runTrace backend n st) := by
  refine ⟨fun i hi => ?_, fun n => ?_⟩
  · rcases h.state hi with h1 | h1
    · exact Or.inl h1.1
    · exact Or.inr h1.1
  · obtain ⟨st1, -, -, htr⟩ := runTrace_ok backend n h hacyc
    refine chain_pairwise ?_ (htr.chain.imp fun a b hab => hab.terminal_kept)
    intro a b c hab hbc x v hx hv
    exact hbc x v (hab x v hx hv) hv

theorem terminal_states_monotonic_witness :
    (∀ i ∈ exLoadChain.validTasks,
      exLoadChain.stateOf i = some TaskState.waiting ∨
        exLoadChain.stateOf i = some TaskState.blocked) ∧
    ∀ n, List.Pairwise
      (fun s s2 => ∀ x v, s.stateOf x = some v → v.terminal = true → s2.stateOf x = some v)
      (runTrace (fun _ => (0, 1)) n exLoadChain) :=
  terminal_states_monotonic (fun _ => (0, 1)) exLoadChain exLoadChain_loadOK
    exLoadChain_acyclic

/-- In a state of the invariant whose index is the one of the load, a valid task
with no dependency left has all its load-time dependencies `completed`. -/
theorem parents_completed {st s : Engine} (h : LoadOK st) (hs : Inv s)
    (hV : s.validTasks = st.validTasks) (hR : s.revDepMap = st.revDepMap) {c : Nat}
    (hc : c ∈ s.validTasks) (hdeps : s.depsOf c = []) :
    ∀ p ∈ st.depsOf c, s.stateOf p = some TaskState.completed := by
  intro p hp
  have hedge : Edge s.revDepMap p c := by
    rw [hR]
    exact h.index_complete c (hV ▸ hc) p hp
  by_contra hne
  have := (hs.deps_iff c hc p).2 ⟨hedge, hne⟩
  rw [hdeps] at this
  simp at this

/-- C14 (dependencies are honoured): in every run of `runScheduler` from a
consistent acyclic load, every task that a step of the run hands to `allocate`
(from the main loop or for a retry) has all its load-time dependencies
`completed` in the state before the step; and in every state of the run, every
task handed to `allocate` so far has all its load-time dependencies
`completed`. -/
theorem dependencies_honoured (backend : Nat → Nat × Int) (st : Engine) (h : LoadOK st)
    (hacyc : Acyclic st.revDepMap) (n : Nat) :
    List.Chain'
      (fun s s2 => ∃ new, s2.dispatched = s.dispatched ++ new ∧
        ∀ c ∈ new, ∀ p ∈ st.depsOf c, s.stateOf p = some TaskState.completed)
      (runTrace backend n st) ∧
    ∀ s ∈ runTrace backend n st, ∀ c ∈ s.dispatched, ∀ p ∈ st.depsOf c,
      s.stateOf p = some TaskState.completed := by
  obtain ⟨st1, h1, -, htr⟩ := runTrace_ok backend n h hacyc
  obtain ⟨st1b, h1b, -, -, -, -, -, -, -, hd1⟩ := classify_inv h hacyc
  rw [h1] at h1b
  cases Option.some.inj h1b
  have hcfg := runTrace_config backend n h hacyc
  constructor
  · have hch := chain_of_forall (R := Trans)
      (P := fun s => Inv s ∧ s.validTasks = st.validTasks ∧ s.revDepMap = st.revDepMap)
      (runTrace backend n st)
      (fun x hx => ⟨htr.inv x hx, (hcfg x hx).1, (hcfg x hx).2.1⟩) htr.chain
    refine hch.imp ?_
    rintro a b ⟨⟨ha, hV, hR⟩, hab⟩
    obtain ⟨new, hnew, hsub⟩ := hab.dispatched_ext
    exact ⟨new, hnew, fun c hc => parents_completed h ha hV hR (hsub c hc).2 (hsub c hc).1⟩
  · have key := htr.forall_of_step
      (P := fun s => (s.validTasks = st.validTasks ∧ s.revDepMap = st.revDepMap) ∧
        ∀ c ∈ s.dispatched, ∀ p ∈ st.depsOf c, s.stateOf p = some TaskState.completed)
      ⟨⟨(hcfg st1 (List.mem_of_mem_head? htr.head)).1,
          (hcfg st1 (List.mem_of_mem_head? htr.head)).2.1⟩,
        by rw [hd1]; intro c hc; cases hc⟩
      (by
        rintro x y hx hxy ⟨⟨hV, hR⟩, hP⟩
        refine ⟨⟨hxy.config.1.trans hV, hxy.config.2.1.trans hR⟩, ?_⟩
        obtain ⟨new, hnew, hsub⟩ := hxy.dispatched_ext
        intro c hc p hp
        rw [hnew, List.mem_append] at hc
        refine hxy.terminal_kept p _ ?_ rfl
        rcases hc with hc | hc
        · exact hP c hc p hp
        · exact parents_completed h hx hV hR (hsub c hc).2 (hsub c hc).1 p hp)
    exact fun s hs => (key s hs).2

theorem dependencies_honoured_witness :
    (List.Chain'
      (fun s s2 => ∃ new, s2.dispatched = s.dispatched ++ new ∧
        ∀ c ∈ new, ∀ p ∈ exLoadDiamond.depsOf c, s.stateOf p = some TaskState.completed)
      (runTrace (fun k => (k, 0)) 20 exLoadDiamond) ∧
    ∀ s ∈ runTrace (fun k => (k, 0)) 20 exLoadDiamond, ∀ c ∈ s.dispatched,
      ∀ p ∈ exLoadDiamond.depsOf c, s.stateOf p = some TaskState.completed) ∧
    (runScheduler (fun k => (k, 0)) 20 exLoadDiamond).map (fun s => s.dispatched) =
      some [1, 2, 3, 4] :=
  ⟨dependencies_honoured (fun k => (k, 0)) exLoadDiamond exLoadDiamond_loadOK
    exLoadDiamond_acyclic 20, by decide⟩

theorem mkEngine_stateOf {tasks : List (Nat × GreasyTask)} {valid : List Nat}
    {revDeps : List (Nat × List Nat)} {blocked : Finset Nat} {workers : List Int}
    {maxRetries : Option Int} {x : Nat} {v : TaskState}
    (h : (mkEngine tasks valid revDeps blocked workers maxRetries).stateOf x = some v) :
    ∃ e ∈ tasks, e.1 = x ∧ e.2.taskState = v := by
  unfold Engine.stateOf mkEngine at h
  simp only [Option.map_eq_some'] at h
  obtain ⟨t, ht, hv⟩ := h
  induction tasks with
  | nil => simp at ht
  | cons e l ih =>
    obtain ⟨k, u⟩ := e
    rw [List.lookup_cons] at ht
    by_cases hk : x = k
    · subst hk
      simp only [beq_self_eq_true] at ht
      cases Option.some.inj ht
      exact ⟨(x, t), List.mem_cons_self _ _, rfl, hv⟩
    · have hb : (x == k) = false := by simpa using hk
      simp only [hb] at ht
      obtain ⟨e, he, h1, h2⟩ := ih ht
      exact ⟨e, List.mem_cons_of_mem _ he, h1, h2⟩

theorem exLoadChain_none_cancelled :
    ∀ x, exLoadChain.stateOf x ≠ some TaskState.cancelled := by
  intro x hx
  obtain ⟨e, he, -, h2⟩ := mkEngine_stateOf hx
  have hall : ∀ e ∈ [(1, mkTask [] TaskState.waiting), (2, mkTask [1] TaskState.blocked),
      (3, mkTask [2] TaskState.blocked)], e.2.taskState ≠ TaskState.cancelled := by decide
  exact hall e he h2

/-- C15 (cancellation has a cause): in every state of every run of `runScheduler`
from a consistent acyclic load in which no task is `cancelled`, every task `c`
that is `cancelled` is listed in the index under a task `p` that is `failed` or
`cancelled`. -/
theorem cancellation_has_cause (backend : Nat → Nat × Int) (st : Engine) (h : LoadOK st)
    (hacyc : Acyclic st.revDepMap)
    (hnc : ∀ x, st.stateOf x ≠ some TaskState.cancelled) (n : Nat) :
    ∀ s ∈ runTrace backend n st, ∀ c, s.stateOf c = some TaskState.cancelled →
      ∃ p, c ∈ s.children p ∧
        (s.stateOf p = some TaskState.failed ∨ s.stateOf p = some TaskState.cancelled) := by
  obtain ⟨st1, h1, -, htr⟩ := runTrace_ok backend n h hacyc
  obtain ⟨st1b, h1b, -, hT, hV, -⟩ := classify_inv h hacyc
  rw [h1] at h1b
  cases Option.some.inj h1b
  have hout := htr.forall_of_step
    (P := fun s => s.validTasks = st.validTasks ∧
      ∀ x, x ∉ st.validTasks → s.stateOf x = st.stateOf x)
    ⟨hV, fun x _ => by unfold Engine.stateOf; rw [hT]⟩
    (by
      rintro x y - hxy ⟨hv, hP⟩
      refine ⟨hxy.config.1.trans hv, fun z hz => ?_⟩
      rw [hxy.outside z (by rw [hv]; exact hz)]
      exact hP z hz)
  intro s hs c hc
  have hinv := htr.inv s hs
  by_cases hcv : c ∈ s.validTasks
  · obtain ⟨q, hq, hqs⟩ := (hinv.phase c hcv).cause hc
    exact ⟨q, ((hinv.deps_iff c hcv q).1 hq).1, hqs⟩
  · rw [(hout s hs).1] at hcv
    rw [(hout s hs).2 c hcv] at hc
    exact absurd hc (hnc c)

theorem cancellation_has_cause_witness :
    (∀ s ∈ runTrace (fun _ => (0, 1)) 20 exLoadChain, ∀ c,
      s.stateOf c = some TaskState.cancelled →
      ∃ p, c ∈ s.children p ∧
        (s.stateOf p = some TaskState.failed ∨ s.stateOf p = some TaskState.cancelled)) ∧
    (runScheduler (fun _ => (0, 1)) 20 exLoadChain).map
        (fun s => [1, 2, 3].map s.stateOf) =
      some [some TaskState.failed, some TaskState.cancelled, some TaskState.cancelled] :=
  ⟨cancellation_has_cause (fun _ => (0, 1)) exLoadChain exLoadChain_loadOK
    exLoadChain_acyclic exLoadChain_none_cancelled 20, by decide⟩

/-- In a state of the invariant a cancelled task is in neither log. -/
theorem cancelled_not_logged {s : Engine} (hs : Inv s) {c : Nat}
    (hc : s.stateOf c = some TaskState.cancelled) : c ∉ s.pushed ∧ c ∉ s.dispatched := by
  have hpop : c ∉ s.popped := by
    intro hp
    have hv := hs.popped_valid c hp
    rcases ((hs.phase c hv).popped).1 hp with h1 | h1 | h1 <;>
      · rw [hc] at h1; cases h1
  have hq : c ∉ s.taskQueue := by
    intro hq
    have hv := hs.queue_valid c hq
    have h1 := ((hs.phase c hv).queued).1 hq
    rw [hc] at h1
    cases h1
  refine ⟨?_, fun hd => hpop (hs.dispatched_popped c hd)⟩
  rw [hs.fifo, List.mem_append]
  rintro (h1 | h1)
  · exact hpop h1
  · exact hq h1

/-- C16 (cancelled tasks are never run): in every run of `runScheduler` from a
consistent acyclic load, a task that is `cancelled` in some state of the run is,
in every state of the run (earlier or later), neither among the tasks pushed onto
the ready queue so far nor among the tasks handed to `allocate` so far. -/
theorem cancelled_never_run (backend : Nat → Nat × Int) (st : Engine) (h : LoadOK st)
    (hacyc : Acyclic st.revDepMap) (n : Nat) :
    ∀ s ∈ runTrace backend n st, ∀ s2 ∈ runTrace backend n st, ∀ c,
      s.stateOf c = some TaskState.cancelled → c ∉ s2.pushed ∧ c ∉ s2.dispatched := by
  obtain ⟨st1, -, -, htr⟩ := runTrace_ok backend n h hacyc
  have hpw : List.Pairwise
      (fun a b => (∀ x, a.stateOf x = some TaskState.cancelled →
          b.stateOf x = some TaskState.cancelled) ∧
        (∀ x ∈ a.pushed, x ∈ b.pushed) ∧ (∀ x ∈ a.dispatched, x ∈ b.dispatched))
      (runTrace backend n st) := by
    refine chain_pairwise ?_ (htr.chain.imp fun a b hab => ?_)
    · rintro a b c ⟨h1, h2, h3⟩ ⟨h4, h5, h6⟩
      exact ⟨fun x hx => h4 x (h1 x hx), fun x hx => h5 x (h2 x hx),
        fun x hx => h6 x (h3 x hx)⟩
    · refine ⟨fun x hx => hab.terminal_kept x _ hx rfl, ?_, ?_⟩
      · obtain ⟨new, hnew, -⟩ := hab.pushed_ext
        intro x hx
        rw [hnew]
        exact List.mem_append_left _ hx
      · obtain ⟨new, hnew, -⟩ := hab.dispatched_ext
        intro x hx
        rw [hnew]
        exact List.mem_append_left _ hx
  have hsym := List.Pairwise.forall_of_forall
    (R := fun a b : Engine =>
      ((∀ x, a.stateOf x = some TaskState.cancelled →
          b.stateOf x = some TaskState.cancelled) ∧
        (∀ x ∈ a.pushed, x ∈ b.pushed) ∧ (∀ x ∈ a.dispatched, x ∈ b.dispatched)) ∨
      ((∀ x, b.stateOf x = some TaskState.cancelled →
          a.stateOf x = some TaskState.cancelled) ∧
        (∀ x ∈ b.pushed, x ∈ a.pushed) ∧ (∀ x ∈ b.dispatched, x ∈ a.dispatched)))
    (fun a b hab => hab.symm)
    (fun x _ => Or.inl ⟨fun _ hx => hx, fun _ hx => hx, fun _ hx => hx⟩)
    (hpw.imp fun hab => Or.inl hab)
  intro s hs s2 hs2 c hc
  rcases hsym hs hs2 with ⟨h1, -, -⟩ | ⟨-, h2, h3⟩
  · exact cancelled_not_logged (htr.inv s2 hs2) (h1 c hc)
  · have := cancelled_not_logged (htr.inv s hs) hc
    exact ⟨fun hp => this.1 (h2 c hp), fun hd => this.2 (h3 c hd)⟩

theorem cancelled_never_run_witness :
    (∀ s ∈ runTrace (fun _ => (0, 1)) 20 exLoadChain,
      ∀ s2 ∈ runTrace (fun _ => (0, 1)) 20 exLoadChain, ∀ c,
        s.stateOf c = some TaskState.cancelled → c ∉ s2.pushed ∧ c ∉ s2.dispatched) ∧
    (runScheduler (fun _ => (0, 1)) 20 exLoadChain).map
        (fun s => ([1, 2, 3].map s.stateOf, s.pushed, s.dispatched)) =
      some ([some TaskState.failed, some TaskState.cancelled, some TaskState.cancelled],
        [1], [1]) :=
  ⟨cancelled_never_run (fun _ => (0, 1)) exLoadChain exLoadChain_loadOK
    exLoadChain_acyclic 20, by decide⟩

/-- C18 (partition invariant): in every state of every run of `runScheduler` from
a consistent acyclic load, the ready queue has no duplicate and no task is bound
twice; no task is in two of the ready queue, the blocked set and the bindings; a
task that is `completed`, `failed` or `cancelled` is in none of them; every task
of the blocked set has dependencies left; every task of the ready queue has
none. -/
theorem partition_invariant (backend : Nat → Nat × Int) (st : Engine) (h : LoadOK st)
    (hacyc : Acyclic st.revDepMap) (n : Nat) :
    ∀ s ∈ runTrace backend n st,
      s.taskQueue.Nodup ∧ (s.taskAssignation.map Prod.snd).Nodup ∧
      (∀ i, ¬ (i ∈ s.taskQueue ∧ i ∈ s.blockedTasks) ∧ ¬ (i ∈ s.taskQueue ∧ s.bound i) ∧
        ¬ (i ∈ s.blockedTasks ∧ s.bound i)) ∧
      (∀ i v, s.stateOf i = some v → v.terminal = true →
        i ∉ s.taskQueue ∧ i ∉ s.blockedTasks ∧ ¬ s.bound i) ∧
      (∀ i ∈ s.blockedTasks, s.depsOf i ≠ []) ∧
      (∀ i ∈ s.taskQueue, s.depsOf i = []) := by
  obtain ⟨st1, -, -, htr⟩ := runTrace_ok backend n h hacyc
  intro s hs
  have hinv := htr.inv s hs
  have hQ : ∀ i ∈ s.taskQueue, i ∈ s.validTasks ∧ s.stateOf i = some TaskState.waiting :=
    fun i hi => ⟨hinv.queue_valid i hi,
      ((hinv.phase i (hinv.queue_valid i hi)).queued).1 hi⟩
  have hB : ∀ i ∈ s.blockedTasks,
      i ∈ s.validTasks ∧ s.stateOf i = some TaskState.blocked :=
    fun i hi => ⟨hinv.blocked_valid i hi,
      ((hinv.phase i (hinv.blocked_valid i hi)).blocked).1 hi⟩
  have hR : ∀ i, s.bound i → i ∈ s.validTasks ∧ s.stateOf i = some TaskState.running := by
    rintro i ⟨w, hw⟩
    have hv := hinv.bound_valid (w, i) hw
    exact ⟨hv, ((hinv.phase i hv).running).1 ⟨w, hw⟩⟩
  refine ⟨hinv.queue_nodup, hinv.bound_nodup, fun i => ⟨?_, ?_, ?_⟩, ?_, ?_, ?_⟩
  · rintro ⟨h1, h2⟩
    have := (hQ i h1).2
    rw [(hB i h2).2] at this
    cases this
  · rintro ⟨h1, h2⟩
    have := (hQ i h1).2
    rw [(hR i h2).2] at this
    cases this
  · rintro ⟨h1, h2⟩
    have := (hB i h1).2
    rw [(hR i h2).2] at this
    cases this
  · intro i v hv hterm
    refine ⟨fun h1 => ?_, fun h1 => ?_, fun h1 => ?_⟩
    · rw [(hQ i h1).2] at hv
      cases Option.some.inj hv
      cases hterm
    · rw [(hB i h1).2] at hv
      cases Option.some.inj hv
      cases hterm
    · rw [(hR i h1).2] at hv
      cases Option.some.inj hv
      cases hterm
  · intro i hi
    exact ((hinv.phase i (hB i hi).1).deps).2 (Or.inl (hB i hi).2)
  · intro i hi
    by_contra hne
    rcases ((hinv.phase i (hQ i hi).1).deps).1 hne with h1 | h1 <;>
      · rw [(hQ i hi).2] at h1; cases h1

theorem partition_invariant_witness :
    (∀ s ∈ runTrace (fun k => (k, 0)) 20 exLoadDiamond,
      s.taskQueue.Nodup ∧ (s.taskAssignation.map Prod.snd).Nodup ∧
      (∀ i, ¬ (i ∈ s.taskQueue ∧ i ∈ s.blockedTasks) ∧ ¬ (i ∈ s.taskQueue ∧ s.bound i) ∧
        ¬ (i ∈ s.blockedTasks ∧ s.bound i)) ∧
      (∀ i v, s.stateOf i = some v → v.terminal = true →
        i ∉ s.taskQueue ∧ i ∉ s.blockedTasks ∧ ¬ s.bound i) ∧
      (∀ i ∈ s.blockedTasks, s.depsOf i ≠ []) ∧
      (∀ i ∈ s.taskQueue, s.depsOf i = [])) ∧
    ((runTrace (fun k => (k, 0)) 20 exLoadDiamond).map
        fun s => (s.taskQueue, s.taskAssignation.map Prod.snd)).take 4 =
      [([1], []), ([], [1]), ([2, 3], []), ([3], [2])] :=
  ⟨partition_invariant (fun k => (k, 0)) exLoadDiamond exLoadDiamond_loadOK
    exLoadDiamond_acyclic 20, by decide⟩

end Greasy
